import Mathlib

/-!
Verification of the odd-crawler crawl engine against its specification.

Each Python component named by the claims is shallowly embedded: pure
functions become Lean functions, stateful methods become explicit state
passing over record types, Python floats are modelled as real numbers where
transcendental functions occur (`math.exp`) and as rationals where only
field arithmetic occurs, Python ints as `Int`/`Nat`, fallible code as
`Except`/`Option`.  Python dicts keyed by strings are modelled as
association lists with first-match lookup and in-place update, which is
faithful to dict semantics for the operations used (membership, get with
default, item assignment).
-/

namespace OddCrawler

/-- First-match lookup in an association list (Python `dict.get(k)`). -/
def lookupA {κ α : Type} [BEq κ] (m : List (κ × α)) (k : κ) : Option α :=
  (m.find? (fun p => p.1 == k)).map (·.2)

/-- Lookup with a default (Python `dict.get(k, d)`). -/
def getA {κ α : Type} [BEq κ] (m : List (κ × α)) (k : κ) (d : α) : α :=
  (lookupA m k).getD d

/-- In-place update: replace the first binding of `k`, else append
(Python `d[k] = v` on an insertion-ordered dict). -/
def setA {κ α : Type} [BEq κ] (m : List (κ × α)) (k : κ) (v : α) : List (κ × α) :=
  match m with
  | [] => [(k, v)]
  | (k', v') :: rest => if k' == k then (k, v) :: rest else (k', v') :: setA rest k v

/-- Remove the first binding of `k` (Python `d.pop(k, None)` state effect). -/
def eraseA {κ α : Type} [BEq κ] (m : List (κ × α)) (k : κ) : List (κ × α) :=
  match m with
  | [] => []
  | (k', v') :: rest => if k' == k then rest else (k', v') :: eraseA rest k

/-- Python `max(0.0, min(1.0, x))`. -/
def clamp01 (x : ℚ) : ℚ := max 0 (min 1 x)

/-! ## URL splitting and canonicalization (`oddcrawler/utils/canonical.py`)

Python strings are modelled as lists of Unicode scalar values (`List Char`);
`urllib.parse.urlsplit` / `urlunsplit`, `posixpath.normpath`, `parse_qsl`,
`urlencode`, `quote_plus` and `unquote` are embedded following modern
CPython (tab/CR/LF removal in `urlsplit`; the scheme requires a leading
letter; the pre-3.11 bracketed-host check, i.e. only mismatched `[`/`]`
raise).  `str.lower()` is modelled on its ASCII part (`Char.toLower`), and
`str.strip()` on the ASCII whitespace characters; the Unicode-only cases of
both are out of scope.  UTF-8 decoding with `errors="replace"` emits one
U+FFFD per rejected byte group; only valid sequences are exercised by the
theorems. -/

/-- Python strings as lists of scalar values. -/
abbrev PStr := List Char

deriving instance DecidableEq for Except

/-- Python `str.lower()` (ASCII part). -/
def pyLower (s : PStr) : PStr := s.map Char.toLower

/-- The whitespace characters stripped by Python `str.strip()` (ASCII part). -/
def isPyWs (c : Char) : Bool :=
  c = ' ' ∨ c = '\t' ∨ c = '\n' ∨ c = '\r' ∨ c = '\x0b' ∨ c = '\x0c'

/-- Python `str.strip()`. -/
def pyStrip (s : PStr) : PStr :=
  ((s.dropWhile isPyWs).reverse.dropWhile isPyWs).reverse

/-- Python `str.strip(t)` for a single strip character. -/
def pyStripChar (t : Char) (s : PStr) : PStr :=
  ((s.dropWhile (· = t)).reverse.dropWhile (· = t)).reverse

/-- Both-ends strip with an arbitrary predicate (the common shape of
`pyStrip` and `pyStripChar`). -/
def strip2 (p : Char → Bool) (s : PStr) : PStr :=
  ((s.dropWhile p).reverse.dropWhile p).reverse

/-- `urlsplit`'s removal of the unsafe bytes tab, CR and LF. -/
def removeUnsafeBytes (s : PStr) : PStr :=
  s.filter (fun c => ¬ (c = '\t' ∨ c = '\r' ∨ c = '\n'))

/-- The characters allowed in a URL scheme after the first letter. -/
def isSchemeChar (c : Char) : Bool := c.isAlpha ∨ c.isDigit ∨ c = '+' ∨ c = '-' ∨ c = '.'

/-- The result of `urllib.parse.urlsplit`. -/
structure SplitResult where
  scheme : PStr
  netloc : PStr
  path : PStr
  query : PStr
  fragment : PStr
deriving DecidableEq

/-- `s.split(t, 1)`: the part before the first occurrence of `t`, and the
remainder after it when `t` occurs. -/
def breakAt (t : Char) : PStr → PStr × Option PStr
  | [] => ([], none)
  | c :: rest =>
    if c = t then ([], some rest)
    else
      let (a, b) := breakAt t rest
      (c :: a, b)

/-- `s.rsplit(t, 1)` when `t` occurs: (before the last `t`, after it). -/
def rsplit1 (t : Char) (s : PStr) : Option (PStr × PStr) :=
  match breakAt t s.reverse with
  | (_, none) => none
  | (afterRev, some beforeRev) => some (beforeRev.reverse, afterRev.reverse)

/-- `s.split(t)` (all parts). -/
def splitChar (t : Char) (s : PStr) : List PStr :=
  s.foldr (fun c acc =>
    match acc with
    | [] => [[c]]
    | g :: gs => if c = t then [] :: g :: gs else (c :: g) :: gs) [[]]

/-- `urllib.parse.urlsplit` (fragments allowed): strip unsafe bytes, detect
the scheme, split off `//netloc`, then fragment and query.  Raises
(`ValueError`) only for a netloc with mismatched square brackets. -/
def urlsplitE (url0 : PStr) : Except String SplitResult :=
  let url1 := removeUnsafeBytes url0
  let pre := url1.takeWhile (· ≠ ':')
  let sr : PStr × PStr :=
    if pre.length < url1.length ∧ 0 < pre.length ∧
        (url1.headD ' ').isAlpha ∧ pre.all isSchemeChar then
      (pyLower pre, url1.drop (pre.length + 1))
    else ([], url1)
  let scheme := sr.1
  let rest := sr.2
  if rest.take 2 = ['/', '/'] then
    let after := rest.drop 2
    let netloc := after.takeWhile (fun c => ¬ (c = '/' ∨ c = '?' ∨ c = '#'))
    let rest2 := after.drop netloc.length
    if ('[' ∈ netloc ∧ ']' ∉ netloc) ∨ (']' ∈ netloc ∧ '[' ∉ netloc) then
      .error "Invalid IPv6 URL"
    else
      let bf := breakAt '#' rest2
      let pq := breakAt '?' bf.1
      .ok ⟨scheme, netloc, pq.1, pq.2.getD [], bf.2.getD []⟩
  else
    let bf := breakAt '#' rest
    let pq := breakAt '?' bf.1
    .ok ⟨scheme, [], pq.1, pq.2.getD [], bf.2.getD []⟩

/-- `urllib.parse.urlunsplit`. -/
def urlunsplit (r : SplitResult) : PStr :=
  let url1 :=
    if r.netloc ≠ [] ∨ r.path.take 2 = ['/', '/'] then
      ['/', '/'] ++ r.netloc ++
        (if r.path ≠ [] ∧ r.path.take 1 ≠ ['/'] then '/' :: r.path else r.path)
    else r.path
  let url2 := if r.scheme ≠ [] then r.scheme ++ ':' :: url1 else url1
  let url3 := if r.query ≠ [] then url2 ++ '?' :: r.query else url2
  if r.fragment ≠ [] then url3 ++ '#' :: r.fragment else url3

/-- `_normalize_netloc`: split userinfo at the last `@` and the port at the
first `:`, lower-case and dot-strip the host, strip the port and drop it
when it is the scheme's default. -/
def _normalize_netloc (netloc : PStr) (scheme : PStr) : PStr :=
  let uhp : PStr × PStr :=
    match rsplit1 '@' netloc with
    | some (u, hp) => (u, hp)
    | none => ([], netloc)
  let userinfo := uhp.1
  let hp : PStr × PStr :=
    match breakAt ':' uhp.2 with
    | (h, some p) => (h, p)
    | (h, none) => (h, [])
  let host := pyStripChar '.' (pyLower hp.1)
  let port := pyStrip hp.2
  let port :=
    if (scheme = "http".toList ∧ port = "80".toList) ∨
       (scheme = "https".toList ∧ port = "443".toList) then [] else port
  let host_port := if port = [] then host else host ++ ':' :: port
  if userinfo ≠ [] then userinfo ++ '@' :: host_port else host_port

/-- One iteration of `posixpath.normpath`'s component loop. -/
def normStep (initial_slashes : Nat) (acc : List PStr) (comp : PStr) : List PStr :=
  if comp = [] ∨ comp = ['.'] then acc
  else if comp ≠ ['.', '.'] ∨ (initial_slashes = 0 ∧ acc = []) ∨
          (acc ≠ [] ∧ acc.getLast? = some ['.', '.']) then acc ++ [comp]
  else if acc ≠ [] then acc.dropLast
  else acc

/-- `posixpath.normpath`. -/
def normpath (p : PStr) : PStr :=
  if p = [] then ['.']
  else
    let initial_slashes : Nat :=
      if p.take 1 = ['/'] then
        (if p.take 2 = ['/', '/'] ∧ ¬ (p.take 3 = ['/', '/', '/']) then 2 else 1)
      else 0
    let newComps := (splitChar '/' p).foldl (normStep initial_slashes) []
    let res := List.replicate initial_slashes '/' ++ List.intercalate ['/'] newComps
    if res = [] then ['.'] else res

/-- `_normalize_path`: empty becomes "/", `normpath` otherwise, the
trailing slash is restored and "//" collapses to "/". -/
def _normalize_path (path : PStr) : PStr :=
  if path = [] then ['/']
  else
    let has_trailing := path.getLast? = some '/'
    let n1 := normpath path
    let n2 := if ¬ (n1.take 1 = ['/']) then '/' :: n1 else n1
    let n3 := if has_trailing ∧ ¬ (n2.getLast? = some '/') then n2 ++ ['/'] else n2
    if n3 = ['/', '/'] then ['/'] else n3

/-- A path component `normpath` keeps when the path is absolute. -/
def goodComp (c : PStr) : Prop := c ≠ [] ∧ c ≠ ['.'] ∧ c ≠ ['.', '.'] ∧ '/' ∉ c

/-- The canonical path shape `_normalize_path` produces. -/
def pathNF (k : Nat) (comps : List PStr) (tr : Bool) : PStr :=
  List.replicate k '/' ++ List.intercalate ['/'] comps ++ (if tr then ['/'] else [])

/-- UTF-8 encoding of one scalar value. -/
def utf8EncodeChar (c : Char) : List Nat :=
  let n := c.toNat
  if n < 0x80 then [n]
  else if n < 0x800 then [0xC0 + n / 64, 0x80 + n % 64]
  else if n < 0x10000 then [0xE0 + n / 4096, 0x80 + (n / 64) % 64, 0x80 + n % 64]
  else [0xF0 + n / 262144, 0x80 + (n / 4096) % 64, 0x80 + (n / 64) % 64, 0x80 + n % 64]

/-- UTF-8 encoding of a string (`str.encode("utf-8")`). -/
def utf8Encode : PStr → List Nat
  | [] => []
  | c :: rest => utf8EncodeChar c ++ utf8Encode rest

/-- The replacement character U+FFFD. -/
def replChar : Char := '�'

/-- A UTF-8 continuation byte. -/
def isCont (b : Nat) : Bool := 0x80 ≤ b ∧ b ≤ 0xBF

/-- One UTF-8 decode step (`errors="replace"`): given a lead byte and the
remaining bytes, produce the decoded character (or U+FFFD) and the bytes
left over.  Valid sequences decode to their scalar value; a rejected byte
group yields one U+FFFD (on malformed input the exact resume point of
CPython's replace handler is approximated; only valid sequences are
exercised by the theorems). -/
def utf8Step (b : Nat) (rest : List Nat) : Char × List Nat :=
  if b < 0x80 then (Char.ofNat b, rest)
  else if 0xC2 ≤ b ∧ b ≤ 0xDF then
    match rest with
    | b1 :: rest2 =>
      if isCont b1 then (Char.ofNat ((b - 0xC0) * 64 + (b1 - 0x80)), rest2)
      else (replChar, rest2)
    | [] => (replChar, [])
  else if 0xE0 ≤ b ∧ b ≤ 0xEF then
    match rest with
    | b1 :: b2 :: rest3 =>
      if (b = 0xE0 → 0xA0 ≤ b1) ∧ (b = 0xED → b1 ≤ 0x9F) ∧ isCont b1 ∧ isCont b2 then
        (Char.ofNat ((b - 0xE0) * 4096 + (b1 - 0x80) * 64 + (b2 - 0x80)), rest3)
      else (replChar, rest3)
    | _ => (replChar, [])
  else if 0xF0 ≤ b ∧ b ≤ 0xF4 then
    match rest with
    | b1 :: b2 :: b3 :: rest4 =>
      if (b = 0xF0 → 0x90 ≤ b1) ∧ (b = 0xF4 → b1 ≤ 0x8F) ∧
          isCont b1 ∧ isCont b2 ∧ isCont b3 then
        (Char.ofNat ((b - 0xF0) * 262144 + (b1 - 0x80) * 4096 + (b2 - 0x80) * 64 +
          (b3 - 0x80)), rest4)
      else (replChar, rest4)
    | _ => (replChar, [])
  else (replChar, rest)

/-- Fuelled UTF-8 decode loop; each step consumes at least the lead byte,
so fuel = length always suffices. -/
def utf8DecodeReplaceF : Nat → List Nat → PStr
  | _, [] => []
  | 0, _ :: _ => []
  | fuel + 1, b :: rest =>
    (utf8Step b rest).1 :: utf8DecodeReplaceF fuel (utf8Step b rest).2

/-- UTF-8 decoding with `errors="replace"` (`bytes.decode("utf-8", "replace")`). -/
def utf8DecodeReplace (l : List Nat) : PStr := utf8DecodeReplaceF l.length l

/-- `urllib.parse`'s always-safe characters. -/
def alwaysSafe : PStr :=
  "ABCDEFGHIJKLMNOPQRSTUVWXYZabcdefghijklmnopqrstuvwxyz0123456789_.-~".toList

/-- Upper-case hex digits. -/
def hexDigits : PStr := "0123456789ABCDEF".toList

/-- The `%XX` escape of one byte (upper-case hex, as `quote` emits). -/
def escTriple (b : Nat) : PStr :=
  ['%', hexDigits.getD (b / 16 % 16) '0', hexDigits.getD (b % 16) '0']

/-- A hex digit as `unquote` accepts (both cases). -/
def isHexDigit (c : Char) : Bool :=
  c.isDigit ∨ ('a' ≤ c ∧ c ≤ 'f') ∨ ('A' ≤ c ∧ c ≤ 'F')

/-- The value of one hex digit. -/
def hexVal1 (c : Char) : Nat :=
  if c.isDigit then c.toNat - '0'.toNat
  else if 'a' ≤ c ∧ c ≤ 'f' then c.toNat - 'a'.toNat + 10
  else c.toNat - 'A'.toNat + 10

/-- The byte value of a two-digit hex escape. -/
def hexVal (a b : Char) : Nat := 16 * hexVal1 a + hexVal1 b

/-- `quote`'s per-byte step over the UTF-8 bytes. -/
def quoteBytes (safe : PStr) : List Nat → PStr
  | [] => []
  | b :: rest =>
    (if b < 0x80 ∧ (Char.ofNat b ∈ alwaysSafe ∨ Char.ofNat b ∈ safe) then [Char.ofNat b]
     else escTriple b) ++ quoteBytes safe rest

/-- `urllib.parse.quote(s, safe)`. -/
def pyQuote (safe : PStr) (s : PStr) : PStr := quoteBytes safe (utf8Encode s)

/-- `urllib.parse.quote_plus(s)` with the default empty `safe`. -/
def pyQuotePlus (s : PStr) : PStr :=
  if ' ' ∈ s then (pyQuote [' '] s).map (fun c => if c = ' ' then '+' else c)
  else pyQuote [] s

/-- `str.replace('+', ' ')` as done by `parse_qsl` before unquoting. -/
def plusToSpace (s : PStr) : PStr := s.map (fun c => if c = '+' then ' ' else c)

/-- `unquote`'s scanner: maximal runs of `%XX` escapes are collected into a
byte buffer (held reversed) and decoded as UTF-8; all other characters pass
through, flushing the buffer. -/
def unqAux (buf : List Nat) : PStr → PStr
  | [] => utf8DecodeReplace buf.reverse
  | '%' :: a :: b :: rest =>
    if isHexDigit a ∧ isHexDigit b then unqAux (hexVal a b :: buf) rest
    else utf8DecodeReplace buf.reverse ++ '%' :: unqAux [] (a :: b :: rest)
  | c :: rest => utf8DecodeReplace buf.reverse ++ c :: unqAux [] rest

/-- `urllib.parse.unquote_plus` (UTF-8, `errors="replace"`). -/
def pyUnquotePlus (s : PStr) : PStr := unqAux [] (plusToSpace s)

/-- `urllib.parse.parse_qsl(qs, keep_blank_values=True)`. -/
def parse_qsl (qs : PStr) : List (PStr × PStr) :=
  (splitChar '&' qs).foldr (fun nv acc =>
    if nv = [] then acc
    else
      let p : PStr × PStr :=
        match breakAt '=' nv with
        | (n, some v) => (n, v)
        | (n, none) => (n, [])
      (pyUnquotePlus p.1, pyUnquotePlus p.2) :: acc) []

/-- `urllib.parse.urlencode(pairs, doseq=True)` for string pairs. -/
def urlencode (pairs : List (PStr × PStr)) : PStr :=
  List.intercalate ['&'] (pairs.map (fun p => pyQuotePlus p.1 ++ '=' :: pyQuotePlus p.2))

/-- Python string `<` (lexicographic by scalar value). -/
def strLtB : PStr → PStr → Bool
  | [], [] => false
  | [], _ :: _ => true
  | _ :: _, [] => false
  | a :: as, b :: bs =>
    if a.toNat < b.toNat then true
    else if b.toNat < a.toNat then false
    else strLtB as bs

/-- Python tuple `<` on string pairs. -/
def pairLtB (p q : PStr × PStr) : Bool :=
  strLtB p.1 q.1 ∨ (p.1 = q.1 ∧ strLtB p.2 q.2)

/-- `p ≤ q` in the tuple order. -/
def pairLeB (p q : PStr × PStr) : Bool := ¬ pairLtB q p

/-- Insertion into a sorted pair list. -/
def insertPair (x : PStr × PStr) : List (PStr × PStr) → List (PStr × PStr)
  | [] => [x]
  | y :: ys => if pairLeB x y then x :: y :: ys else y :: insertPair x ys

/-- `list.sort()` on pairs of strings (insertion sort; equal tuples are
identical, so any correct sort yields the same list). -/
def sortPairs : List (PStr × PStr) → List (PStr × PStr)
  | [] => []
  | x :: xs => insertPair x (sortPairs xs)

/-- `_normalize_query`: parse, sort and re-encode the query pairs. -/
def _normalize_query (query : PStr) : PStr :=
  if query = [] then []
  else urlencode (sortPairs (parse_qsl query))

/-- `canonicalize_url` with the default allowed schemes http/https. -/
def canonicalize_url (url : PStr) : Except String PStr :=
  if url = [] then .error "URL must be non-empty"
  else
    match urlsplitE (pyStrip url) with
    | .error e => .error e
    | .ok split =>
      if split.scheme = [] then .error "URL must include a scheme"
      else
        let scheme := pyLower split.scheme
        if ¬ (scheme = "http".toList ∨ scheme = "https".toList) then
          .error "Scheme not allowed"
        else if split.netloc = [] then .error "URL must include a network location"
        else
          .ok (urlunsplit ⟨scheme, _normalize_netloc split.netloc scheme,
            _normalize_path split.path, _normalize_query split.query, []⟩)

/-- `urlsplit(url).netloc` for callers outside `canonicalize_url`, with a
raising split mapped to the empty netloc (mismatched-bracket URLs never
reach these callers in the claims at hand). -/
def netlocOrEmpty (url : String) : String :=
  match urlsplitE url.toList with
  | .ok r => r.netloc.asString
  | .error _ => ""

/-- `urlsplit(url).netloc.lower()`, the frontier's host key. -/
def hostOf (url : String) : String :=
  match urlsplitE url.toList with
  | .ok r => (pyLower r.netloc).asString
  | .error _ => ""

/-! ## Scoring fusion (`oddcrawler/scoring/fusion.py`)

`ScoringEngine.fuse` combines five feature subscores through a logistic;
`ScoringEngine.decide` turns the fused score into an action using the
configured thresholds (defaults: persist 0.35, llm_gate 0.60, alert 0.80).
Scores are modelled as real numbers. -/

/-- The five feature subscores handed to `ScoringEngine.fuse`. -/
structure FeatureScores where
  retro_html : ℝ
  url_weird : ℝ
  semantic : ℝ
  anomaly : ℝ
  graph : ℝ

/-- The decision record returned by `ScoringEngine.decide`. -/
structure ScoreDecision where
  score : ℝ
  action : String
  thresholds_hit : List (String × ℝ)
  reasons : List String

namespace ScoringEngine

/-- `self.weights.get(key, 0.0)` / `self.thresholds.get(key, d)`. -/
noncomputable def getW (w : List (String × ℝ)) (k : String) (d : ℝ) : ℝ :=
  ((w.find? (fun p => p.1 == k)).map (·.2)).getD d

/-- `ScoringEngine.fuse`: weighted sum of the five subscores plus bias,
passed through the logistic `1 / (1 + exp(-raw))`. -/
noncomputable def fuse (weights : List (String × ℝ)) (scores : FeatureScores) : ℝ :=
  let bias := getW weights "bias" 0
  let raw :=
    scores.retro_html * getW weights "retro_html" 0
    + scores.url_weird * getW weights "url_weird" 0
    + scores.semantic * getW weights "semantic" 0
    + scores.anomaly * getW weights "anomaly" 0
    + scores.graph * getW weights "graph" 0
    + bias
  1 / (1 + Real.exp (-raw))

/-- `ScoringEngine.decide`: pick the action from the fused score and the
configured thresholds, and record the thresholds that were hit. -/
noncomputable def decide (thresholds : List (String × ℝ)) (fused_score : ℝ)
    (reasons : List String) : ScoreDecision :=
  let persist_threshold := getW thresholds "persist" 0.35
  let llm_threshold := getW thresholds "llm_gate" 0.60
  let alert_threshold := getW thresholds "alert" 0.80
  let action :=
    if fused_score ≥ llm_threshold then "llm"
    else if fused_score ≥ persist_threshold then "persist"
    else "skip"
  let thresholds_hit :=
    [("persist", persist_threshold)]
    ++ (if fused_score ≥ llm_threshold then [("llm", llm_threshold)] else [])
    ++ (if fused_score ≥ alert_threshold then [("alert", alert_threshold)] else [])
  { score := fused_score
    action := action
    thresholds_hit := thresholds_hit
    reasons := reasons }

end ScoringEngine

/-! ## Failure cache (`oddcrawler/runtime/failure_cache.py`)

`FailureCache` maps URLs to failure entries; `should_skip` consults the
configured skip statuses and the TTL measured from `last_recorded_at`.
ISO-8601 timestamps are modelled as rational time values; the
`fromisoformat` parse-failure branch of `_expired` (which treats an
unparsable timestamp as expired) has no counterpart since model timestamps
are always well formed. -/

/-- A failure-cache entry (`FailureEntry`). -/
structure FailureEntry where
  url : String
  status : Option Int
  reason : String
  first_recorded_at : ℚ
  last_recorded_at : ℚ
  count : Int
deriving DecidableEq

/-- The failure cache's state: configured skip statuses, optional TTL in
seconds (None = entries never expire), and the URL-keyed entry map. -/
structure FailureCache where
  skip_statuses : List Int
  expiry_seconds : Option ℚ
  entries : List (String × FailureEntry)
deriving DecidableEq

namespace FailureCache

/-- `FailureCache._expired`: the entry's `last_recorded_at` plus the TTL is
strictly before `now`. -/
def _expired (c : FailureCache) (e : FailureEntry) (now : ℚ) : Bool :=
  match c.expiry_seconds with
  | none => false
  | some x => decide (e.last_recorded_at + x < now)

/-- `FailureCache.should_skip`: true when a non-expired entry exists whose
status is one of the configured skip statuses.  (The original also evicts
an expired entry as a side effect; only the returned decision is
modelled.) -/
def should_skip (c : FailureCache) (url : String) (now : ℚ) : Bool :=
  match lookupA c.entries url with
  | none => false
  | some e =>
    if _expired c e now then false
    else match e.status with
      | none => false
      | some st => decide (st ∈ c.skip_statuses)

end FailureCache

/-! ## Frontier host statistics and the novelty subscore
(`oddcrawler/crawler/frontier.py`)

`Frontier._host_stats` maps a host to a dict whose values have fixed types
everywhere they are written; it is modelled as a typed record.  Both
`record_feedback` and `record_failure` create a fresh entry with zero
counters, matching `HostStats`' defaults. -/

/-- A host's statistics record (the `_host_stats` entry for one host). -/
structure HostStats where
  pulls : Int := 0
  reward_sum : ℚ := 0
  hits : Int := 0
  failures : Int := 0
  last_score : ℚ := 0
  last_action : Option String := none
  updated_at : Option ℚ := none
  last_failure : Option ℚ := none
  last_failure_reason : Option String := none
  status_counts : List (String × Int) := []
deriving DecidableEq

/-- `Frontier._novelty_score` over real numbers: 1.0 for an unseen host or
one with no pulls, else `max(0.1, exp(-pulls / max(novelty_decay, 1.0)))`.
(The stats lookup is passed in as an `Option HostStats`.) -/
noncomputable def novelty_score (novelty_decay : ℝ) (stats : Option HostStats) : ℝ :=
  match stats with
  | none => 1
  | some st =>
    if (st.pulls : ℝ) ≤ 0 then 1
    else max 0.1 (Real.exp (-(st.pulls : ℝ) / max novelty_decay 1))

/-! ## Graph store (`oddcrawler/storage/graph_store.py`)

The NetworkX digraph is modelled as a node map keyed by URL and an edge map
keyed by (source, target).  Node attributes have fixed types at every write
site and are modelled as a typed record; the metric annotations written by
`_compute_metrics` (pagerank, component data, graph_score, ...) are omitted:
no claim references them and they touch neither graph membership nor the
bounded histories.  `persist()` atomically rewrites the graph file; only the
number of rewrites is observable here (`writes`).  `_ensure_node` always
creates the `first_seen` key (with value None), so `record_page`'s
`setdefault("first_seen", ...)` never fires and `first_seen` is left
unchanged by the model as well. -/

/-- A link-graph node's attributes. -/
structure GNode where
  url : String
  first_seen : Option String := none
  last_seen : Option String := none
  observations : Int := 0
  title : String := ""
  status : Option Int := none
  webring_hits : Int := 0
  outbound_count : Int := 0
  outbound_domains : Int := 0
  last_score : ℚ := 0
  last_action : Option String := none
  score_history : List (ℚ × String) := []
deriving DecidableEq

/-- A link-graph edge's attributes. -/
structure GEdge where
  weight : Int := 0
  last_seen : String := ""
  anchor_texts : List String := []
  rel : List String := []
deriving DecidableEq

/-- An outbound link handed to `record_page`. -/
structure OutboundLink where
  url : String
  anchor_text : String
  rel : List String
  found_at : String
deriving DecidableEq

/-- The graph store's state. -/
structure GraphStore where
  nodes : List (String × GNode)
  edges : List ((String × String) × GEdge)
  pagerank_dirty : Bool := true
  writes : Nat := 0
deriving DecidableEq

/-- `s1 <= s2` as Python compares strings (scalar values, lexicographic). -/
def strLeB (a b : String) : Bool := ¬ strLtB b.toList a.toList

/-- Insertion into a sorted string list. -/
def insertStr (x : String) : List String → List String
  | [] => [x]
  | y :: ys => if strLeB x y then x :: y :: ys else y :: insertStr x ys

/-- Python `sorted` on strings (insertion sort). -/
def sortStrings : List String → List String
  | [] => []
  | x :: xs => insertStr x (sortStrings xs)

/-- Python `l[-n:]`. -/
def lastN {α : Type} (n : Nat) (l : List α) : List α := l.drop (l.length - n)

/-- Python `s[:n]`. -/
def strTake (n : Nat) (s : String) : String := (s.toList.take n).asString

namespace GraphStore

/-- The store as loaded with no graph file present. -/
def emptyStore : GraphStore := { nodes := [], edges := [] }

/-- `GraphStore._ensure_node`: add a node with zeroed attributes if absent. -/
def _ensure_node (g : GraphStore) (url : String) : GraphStore :=
  match lookupA g.nodes url with
  | some _ => g
  | none => { g with nodes := setA g.nodes url { url := url } }

/-- `GraphStore.persist`: atomically rewrite the graph file (modelled as a
write counter). -/
def persist (g : GraphStore) : GraphStore := { g with writes := g.writes + 1 }

/-- The edge data read by `_record_edge` (`get_edge_data(..., default={})`,
with the dict's `get` defaults folded into `GEdge`'s defaults). -/
def recordedEdgeData (g : GraphStore) (source_url : String) (link : OutboundLink) : GEdge :=
  (lookupA g.edges (source_url, link.url)).getD {}

/-- The upserted edge value of `_record_edge`: bump the weight, refresh
`last_seen`, append a non-empty unseen anchor text into the last-5 ring,
and union the rel tokens (kept sorted). -/
def recordedEdge (g : GraphStore) (source_url : String) (link : OutboundLink) : GEdge :=
  let edge_data := recordedEdgeData g source_url link
  { weight := edge_data.weight + 1
    last_seen := link.found_at
    anchor_texts :=
      if link.anchor_text ≠ "" then
        lastN 5 (if link.anchor_text ∈ edge_data.anchor_texts then edge_data.anchor_texts
                 else edge_data.anchor_texts ++ [link.anchor_text])
      else edge_data.anchor_texts
    rel := sortStrings ((edge_data.rel ++ link.rel).dedup) }

/-- `GraphStore._record_edge`: ensure the target node and upsert the edge. -/
def _record_edge (g : GraphStore) (source_url : String) (link : OutboundLink) : GraphStore :=
  let g1 := _ensure_node g link.url
  { g1 with edges := setA g1.edges (source_url, link.url) (recordedEdge g1 source_url link) }

/-- The source-node metadata refresh of `record_page`.  (`setdefault` on
`first_seen` never fires — `_ensure_node` always creates the key — so
`first_seen` is untouched.) -/
def recordPageNode (node : GNode) (fetched_at : String) (status : Int) (title : String)
    (webring_hits : Int) : GNode :=
  { node with
    last_seen := some fetched_at
    observations := node.observations + 1
    status := some status
    title := if title ≠ "" then strTake 200 title else node.title
    webring_hits := node.webring_hits + webring_hits }

/-- The first half of `record_page`: ensure the source node and refresh its
metadata. -/
def recordPageStart (g : GraphStore) (source_url fetched_at : String) (status : Int)
    (title : String) (webring_hits : Int) : GraphStore :=
  let g1 := _ensure_node g source_url
  let node1 := recordPageNode ((lookupA g1.nodes source_url).getD { url := source_url })
    fetched_at status title webring_hits
  { g1 with nodes := setA g1.nodes source_url node1 }

/-- The last half of `record_page`: recompute the outbound counts on the
source node, mark pagerank dirty and persist. -/
def recordPageFinish (g : GraphStore) (source_url : String)
    (processed_links : List OutboundLink) : GraphStore :=
  let node2 := (lookupA g.nodes source_url).getD { url := source_url }
  let node2 := { node2 with
    outbound_count := (processed_links.length : Int)
    outbound_domains := (((processed_links.map (fun l => netlocOrEmpty l.url)).dedup).length : Int) }
  persist { g with nodes := setA g.nodes source_url node2, pagerank_dirty := true }

/-- `GraphStore.record_page`: upsert the source node's metadata, record
every outbound edge (self-loops excluded), recompute the outbound counts
and persist. -/
def record_page (g : GraphStore) (source_url : String) (fetched_at : String)
    (status : Int) (title : String) (links : List OutboundLink)
    (webring_hits : Int) : GraphStore :=
  let processed_links := links.filter (fun l => l.url ≠ source_url)
  recordPageFinish
    (processed_links.foldl (fun g l => _record_edge g source_url l)
      (recordPageStart g source_url fetched_at status title webring_hits))
    source_url processed_links

/-- The node refresh of `update_score`: append to the bounded score history
(last 10) and set `last_score`/`last_action`. -/
def updatedScoreNode (node : GNode) (score : ℚ) (action : String) : GNode :=
  let history := node.score_history ++ [(score, action)]
  let history := history.drop (history.length - 10)
  { node with score_history := history, last_score := score, last_action := some action }

/-- `GraphStore.update_score`: for an existing node, append to the bounded
score history (last 10), refresh `last_score`/`last_action` and persist;
for an unknown URL do nothing at all. -/
def update_score (g : GraphStore) (url : String) (score : ℚ) (action : String) : GraphStore :=
  match lookupA g.nodes url with
  | none => g
  | some node => persist { g with nodes := setA g.nodes url (updatedScoreNode node score action) }

end GraphStore

/-- One call against the graph store. -/
inductive GOp where
  | record (source_url fetched_at : String) (status : Int) (title : String)
      (links : List OutboundLink) (webring_hits : Int)
  | update (url : String) (score : ℚ) (action : String)
deriving DecidableEq

/-- Apply one call. -/
def gStep (g : GraphStore) : GOp → GraphStore
  | .record src at_ st ti links wh => GraphStore.record_page g src at_ st ti links wh
  | .update url score action => GraphStore.update_score g url score action

/-- Apply a sequence of calls in order. -/
def runGOps (ops : List GOp) (g : GraphStore) : GraphStore := ops.foldl gStep g

/-- The recorded weight of the (s, t) edge, 0 when absent. -/
def weightAt (g : GraphStore) (s t : String) : Int :=
  match lookupA g.edges (s, t) with
  | none => 0
  | some e => e.weight

/-- How many occurrences of the (s, t) link (t ≠ s) the calls' link lists
contain in total. -/
def linkOccurrences (ops : List GOp) (s t : String) : Int :=
  (ops.map (fun op => match op with
    | .record src _ _ _ links _ =>
      if src = s then ((links.filter (fun l => l.url = t ∧ l.url ≠ src)).length : Int) else 0
    | .update _ _ _ => 0)).sum

/-- Modelled from the claim's words: the number of `record_page` calls that
recorded the (s, t) link at least once. -/
def recordingCalls (ops : List GOp) (s t : String) : Nat :=
  (ops.filter (fun op => match op with
    | .record src _ _ _ links _ => decide (src = s ∧ ∃ l ∈ links, l.url = t ∧ l.url ≠ src)
    | .update _ _ _ => false)).length

/-- The URL has a node in the graph. -/
def nodePresent (g : GraphStore) (u : String) : Prop := (lookupA g.nodes u).isSome

/-- Every edge is a non-loop with both endpoints present as nodes and a
bounded, duplicate-free anchor ring. -/
def EdgeInv (g : GraphStore) : Prop :=
  ∀ k e, lookupA g.edges k = some e →
    k.1 ≠ k.2 ∧ nodePresent g k.1 ∧ nodePresent g k.2 ∧
    e.anchor_texts.length ≤ 5 ∧ e.anchor_texts.Nodup

/-- Every node's score history is bounded by 10. -/
def HistInvM (m : List (String × GNode)) : Prop :=
  ∀ u n, lookupA m u = some n → n.score_history.length ≤ 10

/-- The structural graph invariant of claim C8. -/
def GraphInv (g : GraphStore) : Prop := EdgeInv g ∧ HistInvM g.nodes

/-! ## Triage cascade (`oddcrawler/agents/cascade.py`)

`TriageCascade.evaluate` runs seven stages in order and stops at the first
skip.  Each stage appends exactly one `CascadeStageResult` and either
signals skip (Python `False` / `None`) or continues, possibly handing a
payload (the decoded snippet, the structure metrics) to later stages; this
coupling is captured by `StageOutcome`.  The stage bodies parse HTML with
BeautifulSoup and call external libraries, so they enter the model as
abstract functions bundled in `CascadeStages`, while `evaluate`'s control
flow is translated from the source; the head stage, which claims C5 is
about, is also modelled concretely (`_stage_head`).  The `metrics` payload
of a stage record and the simhash stage's seen-set mutation are omitted:
no claim references them. -/

/-- One stage's appended record (`CascadeStageResult`, metrics omitted). -/
structure CStageResult where
  stage : String
  status : String
  reason : Option String := none
deriving DecidableEq

/-- One stage call: append its record, then either signal skip or continue
with a payload. -/
inductive StageOutcome (α : Type) where
  | skip (res : CStageResult)
  | cont (res : CStageResult) (payload : α)
deriving DecidableEq

/-- The cascade's decision record (`CascadeDecision`), with stage records
in the order they were appended. -/
structure CascadeDecision where
  should_skip : Bool
  stages : List CStageResult
  final_reason : Option String
deriving DecidableEq

/-- The seven stage functions, abstracted over the fetch-result (φ),
snippet (σ) and structure-metrics (μ) types. -/
structure CascadeStages (φ σ μ : Type) where
  stage_head : φ → StageOutcome Unit
  stage_snippet : φ → StageOutcome σ
  stage_structure : σ → StageOutcome μ
  stage_keywords : σ → StageOutcome Unit
  stage_simhash : σ → StageOutcome Unit
  stage_classifier : μ → StageOutcome Unit
  stage_prefilter : φ → StageOutcome Unit

/-- `TriageCascade.evaluate`: run the stages cheap-to-expensive and stop at
the first skip; on a skip the decision carries the stage records so far and
the skipping stage's reason.  (The source's `if stages else` fallback
reasons are dead: the skipping stage has just appended its record.) -/
def evaluate {φ σ μ : Type} (c : CascadeStages φ σ μ) (fetch_result : φ) : CascadeDecision :=
  match c.stage_head fetch_result with
  | .skip r1 => ⟨true, [r1], r1.reason⟩
  | .cont r1 _ =>
    match c.stage_snippet fetch_result with
    | .skip r2 => ⟨true, [r1, r2], r2.reason⟩
    | .cont r2 snippet =>
      match c.stage_structure snippet with
      | .skip r3 => ⟨true, [r1, r2, r3], r3.reason⟩
      | .cont r3 metrics =>
        match c.stage_keywords snippet with
        | .skip r4 => ⟨true, [r1, r2, r3, r4], r4.reason⟩
        | .cont r4 _ =>
          match c.stage_simhash snippet with
          | .skip r5 => ⟨true, [r1, r2, r3, r4, r5], r5.reason⟩
          | .cont r5 _ =>
            match c.stage_classifier metrics with
            | .skip r6 => ⟨true, [r1, r2, r3, r4, r5, r6], r6.reason⟩
            | .cont r6 _ =>
              match c.stage_prefilter fetch_result with
              | .skip r7 => ⟨true, [r1, r2, r3, r4, r5, r6, r7], r7.reason⟩
              | .cont r7 _ => ⟨false, [r1, r2, r3, r4, r5, r6, r7], none⟩

/-- A fetch result as the head stage reads it: the response headers (an
insertion-ordered dict) and the body bytes (only their count is used
here). -/
structure FetchResult where
  headers : List (String × String)
  body : List Nat
deriving DecidableEq

/-- The `CascadeConfig` knobs the head stage reads (defaults from the
source; the other knobs configure the abstracted stages). -/
structure CascadeConfig where
  max_content_length : Int := 2500000
  min_content_length : Int := 512
  allowed_content_types : List String := ["text/html", "application/xhtml+xml"]
deriving DecidableEq

/-- Python `a or b` on a possibly-missing string (None and "" are falsy). -/
def pyOr (a : Option String) (b : String) : String :=
  match a with
  | some v => if v = "" then b else v
  | none => b

/-- Decimal digits to a number; None when a non-digit occurs. -/
def digitsToNat (acc : Nat) : PStr → Option Nat
  | [] => some acc
  | c :: rest =>
    if c.isDigit then digitsToNat (acc * 10 + (c.toNat - '0'.toNat)) rest else none

/-- Python `int(s)` (whitespace-stripped, optional sign; the underscore
digit separators are out of scope), None on ValueError. -/
def pyInt (s : String) : Option Int :=
  match pyStrip s.toList with
  | [] => none
  | '+' :: rest => if rest ≠ [] then (digitsToNat 0 rest).map Int.ofNat else none
  | '-' :: rest => if rest ≠ [] then (digitsToNat 0 rest).map (fun n => -(n : Int)) else none
  | l => (digitsToNat 0 l).map Int.ofNat

/-- The media type the head stage computes:
`(headers.get("Content-Type") or headers.get("content-type") or
"").split(";")[0].strip().lower()`. -/
def mediaTypeOf (fr : FetchResult) : String :=
  let ctRaw := pyOr (lookupA fr.headers "Content-Type")
    (pyOr (lookupA fr.headers "content-type") "")
  (pyLower (pyStrip ((splitChar ';' ctRaw.toList).headD []))).asString

/-- The content length the head stage computes: the Content-Length header
when present and parsable, else the body length. -/
def contentLengthOf (fr : FetchResult) : Int :=
  let clHeader := pyOr (lookupA fr.headers "Content-Length")
    (pyOr (lookupA fr.headers "content-length") "")
  if clHeader ≠ "" then
    match pyInt clHeader with
    | some n => n
    | none => (fr.body.length : Int)
  else (fr.body.length : Int)

/-- `TriageCascade._stage_head`: skip on a disallowed non-empty media type,
then on a content length below the minimum or above the maximum. -/
def _stage_head (config : CascadeConfig) (fetch_result : FetchResult) : StageOutcome Unit :=
  let content_type := mediaTypeOf fetch_result
  let content_length := contentLengthOf fetch_result
  if config.allowed_content_types ≠ [] ∧ content_type ≠ "" ∧
      content_type ∉ config.allowed_content_types then
    .skip ⟨"head", "skip", some ("content-type:" ++ content_type)⟩
  else if content_length < config.min_content_length then
    .skip ⟨"head", "skip", some ("content-length<" ++ toString config.min_content_length)⟩
  else if content_length > config.max_content_length then
    .skip ⟨"head", "skip", some ("content-length>" ++ toString config.max_content_length)⟩
  else .cont ⟨"head", "pass", none⟩ ()

/-! ## Frontier (`oddcrawler/crawler/frontier.py`)

The bandit-scheduled frontier.  Timestamps (`time.time()`) are explicit
rational `now` arguments; each public operation receives the wall-clock
value its internal `time.time()` calls observe.  The transcendental library
calls of the priority subscores (`math.exp`, `math.log`, `math.sqrt`) enter
the model as an abstract function bundle `MathFns` — the token-bucket and
round-trip claims hold for every instantiation.  The heap lists model the
`heapq` containers: `heapify`/`heappush` permute or place elements but
preserve the multiset, and `heappop` removes a minimal element in
(priority, order) order, which is what `heapMin`/`removeFirst` do; claims
compare heaps up to equal sets.  Job metadata keys have fixed types at
every write site and are modelled by the `JobMeta` record.  A `ValueError`
from `urlsplit` surfaces as the empty host, which makes the operation
return with exactly the mutations performed before the raise (none). -/

/-- The `math.exp`/`math.log`/`math.sqrt` calls of the priority formula,
abstracted. -/
structure MathFns where
  exp : ℚ → ℚ
  log : ℚ → ℚ
  sqrt : ℚ → ℚ

/-- `FrontierSettings` with the source's defaults. -/
structure FrontierSettings where
  weight_host_budget : ℚ := 0.35
  weight_novelty : ℚ := 0.25
  weight_bandit : ℚ := 0.25
  weight_oddity : ℚ := 0.15
  depth_penalty : ℚ := 0.05
  novelty_decay : ℚ := 6.0
  min_priority : ℚ := 0.05
  max_priority : ℚ := 1.0
  cross_domain_bonus : ℚ := 0.05
  host_token_capacity : ℚ := 1.0
  host_refill_seconds : ℚ := 10.0
  host_penalty_seconds : ℚ := 1.0
  failure_cooldown_seconds : ℚ := 45.0
  bandit_initial : ℚ := 0.6
  bandit_exploration : ℚ := 0.25
  oddity_baseline : ℚ := 0.5
  cascade_skip_threshold : ℚ := 0.8
  cascade_penalty : ℚ := 0.15
  cascade_min_observations : Int := 5
deriving DecidableEq

/-- A job's metadata dict (typed keys; further caller-supplied entries in
`extra`). -/
structure JobMeta where
  depth : Option Int := none
  discovered_from : Option String := none
  score_hint : Option ℚ := none
  extra : List (String × String) := []
deriving DecidableEq

/-- A heap entry (`FrontierJob`); `priority` holds the negated priority as
pushed. -/
structure FrontierJob where
  priority : ℚ
  order : Int
  host : String
  url : String
  depth : Int := 0
  discovered_from : Option String := none
  metadata : JobMeta := {}
  available_at : ℚ := 0
deriving DecidableEq

/-- A host's token bucket. -/
structure Bucket where
  tokens : ℚ
  updated_at : ℚ
deriving DecidableEq

/-- A host's cascade pass/skip counters. -/
structure CascadeStats where
  passes : Int := 0
  skips : Int := 0
deriving DecidableEq

/-- The frontier's state. -/
structure Frontier where
  settings : FrontierSettings := {}
  heap : List FrontierJob := []
  delay_heap : List (ℚ × Int × FrontierJob) := []
  seen : List String := []
  order : Int := 0
  host_stats : List (String × HostStats) := []
  host_buckets : List (String × Bucket) := []
  host_backoff : List (String × ℚ) := []
  host_hints : List (String × ℚ) := []
  host_cascade_stats : List (String × CascadeStats) := []
  total_pulls : Int := 0
  inflight : List (String × FrontierJob) := []
deriving DecidableEq

/-- Heap order on jobs: (priority, order) lexicographic. -/
def jobLe (a b : FrontierJob) : Bool :=
  a.priority < b.priority ∨ (a.priority = b.priority ∧ a.order ≤ b.order)

/-- The minimal job of the heap (what `heappop` removes). -/
def heapMin : List FrontierJob → Option FrontierJob
  | [] => none
  | j :: rest =>
    match heapMin rest with
    | none => some j
    | some m => some (if jobLe j m then j else m)

/-- Remove the first occurrence of a job from the heap list. -/
def removeFirst (l : List FrontierJob) (j : FrontierJob) : List FrontierJob :=
  match l with
  | [] => []
  | x :: rest => if x == j then rest else x :: removeFirst rest j

namespace Frontier

/-- `Frontier._ensure_bucket`: the host's bucket, creating a full one if
absent (a fresh bucket's `updated_at` is the current time). -/
def _ensure_bucket (f : Frontier) (host : String) (now : ℚ) : Bucket × Frontier :=
  match lookupA f.host_buckets host with
  | some b => (b, f)
  | none =>
    let b : Bucket := ⟨f.settings.host_token_capacity, now⟩
    (b, { f with host_buckets := setA f.host_buckets host b })

/-- The refill arithmetic of `_refill_tokens` on one bucket: zero under
backoff, full when the refill period is non-positive, else add
`elapsed / host_refill_seconds` capped at the capacity (no change when no
time elapsed). -/
def refilledBucket (settings : FrontierSettings) (b : Bucket) (backoff_until now : ℚ) : Bucket :=
  if backoff_until > now then ⟨0, now⟩
  else if settings.host_refill_seconds ≤ 0 then ⟨settings.host_token_capacity, now⟩
  else
    let elapsed := max 0 (now - b.updated_at)
    if elapsed ≤ 0 then b
    else ⟨min settings.host_token_capacity (b.tokens + elapsed / settings.host_refill_seconds), now⟩

/-- `Frontier._refill_tokens`.  (The source's early-return branch leaves
the bucket untouched; writing the unchanged bucket back is the same
state.) -/
def _refill_tokens (f : Frontier) (host : String) (now : ℚ) : Frontier :=
  let bf := _ensure_bucket f host now
  let f1 := bf.2
  let nb := refilledBucket f1.settings bf.1 (getA f1.host_backoff host 0) now
  { f1 with host_buckets := setA f1.host_buckets host nb }

/-- `Frontier._consume_host_token`: refill, refuse under backoff, else take
one token when at least one is available. -/
def _consume_host_token (f : Frontier) (host : String) (now : ℚ) : Bool × Frontier :=
  let f1 := _refill_tokens f host now
  if getA f1.host_backoff host 0 > now then (false, f1)
  else
    let b := (lookupA f1.host_buckets host).getD ⟨f1.settings.host_token_capacity, now⟩
    if b.tokens ≥ 1 then
      (true, { f1 with host_buckets := setA f1.host_buckets host ⟨b.tokens - 1, now⟩ })
    else (false, f1)

/-- `Frontier._next_available_time`: the token-deficit wait (at least the
host penalty), pushed past any backoff window. -/
def _next_available_time (f : Frontier) (host : String) (now : ℚ) : ℚ × Frontier :=
  let f1 := _refill_tokens f host now
  let tokens := ((lookupA f1.host_buckets host).getD
    ⟨f1.settings.host_token_capacity, now⟩).tokens
  let deficit := max 0 (1 - tokens)
  let wait := deficit * f1.settings.host_refill_seconds
  let backoff_until := getA f1.host_backoff host 0
  let wait := if backoff_until > now + wait then backoff_until - now else wait
  (now + max wait f1.settings.host_penalty_seconds, f1)

/-- `Frontier._promote_ready_jobs`: move every delayed job whose
`available_at` has passed back into the main heap. -/
def _promote_ready_jobs (f : Frontier) (now : ℚ) : Frontier :=
  { f with
    heap := f.heap ++ ((f.delay_heap.filter (fun e => e.1 ≤ now)).map (fun e => e.2.2))
    delay_heap := f.delay_heap.filter (fun e => ¬ (e.1 ≤ now)) }

/-- Yielding a popped job: mark it in flight and return its URL. -/
def popYield (g : Frontier) (job : FrontierJob) : Option String × Frontier :=
  (some job.url, { g with inflight := setA g.inflight job.url job })

/-- Deferring a job whose host has no token: compute the next available
time and push the job onto the delay heap. -/
def popDefer (g : Frontier) (job : FrontierJob) (now : ℚ) : Frontier :=
  let rf := _next_available_time g job.host now
  let job2 := { job with available_at := rf.1 }
  { rf.2 with delay_heap := rf.2.delay_heap ++ [(rf.1, job2.order, job2)] }

/-- One iteration of the `Frontier.pop` loop (`rec` continues the loop). -/
def popAuxStep (now : ℚ) (rec : Frontier → Option String × Frontier) (f : Frontier) :
    Option String × Frontier :=
  match heapMin f.heap with
  | none => (none, f)
  | some job =>
    let f1 := { f with heap := removeFirst f.heap job }
    if job.host = "" then popYield f1 job
    else
      match _consume_host_token f1 job.host now with
      | (true, f2) => popYield f2 job
      | (false, f2) => rec (_promote_ready_jobs (popDefer f2 job now) now)

/-- The loop body of `Frontier.pop`, with fuel bounding the iterations (the
source loops; with the default positive `host_penalty_seconds` a deferred
job is never re-promoted within the same call, so the fuel used by `pop`
suffices; a configuration that would make the source loop forever exhausts
the fuel instead). -/
def popAux (now : ℚ) : Nat → Frontier → Option String × Frontier
  | 0, _f => (none, _f)
  | fuel + 1, f => popAuxStep now (popAux now fuel) f

/-- `Frontier.pop`: promote ready jobs, then repeatedly take the heap top
until one yields (host token consumed, or no host). -/
def pop (f : Frontier) (now : ℚ) : Option String × Frontier :=
  let f0 := _promote_ready_jobs f now
  popAux now (f0.heap.length + f0.delay_heap.length + 1) f0

/-- `Frontier.record_feedback`.  (The write into the popped job object's
metadata has no observable effect — the job has left every container — and
is dropped.) -/
def record_feedback (f : Frontier) (url : String) (score : ℚ) (action : String)
    (timestamp : Option ℚ) (cascade_skip : Option Bool) (now : ℚ) : Frontier :=
  if url = "" then f
  else
    let f := { f with inflight := eraseA f.inflight url }
    let host := hostOf url
    if host = "" then f
    else
      let t := match timestamp with
        | some ts => if ts = 0 then now else ts
        | none => now
      let stats := (lookupA f.host_stats host).getD {}
      let reward := clamp01 score
      let stats := { stats with
        pulls := stats.pulls + 1
        reward_sum := stats.reward_sum + reward
        last_score := reward
        last_action := some action
        updated_at := some t }
      let stats := if action = "persist" ∨ action = "llm" then
        { stats with hits := stats.hits + 1 } else stats
      let f :=
        { f with
          host_stats := setA f.host_stats host stats
          total_pulls := f.total_pulls + 1 }
      let f := match lookupA f.host_hints host with
        | none => { f with host_hints := setA f.host_hints host reward }
        | some cur =>
          if reward > cur then { f with host_hints := setA f.host_hints host reward } else f
      let bf := _ensure_bucket f host now
      let nb := { bf.1 with updated_at := t }
      let f := { bf.2 with host_buckets := setA bf.2.host_buckets host nb }
      match cascade_skip with
      | none => f
      | some cs =>
        let cst := (lookupA f.host_cascade_stats host).getD {}
        let cst := if cs then { cst with skips := cst.skips + 1 }
          else { cst with passes := cst.passes + 1 }
        { f with host_cascade_stats := setA f.host_cascade_stats host cst }

/-- `Frontier.record_failure`: bump failure stats, extend the backoff
window, drain the bucket. -/
def record_failure (f : Frontier) (url : String) (status_code : Option Int)
    (reason : Option String) (now : ℚ) : Frontier :=
  if url = "" then f
  else
    let f := { f with inflight := eraseA f.inflight url }
    let host := hostOf url
    if host = "" then f
    else
      let stats := (lookupA f.host_stats host).getD {}
      let stats := { stats with failures := stats.failures + 1, last_failure := some now }
      let stats := match status_code with
        | none => stats
        | some code =>
          let sc := setA stats.status_counts (toString code)
            ((getA stats.status_counts (toString code) 0) + 1)
          { stats with status_counts := sc }
      let stats := match reason with
        | some r => if r ≠ "" then { stats with last_failure_reason := some r } else stats
        | none => stats
      let f := { f with host_stats := setA f.host_stats host stats }
      let nbo := max (getA f.host_backoff host 0) (now + f.settings.failure_cooldown_seconds)
      let f := { f with host_backoff := setA f.host_backoff host nbo }
      let bf := _ensure_bucket f host now
      { bf.2 with host_buckets := setA bf.2.host_buckets host ⟨0, now⟩ }

/-- `Frontier._host_budget_score`: refill, 0 under backoff, 1 for a host
with no bucket, else tokens over capacity clamped to [0, 1]. -/
def _host_budget_score (f : Frontier) (host : String) (now : ℚ) : ℚ × Frontier :=
  let f1 := _refill_tokens f host now
  if (lookupA f1.host_backoff host).isSome ∧ getA f1.host_backoff host 0 > now then (0, f1)
  else
    match lookupA f1.host_buckets host with
    | none => (1, f1)
    | some b => (clamp01 (b.tokens / max f1.settings.host_token_capacity 1), f1)

/-- `Frontier._novelty_score` over the abstract exp (the real-valued
statement proved for claim C6 is `novelty_score`). -/
def _novelty_scoreQ (O : MathFns) (settings : FrontierSettings)
    (stats : Option HostStats) : ℚ :=
  match stats with
  | none => 1
  | some st =>
    if (st.pulls : ℚ) ≤ 0 then 1
    else max 0.1 (O.exp (-(st.pulls : ℚ) / max settings.novelty_decay 1))

/-- `Frontier._bandit_score` (UCB over the abstract log/sqrt). -/
def _bandit_score (O : MathFns) (f : Frontier) (host : String) : ℚ :=
  match lookupA f.host_stats host with
  | none => f.settings.bandit_initial
  | some st =>
    if st.pulls = 0 then f.settings.bandit_initial
    else
      let pulls := max 1 st.pulls
      let total := max 1 f.total_pulls
      let avg := clamp01 (st.reward_sum / (pulls : ℚ))
      clamp01 (avg + f.settings.bandit_exploration * O.sqrt (O.log (total : ℚ) / (pulls : ℚ)))

/-- The maximum of a value list (`max(values)`; callers pass a non-empty
list). -/
def listMaxQ : List ℚ → ℚ
  | [] => 0
  | v :: vs => vs.foldl max v

/-- `Frontier._oddity_prior_score`. -/
def _oddity_prior_score (f : Frontier) (host : String) (metadata : JobMeta) : ℚ :=
  let values : List ℚ := []
  let values := match lookupA f.host_stats host with
    | some st =>
      if st.pulls > 0 then values ++ [clamp01 (st.reward_sum / ((max 1 st.pulls : Int) : ℚ))]
      else values
    | none => values
  let values := match metadata.score_hint with
    | some h => values ++ [clamp01 h]
    | none => values
  let values := match lookupA f.host_hints host with
    | some h => values ++ [clamp01 h]
    | none => values
  let values := if values = [] then [f.settings.oddity_baseline] else values
  clamp01 (listMaxQ values)

/-- `Frontier._cascade_penalty`.  (With the default
`cascade_min_observations` of 5 the total is positive whenever the ratio is
computed; a non-positive configured minimum with no observations would
raise in the source and divides by zero — yielding 0 — here.) -/
def _cascade_penalty (f : Frontier) (host : String) : ℚ :=
  match lookupA f.host_cascade_stats host with
  | none => 0
  | some st =>
    let total := st.passes + st.skips
    if (total : ℚ) < (f.settings.cascade_min_observations : ℚ) then 0
    else
      let skip_frac := (st.skips : ℚ) / (total : ℚ)
      if skip_frac ≤ f.settings.cascade_skip_threshold then 0
      else
        let excess := skip_frac - f.settings.cascade_skip_threshold
        let scale := max (1 / 1000000) (1 - f.settings.cascade_skip_threshold)
        min f.settings.cascade_penalty (max 0 ((excess / scale) * f.settings.cascade_penalty))

/-- `Frontier._compute_priority` (the only state effect is the refill done
by `_host_budget_score`). -/
def _compute_priority (O : MathFns) (f : Frontier) (host : String) (depth : Int)
    (metadata : JobMeta) (now : ℚ) : ℚ × Frontier :=
  let hbf := _host_budget_score f host now
  let f1 := hbf.2
  let novelty := _novelty_scoreQ O f1.settings (lookupA f1.host_stats host)
  let bandit := _bandit_score O f1 host
  let oddity := _oddity_prior_score f1 host metadata
  let score := f1.settings.weight_host_budget * hbf.1
    + f1.settings.weight_novelty * novelty
    + f1.settings.weight_bandit * bandit
    + f1.settings.weight_oddity * oddity
  let score := score - f1.settings.depth_penalty * ((max depth 0 : Int) : ℚ)
  let cp := _cascade_penalty f1 host
  let score := if cp ≠ 0 then score - cp else score
  let score := match metadata.discovered_from with
    | some d =>
      if d ≠ "" then
        (let from_host := hostOf d
         if from_host ≠ "" ∧ from_host ≠ host then score + f1.settings.cross_domain_bonus
         else score)
      else score
    | none => score
  (score, f1)

/-- `Frontier.add`: dedupe against the seen set, build the metadata,
compute and clamp the priority, push the job. -/
def add (O : MathFns) (f : Frontier) (url : String) (depth : Int)
    (discovered_from : Option String) (priority : Option ℚ) (score_hint : Option ℚ)
    (metadata : Option JobMeta) (now : ℚ) : Frontier :=
  if url = "" then f
  else if url ∈ f.seen then f
  else
    let host := hostOf url
    if host = "" then f
    else
      let f := { f with seen := f.seen ++ [url] }
      let meta := metadata.getD {}
      let meta := if meta.depth = none then { meta with depth := some depth } else meta
      let meta := match discovered_from with
        | some d => if d ≠ "" then { meta with discovered_from := some d } else meta
        | none => meta
      let mf : JobMeta × Frontier := match score_hint with
        | none => (meta, f)
        | some sh =>
          let hv := clamp01 sh
          let meta := { meta with score_hint := some hv }
          match lookupA f.host_hints host with
          | none => (meta, { f with host_hints := setA f.host_hints host hv })
          | some cur =>
            if hv > cur then (meta, { f with host_hints := setA f.host_hints host hv })
            else (meta, f)
      let meta := mf.1
      let pf : ℚ × Frontier := match priority with
        | some pr => (pr, mf.2)
        | none => _compute_priority O mf.2 host depth meta now
      let p := max pf.2.settings.min_priority (min pf.2.settings.max_priority pf.1)
      let job : FrontierJob :=
        { priority := -p
          order := pf.2.order
          host := host
          url := url
          depth := depth
          discovered_from := discovered_from
          metadata := meta }
      { pf.2 with order := pf.2.order + 1, heap := pf.2.heap ++ [job] }

/-- The exported state dict of `export_state` as a typed record
(`_serialize_job` writes exactly a job's fields, so `FrontierJob` doubles
as the serialized form). -/
structure ExportedState where
  order : Int
  seen : List String
  heap : List FrontierJob
  delayed : List (ℚ × Int × FrontierJob)
  host_stats : List (String × HostStats)
  host_buckets : List (String × Bucket)
  host_backoff : List (String × ℚ)
  host_hints : List (String × ℚ)
  host_cascade : List (String × CascadeStats)
  total_pulls : Int
  settings : FrontierSettings
deriving DecidableEq

/-- `Frontier.export_state`: the seen set sorted, both heaps listed, the
host maps and counters verbatim. -/
def export_state (f : Frontier) : ExportedState :=
  { order := f.order
    seen := sortStrings f.seen
    heap := f.heap
    delayed := f.delay_heap
    host_stats := f.host_stats
    host_buckets := f.host_buckets
    host_backoff := f.host_backoff
    host_hints := f.host_hints
    host_cascade := f.host_cascade_stats
    total_pulls := f.total_pulls
    settings := f.settings }

/-- `Frontier.from_state` on a well-typed exported state: the coercions
(`int`, `float`, `str`, `dict`, `FrontierSettings(**d)`) are identities on
the typed record; empty-URL jobs and empty seen entries are dropped (the
`set()` around the seen list deduplicates, which on an exported — sorted,
duplicate-free — list changes nothing); `heapify` permutes the restored
heap lists in place, which the list model renders as the identity; each
delayed entry's `available_at` overwrites the job field; the inflight map
starts empty. -/
def from_state (s : ExportedState) : Frontier :=
  { settings := s.settings
    order := s.order
    seen := s.seen.filter (fun u => u ≠ "")
    heap := s.heap.filter (fun j => j.url ≠ "")
    delay_heap := s.delayed.map (fun e => (e.1, e.2.1, { e.2.2 with available_at := e.1 }))
    host_stats := s.host_stats
    host_buckets := s.host_buckets
    host_backoff := s.host_backoff
    host_hints := s.host_hints
    host_cascade_stats := s.host_cascade
    total_pulls := s.total_pulls
    inflight := [] }

end Frontier

/-- One frontier operation with its observed wall-clock time. -/
inductive FOp where
  | add (url : String) (depth : Int) (discovered_from : Option String)
      (priority : Option ℚ) (score_hint : Option ℚ) (metadata : Option JobMeta) (now : ℚ)
  | pop (now : ℚ)
  | feedback (url : String) (score : ℚ) (action : String) (timestamp : Option ℚ)
      (cascade_skip : Option Bool) (now : ℚ)
  | failure (url : String) (status_code : Option Int) (reason : Option String) (now : ℚ)

/-- Apply one frontier operation. -/
def fStep (O : MathFns) (f : Frontier) : FOp → Frontier
  | .add url depth dfrom pr sh meta now => Frontier.add O f url depth dfrom pr sh meta now
  | .pop now => (Frontier.pop f now).2
  | .feedback url score action ts cs now =>
    Frontier.record_feedback f url score action ts cs now
  | .failure url code reason now => Frontier.record_failure f url code reason now

/-- Apply a sequence of frontier operations in order. -/
def runFOps (O : MathFns) (ops : List FOp) (f : Frontier) : Frontier :=
  ops.foldl (fStep O) f

/-- The token-bucket invariant of claim C4: every bucket holds between 0
and `host_token_capacity` tokens. -/
def BucketInv (f : Frontier) : Prop :=
  ∀ h b, lookupA f.host_buckets h = some b →
    0 ≤ b.tokens ∧ b.tokens ≤ f.settings.host_token_capacity

/-- The host's tokens as stored (capacity for a host with no bucket, as
`_ensure_bucket` would create it). -/
def bucketTokens (f : Frontier) (host : String) : ℚ :=
  ((lookupA f.host_buckets host).getD ⟨f.settings.host_token_capacity, 0⟩).tokens

/-- The host's tokens right after a refill at `now`. -/
def tokensAfterRefill (f : Frontier) (host : String) (now : ℚ) : ℚ :=
  bucketTokens (Frontier._refill_tokens f host now) host

end OddCrawler

open OddCrawler

/-- Unfolding lemma: lookup on a cons cell. -/
theorem lookupA_cons {κ α : Type} [BEq κ] (a : κ × α) (m : List (κ × α)) (k : κ) :
    lookupA (a :: m) k = if a.1 == k then some a.2 else lookupA m k := by
  by_cases h : a.1 == k <;> simp [lookupA, List.find?, h]

/-- Unfolding lemma: update on a cons cell. -/
theorem setA_cons {κ α : Type} [BEq κ] (a : κ × α) (m : List (κ × α)) (k : κ) (v : α) :
    setA (a :: m) k v = if a.1 == k then (k, v) :: m else a :: setA m k v := rfl

/-- Looking up the key just set yields the new value. -/
theorem lookupA_setA_self {κ α : Type} [BEq κ] [LawfulBEq κ]
    (m : List (κ × α)) (k : κ) (v : α) : lookupA (setA m k v) k = some v := by
  induction m with
  | nil => simp [setA, lookupA, List.find?]
  | cons p rest ih =>
    rw [setA_cons]
    by_cases h : p.1 == k
    · rw [if_pos h, lookupA_cons]
      simp
    · rw [if_neg h, lookupA_cons, if_neg h]
      exact ih

/-- Setting one key leaves every other key's lookup unchanged. -/
theorem lookupA_setA_ne {κ α : Type} [BEq κ] [LawfulBEq κ]
    (m : List (κ × α)) (k : κ) (v : α) (k' : κ) (h : k' ≠ k) :
    lookupA (setA m k v) k' = lookupA m k' := by
  have hkk : (k == k') = false := beq_eq_false_iff_ne.mpr (fun hh => h hh.symm)
  induction m with
  | nil => simp [setA, lookupA, List.find?, hkk]
  | cons p rest ih =>
    rw [setA_cons]
    by_cases hp : p.1 == k
    · have hk : p.1 = k := by simpa using hp
      have hpk : (p.1 == k') = false := by rw [hk]; exact hkk
      rw [if_pos hp, lookupA_cons, lookupA_cons, hpk]
      simp [hkk]
    · rw [if_neg hp, lookupA_cons, lookupA_cons]
      by_cases hq : p.1 == k'
      · simp [hq]
      · simp only [hq, if_false]
        exact ih

/-- Setting a key preserves presence of every key. -/
theorem isSome_lookupA_setA {κ α : Type} [BEq κ] [LawfulBEq κ]
    (m : List (κ × α)) (k : κ) (v : α) (k' : κ)
    (h : (lookupA m k').isSome) : (lookupA (setA m k v) k').isSome := by
  by_cases hk : k' = k
  · subst hk
    rw [lookupA_setA_self]
    rfl
  · rwa [lookupA_setA_ne m k v k' hk]

/-- The last-n suffix has length at most n. -/
theorem lastN_length_le {α : Type} (n : Nat) (l : List α) : (lastN n l).length ≤ n := by
  simp only [lastN, List.length_drop]
  omega

/-- The last-n suffix of a duplicate-free list is duplicate-free. -/
theorem lastN_nodup {α : Type} (n : Nat) (l : List α) (h : l.Nodup) : (lastN n l).Nodup :=
  h.sublist (List.drop_sublist _ _)

/-- With no configured thresholds the defaults apply, and the chosen action
is a plain comparison against 0.60 and 0.35. -/
theorem decide_action_default (x : ℝ) (rs : List String) :
    (ScoringEngine.decide [] x rs).action =
      if x ≥ 0.60 then "llm" else if x ≥ 0.35 then "persist" else "skip" := rfl

/-- C1: for every weight configuration and feature-score vector,
`ScoringEngine.fuse` returns a value strictly between 0 and 1, and with the
default thresholds (persist = 0.35, llm_gate = 0.60) `ScoringEngine.decide`
returns "llm" iff the score is ≥ 0.60, "persist" iff it is in [0.35, 0.60),
and "skip" iff it is < 0.35. -/
theorem C1_fuse_range_decide_gates :
    (∀ (w : List (String × ℝ)) (s : FeatureScores),
      0 < ScoringEngine.fuse w s ∧ ScoringEngine.fuse w s < 1) ∧
    (∀ x : ℝ,
      ((ScoringEngine.decide [] x []).action = "llm" ↔ x ≥ 0.60) ∧
      ((ScoringEngine.decide [] x []).action = "persist" ↔ 0.35 ≤ x ∧ x < 0.60) ∧
      ((ScoringEngine.decide [] x []).action = "skip" ↔ x < 0.35)) := by
  constructor
  · intro w s
    unfold ScoringEngine.fuse
    have hexp := Real.exp_pos (-(s.retro_html * ScoringEngine.getW w "retro_html" 0 +
      s.url_weird * ScoringEngine.getW w "url_weird" 0 +
      s.semantic * ScoringEngine.getW w "semantic" 0 +
      s.anomaly * ScoringEngine.getW w "anomaly" 0 +
      s.graph * ScoringEngine.getW w "graph" 0 + ScoringEngine.getW w "bias" 0))
    constructor
    · positivity
    · rw [div_lt_one (by linarith)]
      linarith
  · intro x
    rw [decide_action_default]
    split_ifs with h1 h2
    · refine ⟨⟨fun _ => h1, fun _ => rfl⟩, ?_, ?_⟩
      · exact ⟨fun hcontra => absurd hcontra (by decide),
          fun hx => absurd h1 (not_le.mpr hx.2)⟩
      · exact ⟨fun hcontra => absurd hcontra (by decide),
          fun hlt => absurd h1 (not_le.mpr (by linarith))⟩
    · refine ⟨⟨fun hcontra => absurd hcontra (by decide), fun hge => absurd hge h1⟩, ?_, ?_⟩
      · exact ⟨fun _ => ⟨h2, lt_of_not_ge h1⟩, fun _ => rfl⟩
      · exact ⟨fun hcontra => absurd hcontra (by decide),
          fun hlt => absurd h2 (not_le.mpr hlt)⟩
    · refine ⟨⟨fun hcontra => absurd hcontra (by decide), fun hge => absurd hge h1⟩, ?_, ?_⟩
      · exact ⟨fun hcontra => absurd hcontra (by decide),
          fun hx => absurd hx.1 h2⟩
      · exact ⟨fun _ => lt_of_not_ge h2, fun _ => rfl⟩

/-- 1000 < e^7, from the decimal lower bound on e. -/
theorem exp_seven_gt : (1000 : ℝ) < Real.exp 7 := by
  have h1 : (2.7182818283 : ℝ) ^ 7 < Real.exp 1 ^ 7 :=
    pow_lt_pow_left Real.exp_one_gt_d9 (by norm_num) (by norm_num)
  have h2 : Real.exp 1 ^ 7 = Real.exp 7 := by
    rw [← Real.exp_nat_mul]; norm_num
  nlinarith [h1, h2]

/-- e^13 < 10^6, from the decimal upper bound on e. -/
theorem exp_thirteen_lt : Real.exp 13 < 1000000 := by
  have h1 : Real.exp 1 ^ 13 < (2.7182818286 : ℝ) ^ 13 :=
    pow_lt_pow_left Real.exp_one_lt_d9 (Real.exp_pos 1).le (by norm_num)
  have h2 : Real.exp 1 ^ 13 = Real.exp 13 := by
    rw [← Real.exp_nat_mul]; norm_num
  nlinarith [h1, h2]

/-- e^(-7/3) < 1/10: the novelty floor binds at 14 pulls. -/
theorem exp_neg_seven_thirds_lt : Real.exp (-(7 / 3 : ℝ)) < 1 / 10 := by
  have hcube : Real.exp (7 / 3 : ℝ) ^ 3 = Real.exp 7 := by
    rw [← Real.exp_nat_mul]; norm_num
  have h10 : (10 : ℝ) < Real.exp (7 / 3) := by
    have : (10 : ℝ) ^ 3 < Real.exp (7 / 3) ^ 3 := by
      rw [hcube]; norm_num [exp_seven_gt]
    exact lt_of_pow_lt_pow_left 3 (Real.exp_pos _).le this
  rw [Real.exp_neg]
  rw [show (1 / 10 : ℝ) = 10⁻¹ by norm_num]
  exact inv_lt_inv_of_lt (by norm_num) h10

/-- 1/10 < e^(-13/6): the novelty floor does not bind at 13 pulls. -/
theorem exp_neg_thirteen_sixths_gt : (1 / 10 : ℝ) < Real.exp (-(13 / 6 : ℝ)) := by
  have hpow : Real.exp (13 / 6 : ℝ) ^ 6 = Real.exp 13 := by
    rw [← Real.exp_nat_mul]; norm_num
  have h10 : Real.exp (13 / 6) < 10 := by
    have : Real.exp (13 / 6) ^ 6 < (10 : ℝ) ^ 6 := by
      rw [hpow]; norm_num [exp_thirteen_lt]
    exact lt_of_pow_lt_pow_left 6 (by norm_num) this
  rw [Real.exp_neg]
  rw [show (1 / 10 : ℝ) = 10⁻¹ by norm_num]
  exact inv_lt_inv_of_lt (Real.exp_pos _) h10

/-- A host-stats record with 14 recorded pulls. -/
def st14 : HostStats := { pulls := 14 }

/-- C6 counterexample: with the default decay 6 and a host at 14 pulls, the
code returns the floor 0.1 while the claimed formula `exp(-pulls/6)` is
strictly below 0.1, so the two differ. -/
theorem C6_counterexample :
    novelty_score 6 (some st14) = 0.1 ∧
    novelty_score 6 (some st14) ≠ Real.exp (-(14 : ℝ) / 6) := by
  have hval : Real.exp (-(14 : ℝ) / 6) = Real.exp (-(7 / 3 : ℝ)) := by norm_num
  have hlt : Real.exp (-(14 : ℝ) / 6) < 0.1 := by
    rw [hval]; have := exp_neg_seven_thirds_lt; linarith
  have hred : novelty_score 6 (some st14) =
      if ((14 : Int) : ℝ) ≤ 0 then 1
      else max 0.1 (Real.exp (-((14 : Int) : ℝ) / max (6 : ℝ) 1)) := rfl
  have hns : novelty_score 6 (some st14) = 0.1 := by
    rw [hred, if_neg (by norm_num)]
    rw [show max (6 : ℝ) 1 = 6 by norm_num]
    rw [show -(((14 : Int) : ℝ)) / 6 = -(14 : ℝ) / 6 by push_cast; ring]
    rw [max_eq_left]
    linarith
  exact ⟨hns, by rw [hns]; exact fun h => absurd h.symm (ne_of_lt hlt)⟩

/-- C6 (amended): the novelty subscore is 1.0 for an unseen host or one with
no pulls, and for a host with `pulls ≥ 1` and the default decay 6 it equals
`max(0.1, exp(-pulls/6))` — that is, `exp(-pulls/6)` while `pulls ≤ 13` and
the floor 0.1 once `pulls ≥ 14`. -/
theorem C6_novelty_formula (st : HostStats) :
    novelty_score 6 none = 1 ∧
    (st.pulls ≤ 0 → novelty_score 6 (some st) = 1) ∧
    (1 ≤ st.pulls →
      novelty_score 6 (some st) = max 0.1 (Real.exp (-(st.pulls : ℝ) / 6)) ∧
      (st.pulls ≤ 13 → novelty_score 6 (some st) = Real.exp (-(st.pulls : ℝ) / 6)) ∧
      (14 ≤ st.pulls → novelty_score 6 (some st) = 0.1)) := by
  have hred : novelty_score 6 (some st) =
      if (st.pulls : ℝ) ≤ 0 then 1
      else max 0.1 (Real.exp (-(st.pulls : ℝ) / max (6 : ℝ) 1)) := rfl
  refine ⟨rfl, ?_, ?_⟩
  · intro h0
    rw [hred, if_pos]
    exact_mod_cast h0
  · intro h1
    have hpos : ¬ ((st.pulls : ℝ) ≤ 0) := by
      push_neg
      exact_mod_cast h1
    have hmain : novelty_score 6 (some st) = max 0.1 (Real.exp (-(st.pulls : ℝ) / 6)) := by
      rw [hred, if_neg hpos, show max (6 : ℝ) 1 = 6 by norm_num]
    refine ⟨hmain, ?_, ?_⟩
    · intro h13
      rw [hmain, max_eq_right]
      have hc : (st.pulls : ℝ) ≤ 13 := by exact_mod_cast h13
      have hmono : Real.exp (-(13 / 6 : ℝ)) ≤ Real.exp (-(st.pulls : ℝ) / 6) := by
        apply Real.exp_le_exp.mpr
        linarith
      have := exp_neg_thirteen_sixths_gt
      have h01 : (0.1 : ℝ) = 1 / 10 := by norm_num
      linarith
    · intro h14
      rw [hmain, max_eq_left]
      have hc : (14 : ℝ) ≤ (st.pulls : ℝ) := by exact_mod_cast h14
      have hmono : Real.exp (-(st.pulls : ℝ) / 6) ≤ Real.exp (-(7 / 3 : ℝ)) := by
        apply Real.exp_le_exp.mpr
        linarith
      have := exp_neg_seven_thirds_lt
      have h01 : (0.1 : ℝ) = 1 / 10 := by norm_num
      linarith

/-- A failure cache with the default configuration (skip on 404, 7-day TTL)
holding one entry recorded at time 0. -/
def c7cache : FailureCache :=
  { skip_statuses := [404]
    expiry_seconds := some 604800
    entries := [("http://example.test/missing",
      { url := "http://example.test/missing"
        status := some 404
        reason := "http-404"
        first_recorded_at := 0
        last_recorded_at := 0
        count := 1 })] }

/-- C7 counterexample: exactly at `now = last_recorded_at + expiry_seconds`
the code still returns true (its expiry test is strict), while the claim's
condition `now − last_recorded_at < expiry_seconds` is false there. -/
theorem C7_counterexample :
    FailureCache.should_skip c7cache "http://example.test/missing" 604800 = true ∧
    ¬ ((604800 : ℚ) - 0 < 604800) := by
  constructor
  · unfold FailureCache.should_skip FailureCache._expired c7cache lookupA
    norm_num
  · norm_num

/-- C7 (amended): with a configured TTL `E`, `should_skip` returns true iff
the cache holds an entry for the URL whose status is a configured skip
status and which is at most `E` seconds old (`now − last_recorded_at ≤ E`);
in particular an entry with `last_recorded_at + E < now` never yields
true. -/
theorem C7_should_skip_iff (c : FailureCache) (url : String) (now E : ℚ)
    (hE : c.expiry_seconds = some E) :
    (FailureCache.should_skip c url now = true ↔
      ∃ e s, lookupA c.entries url = some e ∧ e.status = some s ∧
        s ∈ c.skip_statuses ∧ now - e.last_recorded_at ≤ E) ∧
    (∀ e, lookupA c.entries url = some e → e.last_recorded_at + E < now →
      FailureCache.should_skip c url now = false) := by
  have hred : FailureCache.should_skip c url now =
      (match lookupA c.entries url with
       | none => false
       | some e =>
         if FailureCache._expired c e now then false
         else match e.status with
           | none => false
           | some st => decide (st ∈ c.skip_statuses)) := rfl
  have hexpeq : ∀ e : FailureEntry,
      FailureCache._expired c e now = decide (e.last_recorded_at + E < now) := by
    intro e
    unfold FailureCache._expired
    rw [hE]
  constructor
  · rcases hlook : lookupA c.entries url with _ | e
    · rw [hred, hlook]
      constructor
      · intro h; cases h
      · rintro ⟨e', s', he', -⟩
        simp at he'
    · rw [hred, hlook]
      show ((if FailureCache._expired c e now then false
             else match e.status with
               | none => false
               | some st => decide (st ∈ c.skip_statuses)) = true ↔ _)
      rw [hexpeq e]
      by_cases hexp : e.last_recorded_at + E < now
      · rw [if_pos (by simpa using hexp)]
        constructor
        · intro h; cases h
        · rintro ⟨e', s', he', -, -, hage⟩
          injection he' with heq
          subst heq
          linarith
      · rw [if_neg (by simpa using hexp)]
        rcases hst : e.status with _ | s
        · constructor
          · intro h; cases h
          · rintro ⟨e', s', he', hs', -, -⟩
            injection he' with heq
            subst heq
            simp [hst] at hs'
        · show (decide (s ∈ c.skip_statuses) = true ↔ _)
          constructor
          · intro h
            exact ⟨e, s, rfl, hst, by simpa using h, by linarith [not_lt.mp hexp]⟩
          · rintro ⟨e', s', he', hs', hmem, -⟩
            injection he' with heq
            subst heq
            rw [hst] at hs'
            injection hs' with hseq
            subst hseq
            simpa using hmem
  · intro e hlook hold
    rw [hred, hlook]
    show ((if FailureCache._expired c e now then false
           else match e.status with
             | none => false
             | some st => decide (st ∈ c.skip_statuses)) = false)
    rw [hexpeq e, if_pos (by simpa using hold)]

/-- C7 witness: the amended statement instantiated at the concrete default
cache, time 100, and TTL 604800. -/
theorem C7_witness :
    (FailureCache.should_skip c7cache "http://example.test/missing" 100 = true ↔
      ∃ e s, lookupA c7cache.entries "http://example.test/missing" = some e ∧
        e.status = some s ∧ s ∈ c7cache.skip_statuses ∧
        (100 : ℚ) - e.last_recorded_at ≤ 604800) ∧
    (∀ e, lookupA c7cache.entries "http://example.test/missing" = some e →
      e.last_recorded_at + 604800 < 100 →
      FailureCache.should_skip c7cache "http://example.test/missing" 100 = false) :=
  C7_should_skip_iff c7cache "http://example.test/missing" 100 604800 rfl

/-- `_ensure_node` never touches the edge map. -/
theorem ensure_edges (g : GraphStore) (u : String) :
    (GraphStore._ensure_node g u).edges = g.edges := by
  unfold GraphStore._ensure_node
  split <;> rfl

/-- After `_ensure_node g u`, the node `u` is present. -/
theorem ensure_present_self (g : GraphStore) (u : String) :
    nodePresent (GraphStore._ensure_node g u) u := by
  unfold nodePresent GraphStore._ensure_node
  split
  next h => rw [h]; rfl
  next h => rw [lookupA_setA_self]; rfl

/-- `_ensure_node` keeps every present node present. -/
theorem ensure_present_mono (g : GraphStore) (u w : String) (h : nodePresent g w) :
    nodePresent (GraphStore._ensure_node g u) w := by
  unfold nodePresent GraphStore._ensure_node
  split
  · exact h
  · exact isSome_lookupA_setA _ _ _ _ h

/-- `_ensure_node` preserves the bounded-history invariant (a fresh node has
an empty history). -/
theorem histInv_ensure (g : GraphStore) (u : String) (h : HistInvM g.nodes) :
    HistInvM (GraphStore._ensure_node g u).nodes := by
  unfold GraphStore._ensure_node
  split
  · exact h
  · intro w n hw
    by_cases hk : w = u
    · subst hk
      rw [lookupA_setA_self] at hw
      cases hw
      simp
    · rw [lookupA_setA_ne _ _ _ _ hk] at hw
      exact h w n hw

/-- Updating one node preserves the bounded-history invariant when the new
node's history is bounded. -/
theorem histInvM_setA (m : List (String × GNode)) (k : String) (v : GNode)
    (h : HistInvM m) (hv : v.score_history.length ≤ 10) : HistInvM (setA m k v) := by
  intro u n hu
  by_cases hk : u = k
  · subst hk
    rw [lookupA_setA_self] at hu
    cases hu
    exact hv
  · rw [lookupA_setA_ne _ _ _ _ hk] at hu
    exact h u n hu

/-- `_ensure_node` preserves the edge invariant. -/
theorem edgeInv_ensure (g : GraphStore) (u : String) (h : EdgeInv g) :
    EdgeInv (GraphStore._ensure_node g u) := by
  intro k e hk
  rw [ensure_edges] at hk
  obtain ⟨hne, h1, h2, h5, hnd⟩ := h k e hk
  exact ⟨hne, ensure_present_mono _ _ _ h1, ensure_present_mono _ _ _ h2, h5, hnd⟩

/-- Same edges and no lost nodes preserve the edge invariant. -/
theorem edgeInv_of_mono (g g' : GraphStore) (he : g'.edges = g.edges)
    (hn : ∀ u, nodePresent g u → nodePresent g' u) (h : EdgeInv g) : EdgeInv g' := by
  intro k e hk
  rw [he] at hk
  obtain ⟨hne, h1, h2, h5, hnd⟩ := h k e hk
  exact ⟨hne, hn _ h1, hn _ h2, h5, hnd⟩

/-- The weights only depend on the edge map. -/
theorem weightAt_congr (g g' : GraphStore) (he : g'.edges = g.edges) (s t : String) :
    weightAt g' s t = weightAt g s t := by
  unfold weightAt
  rw [he]

/-- The weight as a lookup expression. -/
theorem weightAt_eq (g : GraphStore) (s t : String) :
    weightAt g s t = ((lookupA g.edges (s, t)).map (·.weight)).getD 0 := by
  unfold weightAt
  cases lookupA g.edges (s, t) <;> rfl

/-- The anchor ring read by `_record_edge` is bounded and duplicate-free
under the edge invariant. -/
theorem recordedEdgeData_bounds (g : GraphStore) (src : String) (l : OutboundLink)
    (hg : EdgeInv g) :
    (GraphStore.recordedEdgeData g src l).anchor_texts.length ≤ 5 ∧
    (GraphStore.recordedEdgeData g src l).anchor_texts.Nodup := by
  unfold GraphStore.recordedEdgeData
  cases h : lookupA g.edges (src, l.url) with
  | none => simp
  | some e =>
    have := (hg _ _ h).2.2.2
    simpa using this

/-- The upserted anchor ring stays bounded and duplicate-free. -/
theorem recordedEdge_anchor_bounds (g : GraphStore) (src : String) (l : OutboundLink)
    (hg : EdgeInv g) :
    (GraphStore.recordedEdge g src l).anchor_texts.length ≤ 5 ∧
    (GraphStore.recordedEdge g src l).anchor_texts.Nodup := by
  obtain ⟨h5, hnd⟩ := recordedEdgeData_bounds g src l hg
  unfold GraphStore.recordedEdge
  simp only []
  by_cases ha : l.anchor_text ≠ ""
  · rw [if_pos ha]
    by_cases hm : l.anchor_text ∈ (GraphStore.recordedEdgeData g src l).anchor_texts
    · rw [if_pos hm]
      exact ⟨lastN_length_le _ _, lastN_nodup _ _ hnd⟩
    · rw [if_neg hm]
      refine ⟨lastN_length_le _ _, lastN_nodup _ _ ?_⟩
      simp [List.nodup_append, hnd, hm]
  · rw [if_neg ha]
    exact ⟨h5, hnd⟩

/-- The upserted weight is the previous weight plus one. -/
theorem recordedEdge_weight (g : GraphStore) (src : String) (l : OutboundLink) :
    (GraphStore.recordedEdge g src l).weight = weightAt g src l.url + 1 := by
  unfold GraphStore.recordedEdge GraphStore.recordedEdgeData weightAt
  cases h : lookupA g.edges (src, l.url) <;> simp [h]

/-- One `_record_edge` call: the invariant is preserved, the source stays
present, and exactly the (src, link.url) weight is bumped. -/
theorem record_edge_main (g : GraphStore) (src : String) (l : OutboundLink)
    (hl : l.url ≠ src) (hg : GraphInv g) (hsrc : nodePresent g src) :
    GraphInv (GraphStore._record_edge g src l) ∧
    nodePresent (GraphStore._record_edge g src l) src ∧
    (∀ s t, weightAt (GraphStore._record_edge g src l) s t =
      weightAt g s t + (if src = s ∧ l.url = t then 1 else 0)) := by
  obtain ⟨hge, hgh⟩ := hg
  have hedges1 : (GraphStore._ensure_node g l.url).edges = g.edges := ensure_edges g l.url
  have hge1 : EdgeInv (GraphStore._ensure_node g l.url) := edgeInv_ensure g l.url hge
  have hpres_src : nodePresent (GraphStore._ensure_node g l.url) src :=
    ensure_present_mono _ _ _ hsrc
  have hpres_t : nodePresent (GraphStore._ensure_node g l.url) l.url :=
    ensure_present_self g l.url
  have hrnodes : (GraphStore._record_edge g src l).nodes =
      (GraphStore._ensure_node g l.url).nodes := rfl
  have hredges : (GraphStore._record_edge g src l).edges =
      setA (GraphStore._ensure_node g l.url).edges (src, l.url)
        (GraphStore.recordedEdge (GraphStore._ensure_node g l.url) src l) := rfl
  refine ⟨⟨?_, ?_⟩, ?_, ?_⟩
  · -- EdgeInv
    intro k e hk
    rw [hredges] at hk
    by_cases hkey : k = (src, l.url)
    · subst hkey
      rw [lookupA_setA_self] at hk
      cases hk
      refine ⟨fun hh => hl (by simpa using hh.symm), ?_, ?_, ?_⟩
      · simpa [nodePresent, hrnodes] using hpres_src
      · simpa [nodePresent, hrnodes] using hpres_t
      · exact recordedEdge_anchor_bounds _ src l hge1
    · rw [lookupA_setA_ne _ _ _ _ hkey] at hk
      obtain ⟨hne, h1, h2, h5, hnd⟩ := hge1 k e hk
      exact ⟨hne, by simpa [nodePresent, hrnodes] using h1,
        by simpa [nodePresent, hrnodes] using h2, h5, hnd⟩
  · -- HistInvM
    have : HistInvM (GraphStore._ensure_node g l.url).nodes := histInv_ensure g l.url hgh
    rw [show (GraphStore._record_edge g src l).nodes =
      (GraphStore._ensure_node g l.url).nodes from rfl]
    exact this
  · simpa [nodePresent, hrnodes] using hpres_src
  · intro s t
    rw [weightAt_eq, hredges]
    by_cases hkey : ((s, t) : String × String) = (src, l.url)
    · have hs : s = src := congrArg Prod.fst hkey
      have ht : t = l.url := congrArg Prod.snd hkey
      subst hs
      subst ht
      rw [lookupA_setA_self, if_pos ⟨rfl, rfl⟩]
      simp only [Option.map_some', Option.getD_some]
      rw [recordedEdge_weight, weightAt_congr g (GraphStore._ensure_node g l.url) hedges1]
    · rw [lookupA_setA_ne _ _ _ _ hkey, hedges1, ← weightAt_eq]
      have hno : ¬ (src = s ∧ l.url = t) := by
        intro hh
        exact hkey (by rw [hh.1, hh.2])
      rw [if_neg hno]
      simp

/-- The metadata refresh leaves the score history untouched. -/
theorem recordPageNode_history (n : GNode) (fat : String) (st : Int) (ti : String) (wh : Int) :
    (GraphStore.recordPageNode n fat st ti wh).score_history = n.score_history := rfl

/-- `recordPageStart` leaves the edge map untouched. -/
theorem recordPageStart_edges (g : GraphStore) (src fat : String) (st : Int) (ti : String)
    (wh : Int) : (GraphStore.recordPageStart g src fat st ti wh).edges = g.edges := by
  show (GraphStore._ensure_node g src).edges = g.edges
  exact ensure_edges g src

/-- `recordPageStart` preserves the invariant and makes the source present. -/
theorem recordPageStart_inv (g : GraphStore) (src fat : String) (st : Int) (ti : String)
    (wh : Int) (hg : GraphInv g) :
    GraphInv (GraphStore.recordPageStart g src fat st ti wh) ∧
    nodePresent (GraphStore.recordPageStart g src fat st ti wh) src := by
  obtain ⟨hge, hgh⟩ := hg
  have hnodes : (GraphStore.recordPageStart g src fat st ti wh).nodes =
      setA (GraphStore._ensure_node g src).nodes src
        (GraphStore.recordPageNode
          ((lookupA (GraphStore._ensure_node g src).nodes src).getD { url := src })
          fat st ti wh) := rfl
  have hhist1 : HistInvM (GraphStore._ensure_node g src).nodes := histInv_ensure g src hgh
  have hh : (GraphStore.recordPageNode
      ((lookupA (GraphStore._ensure_node g src).nodes src).getD { url := src })
      fat st ti wh).score_history.length ≤ 10 := by
    rw [recordPageNode_history]
    cases hl : lookupA (GraphStore._ensure_node g src).nodes src with
    | none => simp
    | some n => simpa using hhist1 src n hl
  refine ⟨⟨?_, ?_⟩, ?_⟩
  · apply edgeInv_of_mono g _ (recordPageStart_edges g src fat st ti wh)
    · intro u hu
      unfold nodePresent
      rw [hnodes]
      apply isSome_lookupA_setA
      exact ensure_present_mono g src u hu
    · exact hge
  · rw [hnodes]
    exact histInvM_setA _ _ _ hhist1 hh
  · unfold nodePresent
    rw [hnodes, lookupA_setA_self]
    rfl

/-- `recordPageFinish` preserves the invariant and the edge map. -/
theorem recordPageFinish_inv (g : GraphStore) (src : String) (pl : List OutboundLink)
    (hg : GraphInv g) :
    GraphInv (GraphStore.recordPageFinish g src pl) ∧
    (GraphStore.recordPageFinish g src pl).edges = g.edges := by
  obtain ⟨hge, hgh⟩ := hg
  have hedges : (GraphStore.recordPageFinish g src pl).edges = g.edges := rfl
  have hnodes : (GraphStore.recordPageFinish g src pl).nodes =
      setA g.nodes src
        ({ (lookupA g.nodes src).getD { url := src } with
           outbound_count := (pl.length : Int)
           outbound_domains := (((pl.map (fun l => netlocOrEmpty l.url)).dedup).length : Int) }) := rfl
  have hh : ({ (lookupA g.nodes src).getD { url := src } with
      outbound_count := (pl.length : Int)
      outbound_domains := (((pl.map (fun l => netlocOrEmpty l.url)).dedup).length : Int)
      : GNode }).score_history.length ≤ 10 := by
    show ((lookupA g.nodes src).getD { url := src }).score_history.length ≤ 10
    cases hl : lookupA g.nodes src with
    | none => simp
    | some n => simpa using hgh src n hl
  refine ⟨⟨?_, ?_⟩, hedges⟩
  · apply edgeInv_of_mono g _ hedges
    · intro u hu
      unfold nodePresent
      rw [hnodes]
      exact isSome_lookupA_setA _ _ _ _ hu
    · exact hge
  · rw [hnodes]
    exact histInvM_setA _ _ _ hgh hh

/-- Folding `_record_edge` over a self-loop-free link list: invariant kept,
source kept present, and each (src, url) weight bumped once per occurrence. -/
theorem fold_record_edges (src : String) (ls : List OutboundLink)
    (hls : ∀ l ∈ ls, l.url ≠ src) :
    ∀ g : GraphStore, GraphInv g → nodePresent g src →
      GraphInv (ls.foldl (fun g l => GraphStore._record_edge g src l) g) ∧
      nodePresent (ls.foldl (fun g l => GraphStore._record_edge g src l) g) src ∧
      ∀ s t, weightAt (ls.foldl (fun g l => GraphStore._record_edge g src l) g) s t =
        weightAt g s t + ((ls.filter (fun l => src = s ∧ l.url = t)).length : Int) := by
  induction ls with
  | nil =>
    intro g hg hsrc
    exact ⟨hg, hsrc, fun s t => by simp⟩
  | cons l ls ih =>
    intro g hg hsrc
    have hstep := record_edge_main g src l (hls l (List.mem_cons_self l ls)) hg hsrc
    have hrest := ih (fun l' hl' => hls l' (List.mem_cons_of_mem l hl'))
      (GraphStore._record_edge g src l) hstep.1 hstep.2.1
    refine ⟨hrest.1, hrest.2.1, ?_⟩
    intro s t
    rw [List.foldl_cons, hrest.2.2 s t, hstep.2.2 s t]
    by_cases hp : src = s ∧ l.url = t
    · rw [List.filter_cons_of_pos (by simpa using hp)]
      rw [if_pos hp]
      simp only [List.length_cons]
      push_cast
      ring
    · rw [List.filter_cons_of_neg (by simpa using hp)]
      rw [if_neg hp]
      ring

/-- Relating the per-call occurrence count to the filtered link list. -/
theorem occ_filter (links : List OutboundLink) (src s t : String) :
    (((links.filter (fun l => l.url ≠ src)).filter (fun l => src = s ∧ l.url = t)).length : Int)
      = if src = s then ((links.filter (fun l => l.url = t ∧ l.url ≠ src)).length : Int) else 0 := by
  by_cases h : src = s
  · subst h
    rw [if_pos rfl]
    have hfe : (links.filter (fun l => l.url ≠ src)).filter (fun l => src = src ∧ l.url = t)
        = links.filter (fun l => l.url = t ∧ l.url ≠ src) := by
      rw [List.filter_filter]
      apply List.filter_congr
      intro a _
      by_cases h1 : a.url = t <;> by_cases h2 : a.url = src <;> simp [h1, h2]
    rw [hfe]
  · rw [if_neg h]
    have hnil : ((links.filter (fun l => l.url ≠ src)).filter
        (fun l => src = s ∧ l.url = t)) = [] := by
      rw [List.filter_eq_nil]
      intro a _
      simp [h]
    rw [hnil]
    rfl

/-- One `record_page` call: invariant preserved and exactly the link
occurrences' weights bumped. -/
theorem record_page_main (g : GraphStore) (src fat : String) (st : Int) (ti : String)
    (links : List OutboundLink) (wh : Int) (hg : GraphInv g) :
    GraphInv (GraphStore.record_page g src fat st ti links wh) ∧
    ∀ s t, weightAt (GraphStore.record_page g src fat st ti links wh) s t =
      weightAt g s t +
        (if src = s then ((links.filter (fun l => l.url = t ∧ l.url ≠ src)).length : Int)
         else 0) := by
  have hls : ∀ l ∈ links.filter (fun l => l.url ≠ src), l.url ≠ src := by
    intro l hl
    have := (List.mem_filter.mp hl).2
    simpa using this
  have hstart := recordPageStart_inv g src fat st ti wh hg
  have hfold := fold_record_edges src (links.filter (fun l => l.url ≠ src)) hls
    (GraphStore.recordPageStart g src fat st ti wh) hstart.1 hstart.2
  have hfin := recordPageFinish_inv
    ((links.filter (fun l => l.url ≠ src)).foldl
      (fun g l => GraphStore._record_edge g src l)
      (GraphStore.recordPageStart g src fat st ti wh)) src
    (links.filter (fun l => l.url ≠ src)) hfold.1
  have hdef : GraphStore.record_page g src fat st ti links wh =
      GraphStore.recordPageFinish
        ((links.filter (fun l => l.url ≠ src)).foldl
          (fun g l => GraphStore._record_edge g src l)
          (GraphStore.recordPageStart g src fat st ti wh)) src
        (links.filter (fun l => l.url ≠ src)) := rfl
  refine ⟨by rw [hdef]; exact hfin.1, ?_⟩
  intro s t
  rw [hdef, weightAt_congr _ _ hfin.2 s t, hfold.2.2 s t,
    weightAt_congr _ _ (recordPageStart_edges g src fat st ti wh) s t, occ_filter]

/-- One `update_score` call: invariant preserved, edge map untouched. -/
theorem update_score_main (g : GraphStore) (url : String) (score : ℚ) (action : String)
    (hg : GraphInv g) :
    GraphInv (GraphStore.update_score g url score action) ∧
    (GraphStore.update_score g url score action).edges = g.edges := by
  obtain ⟨hge, hgh⟩ := hg
  cases hnode : lookupA g.nodes url with
  | none =>
    have hred : GraphStore.update_score g url score action = g := by
      unfold GraphStore.update_score
      rw [hnode]
    rw [hred]
    exact ⟨⟨hge, hgh⟩, rfl⟩
  | some node =>
    have hred : GraphStore.update_score g url score action =
        GraphStore.persist
          { g with nodes := setA g.nodes url (GraphStore.updatedScoreNode node score action) } := by
      unfold GraphStore.update_score
      rw [hnode]
    rw [hred]
    refine ⟨⟨?_, ?_⟩, rfl⟩
    · intro k e hk
      obtain ⟨hne, h1, h2, h5, hnd⟩ := hge k e hk
      refine ⟨hne, ?_, ?_, h5, hnd⟩
      · show (lookupA (setA g.nodes url (GraphStore.updatedScoreNode node score action)) k.1).isSome
        exact isSome_lookupA_setA _ _ _ _ h1
      · show (lookupA (setA g.nodes url (GraphStore.updatedScoreNode node score action)) k.2).isSome
        exact isSome_lookupA_setA _ _ _ _ h2
    · show HistInvM (setA g.nodes url (GraphStore.updatedScoreNode node score action))
      apply histInvM_setA _ _ _ hgh
      simp only [GraphStore.updatedScoreNode, List.length_drop]
      omega

/-- Running a call sequence from any invariant-satisfying store preserves
the invariant and adds exactly the link occurrences to each weight. -/
theorem graph_ops_acc (ops : List GOp) : ∀ g : GraphStore, GraphInv g →
    GraphInv (runGOps ops g) ∧
    ∀ s t, weightAt (runGOps ops g) s t = weightAt g s t + linkOccurrences ops s t := by
  induction ops with
  | nil =>
    intro g hg
    refine ⟨hg, fun s t => ?_⟩
    simp [runGOps, linkOccurrences]
  | cons op ops ih =>
    intro g hg
    have hrun : runGOps (op :: ops) g = runGOps ops (gStep g op) := rfl
    cases op with
    | record src fat st ti links wh =>
      have hstep := record_page_main g src fat st ti links wh hg
      have hrest := ih (GraphStore.record_page g src fat st ti links wh) hstep.1
      refine ⟨by rw [hrun]; exact hrest.1, ?_⟩
      intro s t
      have hocc : linkOccurrences (GOp.record src fat st ti links wh :: ops) s t =
          (if src = s then ((links.filter (fun l => l.url = t ∧ l.url ≠ src)).length : Int)
           else 0) + linkOccurrences ops s t := by
        simp [linkOccurrences]
      rw [hrun]
      show weightAt (runGOps ops (GraphStore.record_page g src fat st ti links wh)) s t = _
      rw [hrest.2 s t, hstep.2 s t, hocc]
      ring
    | update url score action =>
      have hstep := update_score_main g url score action hg
      have hrest := ih (GraphStore.update_score g url score action) hstep.1
      refine ⟨by rw [hrun]; exact hrest.1, ?_⟩
      intro s t
      have hocc : linkOccurrences (GOp.update url score action :: ops) s t =
          linkOccurrences ops s t := by
        simp [linkOccurrences]
      rw [hrun]
      show weightAt (runGOps ops (GraphStore.update_score g url score action)) s t = _
      rw [hrest.2 s t, weightAt_congr _ _ hstep.2 s t, hocc]

/-- C8 (amended): after every sequence of `record_page`/`update_score`
calls from an empty store, every edge is a non-self-loop with both
endpoints present as nodes, its anchor_texts ring has at most 5 pairwise
distinct entries, every node's score_history has at most 10 entries, and
each edge's weight equals the total number of occurrences of that
(source, target) link across all `record_page` calls' link lists. -/
theorem C8_graph_invariants (ops : List GOp) :
    GraphInv (runGOps ops GraphStore.emptyStore) ∧
    ∀ s t, weightAt (runGOps ops GraphStore.emptyStore) s t = linkOccurrences ops s t := by
  have hempty : GraphInv GraphStore.emptyStore := by
    constructor
    · intro k e hk
      simp [lookupA, GraphStore.emptyStore] at hk
    · intro u n hn
      simp [lookupA, GraphStore.emptyStore] at hn
  have h := graph_ops_acc ops GraphStore.emptyStore hempty
  refine ⟨h.1, fun s t => ?_⟩
  rw [h.2 s t]
  show weightAt GraphStore.emptyStore s t + _ = _
  simp [weightAt, lookupA, GraphStore.emptyStore]

/-- A single `record_page` call whose link list holds the same outbound link
twice. -/
def c8ops : List GOp :=
  [GOp.record "http://a.test/" "2024-01-01T00:00:00" 200 "a"
    [{ url := "http://b.test/", anchor_text := "b", rel := [], found_at := "t" },
     { url := "http://b.test/", anchor_text := "b", rel := [], found_at := "t" }] 0]

/-- C8 counterexample: one `record_page` call whose links list contains the
same (source, target) link twice yields weight 2, while only one call
recorded that link — so the weight does not equal the number of recording
calls. -/
theorem C8_counterexample :
    weightAt (runGOps c8ops GraphStore.emptyStore) "http://a.test/" "http://b.test/" = 2 ∧
    recordingCalls c8ops "http://a.test/" "http://b.test/" = 1 ∧ (2 : Int) ≠ (1 : Int) := by
  refine ⟨by decide, by decide, by decide⟩

/-- C10: `update_score` on a URL with no node in the graph changes nothing:
no node is created, no attribute is modified and the graph file is not
rewritten (the store, including its write counter, is returned unchanged). -/
theorem C10_update_score_frame (g : GraphStore) (url : String) (score : ℚ) (action : String)
    (h : lookupA g.nodes url = none) :
    GraphStore.update_score g url score action = g := by
  unfold GraphStore.update_score
  rw [h]

/-- C10 witness: updating a URL absent from the empty store is the
identity. -/
theorem C10_witness :
    GraphStore.update_score GraphStore.emptyStore "http://a.test/" (1 / 2) "persist" =
      GraphStore.emptyStore :=
  C10_update_score_frame GraphStore.emptyStore "http://a.test/" (1 / 2) "persist" rfl

/-- C2: the cascade short-circuits.  For each stage k, if the stages before
k continue and stage k signals skip, then `evaluate` returns should_skip =
true, its stage list is exactly the records appended so far (ending with
stage k's record), final_reason is stage k's reason — and the stages after
k are never invoked: replacing them by arbitrary functions leaves the
decision unchanged. -/
theorem C2_cascade_short_circuit :
    (∀ (φ σ μ : Type) (c : CascadeStages φ σ μ) (fr : φ) (r : CStageResult),
      c.stage_head fr = .skip r →
      evaluate c fr = ⟨true, [r], r.reason⟩ ∧
      ∀ (s2 : φ → StageOutcome σ) (s3 : σ → StageOutcome μ)
        (s4 s5 : σ → StageOutcome Unit) (s6 : μ → StageOutcome Unit)
        (s7 : φ → StageOutcome Unit),
        evaluate ⟨c.stage_head, s2, s3, s4, s5, s6, s7⟩ fr = ⟨true, [r], r.reason⟩) ∧
    (∀ (φ σ μ : Type) (c : CascadeStages φ σ μ) (fr : φ) (r1 : CStageResult) (u1 : Unit)
      (r : CStageResult),
      c.stage_head fr = .cont r1 u1 → c.stage_snippet fr = .skip r →
      evaluate c fr = ⟨true, [r1, r], r.reason⟩ ∧
      ∀ (s3 : σ → StageOutcome μ) (s4 s5 : σ → StageOutcome Unit)
        (s6 : μ → StageOutcome Unit) (s7 : φ → StageOutcome Unit),
        evaluate ⟨c.stage_head, c.stage_snippet, s3, s4, s5, s6, s7⟩ fr
          = ⟨true, [r1, r], r.reason⟩) ∧
    (∀ (φ σ μ : Type) (c : CascadeStages φ σ μ) (fr : φ) (r1 : CStageResult) (u1 : Unit)
      (r2 : CStageResult) (sn : σ) (r : CStageResult),
      c.stage_head fr = .cont r1 u1 → c.stage_snippet fr = .cont r2 sn →
      c.stage_structure sn = .skip r →
      evaluate c fr = ⟨true, [r1, r2, r], r.reason⟩ ∧
      ∀ (s4 s5 : σ → StageOutcome Unit) (s6 : μ → StageOutcome Unit)
        (s7 : φ → StageOutcome Unit),
        evaluate ⟨c.stage_head, c.stage_snippet, c.stage_structure, s4, s5, s6, s7⟩ fr
          = ⟨true, [r1, r2, r], r.reason⟩) ∧
    (∀ (φ σ μ : Type) (c : CascadeStages φ σ μ) (fr : φ) (r1 : CStageResult) (u1 : Unit)
      (r2 : CStageResult) (sn : σ) (r3 : CStageResult) (me : μ) (r : CStageResult),
      c.stage_head fr = .cont r1 u1 → c.stage_snippet fr = .cont r2 sn →
      c.stage_structure sn = .cont r3 me → c.stage_keywords sn = .skip r →
      evaluate c fr = ⟨true, [r1, r2, r3, r], r.reason⟩ ∧
      ∀ (s5 : σ → StageOutcome Unit) (s6 : μ → StageOutcome Unit)
        (s7 : φ → StageOutcome Unit),
        evaluate ⟨c.stage_head, c.stage_snippet, c.stage_structure, c.stage_keywords,
          s5, s6, s7⟩ fr = ⟨true, [r1, r2, r3, r], r.reason⟩) ∧
    (∀ (φ σ μ : Type) (c : CascadeStages φ σ μ) (fr : φ) (r1 : CStageResult) (u1 : Unit)
      (r2 : CStageResult) (sn : σ) (r3 : CStageResult) (me : μ) (r4 : CStageResult)
      (u4 : Unit) (r : CStageResult),
      c.stage_head fr = .cont r1 u1 → c.stage_snippet fr = .cont r2 sn →
      c.stage_structure sn = .cont r3 me → c.stage_keywords sn = .cont r4 u4 →
      c.stage_simhash sn = .skip r →
      evaluate c fr = ⟨true, [r1, r2, r3, r4, r], r.reason⟩ ∧
      ∀ (s6 : μ → StageOutcome Unit) (s7 : φ → StageOutcome Unit),
        evaluate ⟨c.stage_head, c.stage_snippet, c.stage_structure, c.stage_keywords,
          c.stage_simhash, s6, s7⟩ fr = ⟨true, [r1, r2, r3, r4, r], r.reason⟩) ∧
    (∀ (φ σ μ : Type) (c : CascadeStages φ σ μ) (fr : φ) (r1 : CStageResult) (u1 : Unit)
      (r2 : CStageResult) (sn : σ) (r3 : CStageResult) (me : μ) (r4 : CStageResult)
      (u4 : Unit) (r5 : CStageResult) (u5 : Unit) (r : CStageResult),
      c.stage_head fr = .cont r1 u1 → c.stage_snippet fr = .cont r2 sn →
      c.stage_structure sn = .cont r3 me → c.stage_keywords sn = .cont r4 u4 →
      c.stage_simhash sn = .cont r5 u5 → c.stage_classifier me = .skip r →
      evaluate c fr = ⟨true, [r1, r2, r3, r4, r5, r], r.reason⟩ ∧
      ∀ (s7 : φ → StageOutcome Unit),
        evaluate ⟨c.stage_head, c.stage_snippet, c.stage_structure, c.stage_keywords,
          c.stage_simhash, c.stage_classifier, s7⟩ fr
          = ⟨true, [r1, r2, r3, r4, r5, r], r.reason⟩) ∧
    (∀ (φ σ μ : Type) (c : CascadeStages φ σ μ) (fr : φ) (r1 : CStageResult) (u1 : Unit)
      (r2 : CStageResult) (sn : σ) (r3 : CStageResult) (me : μ) (r4 : CStageResult)
      (u4 : Unit) (r5 : CStageResult) (u5 : Unit) (r6 : CStageResult) (u6 : Unit)
      (r : CStageResult),
      c.stage_head fr = .cont r1 u1 → c.stage_snippet fr = .cont r2 sn →
      c.stage_structure sn = .cont r3 me → c.stage_keywords sn = .cont r4 u4 →
      c.stage_simhash sn = .cont r5 u5 → c.stage_classifier me = .cont r6 u6 →
      c.stage_prefilter fr = .skip r →
      evaluate c fr = ⟨true, [r1, r2, r3, r4, r5, r6, r], r.reason⟩) := by
  refine ⟨?_, ?_, ?_, ?_, ?_, ?_, ?_⟩
  · intro φ σ μ c fr r h1
    exact ⟨by simp [evaluate, h1], fun s2 s3 s4 s5 s6 s7 => by simp [evaluate, h1]⟩
  · intro φ σ μ c fr r1 u1 r h1 h2
    exact ⟨by simp [evaluate, h1, h2], fun s3 s4 s5 s6 s7 => by simp [evaluate, h1, h2]⟩
  · intro φ σ μ c fr r1 u1 r2 sn r h1 h2 h3
    exact ⟨by simp [evaluate, h1, h2, h3],
      fun s4 s5 s6 s7 => by simp [evaluate, h1, h2, h3]⟩
  · intro φ σ μ c fr r1 u1 r2 sn r3 me r h1 h2 h3 h4
    exact ⟨by simp [evaluate, h1, h2, h3, h4],
      fun s5 s6 s7 => by simp [evaluate, h1, h2, h3, h4]⟩
  · intro φ σ μ c fr r1 u1 r2 sn r3 me r4 u4 r h1 h2 h3 h4 h5
    exact ⟨by simp [evaluate, h1, h2, h3, h4, h5],
      fun s6 s7 => by simp [evaluate, h1, h2, h3, h4, h5]⟩
  · intro φ σ μ c fr r1 u1 r2 sn r3 me r4 u4 r5 u5 r h1 h2 h3 h4 h5 h6
    exact ⟨by simp [evaluate, h1, h2, h3, h4, h5, h6],
      fun s7 => by simp [evaluate, h1, h2, h3, h4, h5, h6]⟩
  · intro φ σ μ c fr r1 u1 r2 sn r3 me r4 u4 r5 u5 r6 u6 r h1 h2 h3 h4 h5 h6 h7
    simp [evaluate, h1, h2, h3, h4, h5, h6, h7]

/-- `_stage_head` with its lets unfolded. -/
theorem _stage_head_eq (config : CascadeConfig) (fr : FetchResult) :
    _stage_head config fr =
      (if config.allowed_content_types ≠ [] ∧ mediaTypeOf fr ≠ "" ∧
          mediaTypeOf fr ∉ config.allowed_content_types then
        StageOutcome.skip ⟨"head", "skip", some ("content-type:" ++ mediaTypeOf fr)⟩
      else if contentLengthOf fr < config.min_content_length then
        StageOutcome.skip
          ⟨"head", "skip", some ("content-length<" ++ toString config.min_content_length)⟩
      else if contentLengthOf fr > config.max_content_length then
        StageOutcome.skip
          ⟨"head", "skip", some ("content-length>" ++ toString config.max_content_length)⟩
      else StageOutcome.cont ⟨"head", "pass", none⟩ ()) := rfl

/-- A passing stage record. -/
def passResult (name : String) : CStageResult := ⟨name, "pass", none⟩

/-- A fetch result with no Content-Type header and a 600-byte content
length. -/
def c5fetch : FetchResult := { headers := [("Content-Length", "600")], body := [] }

/-- A cascade whose head stage is the real `_stage_head` (default config)
and whose remaining stages all pass. -/
def c5bundle : CascadeStages FetchResult Unit Unit :=
  ⟨_stage_head {},
   fun _ => .cont (passResult "snippet") (),
   fun _ => .cont (passResult "structure") (),
   fun _ => .cont (passResult "keywords") (),
   fun _ => .cont (passResult "simhash") (),
   fun _ => .cont (passResult "classifier") (),
   fun _ => .cont (passResult "prefilter") ()⟩

/-- C5 counterexample: with the Content-Type header absent the computed
media type is "" — not in the allowed set, so the claim demands a head
skip — yet `_stage_head` passes (its content-type test requires a
non-empty type) and the cascade does not skip. -/
theorem C5_counterexample :
    lookupA c5fetch.headers "Content-Type" = none ∧
    mediaTypeOf c5fetch = "" ∧
    "" ∉ ({} : CascadeConfig).allowed_content_types ∧
    _stage_head {} c5fetch = .cont ⟨"head", "pass", none⟩ () ∧
    (evaluate c5bundle c5fetch).should_skip = false := by
  refine ⟨rfl, rfl, by decide, by decide, by decide⟩

/-- C5 (amended): whenever the computed media type is non-empty and not in
the default allowed set {text/html, application/xhtml+xml}, the head stage
returns a skip whose reason names the content type, and `evaluate` (with
any later stages) returns should_skip = true with that reason as
final_reason. -/
theorem C5_head_content_type_gate (σ μ : Type) (s2 : FetchResult → StageOutcome σ)
    (s3 : σ → StageOutcome μ) (s4 s5 : σ → StageOutcome Unit)
    (s6 : μ → StageOutcome Unit) (s7 : FetchResult → StageOutcome Unit)
    (fr : FetchResult)
    (h1 : mediaTypeOf fr ≠ "")
    (h2 : mediaTypeOf fr ∉ ({} : CascadeConfig).allowed_content_types) :
    _stage_head {} fr = .skip ⟨"head", "skip", some ("content-type:" ++ mediaTypeOf fr)⟩ ∧
    evaluate ⟨_stage_head {}, s2, s3, s4, s5, s6, s7⟩ fr =
      ⟨true, [⟨"head", "skip", some ("content-type:" ++ mediaTypeOf fr)⟩],
        some ("content-type:" ++ mediaTypeOf fr)⟩ := by
  have hh : _stage_head {} fr =
      .skip ⟨"head", "skip", some ("content-type:" ++ mediaTypeOf fr)⟩ := by
    rw [_stage_head_eq]
    rw [if_pos ⟨by decide, h1, h2⟩]
  exact ⟨hh, by simp [evaluate, hh]⟩

/-- A fetch result with an image Content-Type. -/
def c5png : FetchResult :=
  { headers := [("Content-Type", "image/png; charset=utf-8")], body := [] }

/-- C5 witness: the amended statement at a PNG response with all later
stages passing. -/
theorem C5_witness :
    _stage_head {} c5png = .skip ⟨"head", "skip", some ("content-type:" ++ mediaTypeOf c5png)⟩ ∧
    evaluate ⟨_stage_head {},
      (fun _ => .cont (passResult "snippet") ()),
      (fun _ => .cont (passResult "structure") ()),
      (fun _ => .cont (passResult "keywords") ()),
      (fun _ => .cont (passResult "simhash") ()),
      (fun _ => .cont (passResult "classifier") ()),
      (fun _ => .cont (passResult "prefilter") ())⟩ c5png =
      ⟨true, [⟨"head", "skip", some ("content-type:" ++ mediaTypeOf c5png)⟩],
        some ("content-type:" ++ mediaTypeOf c5png)⟩ :=
  C5_head_content_type_gate Unit Unit
    (fun _ => .cont (passResult "snippet") ())
    (fun _ => .cont (passResult "structure") ())
    (fun _ => .cont (passResult "keywords") ())
    (fun _ => .cont (passResult "simhash") ())
    (fun _ => .cont (passResult "classifier") ())
    (fun _ => .cont (passResult "prefilter") ())
    c5png (by decide) (by decide)

/-- Membership in an insertion step. -/
theorem mem_insertStr (x y : String) (l : List String) :
    x ∈ insertStr y l ↔ x = y ∨ x ∈ l := by
  induction l with
  | nil => simp [insertStr]
  | cons a as ih =>
    unfold insertStr
    by_cases h : strLeB y a
    · rw [if_pos h]
      simp [List.mem_cons]
    · rw [if_neg h]
      simp only [List.mem_cons, ih]
      tauto

/-- Sorting preserves membership. -/
theorem mem_sortStrings (x : String) (l : List String) :
    x ∈ sortStrings l ↔ x ∈ l := by
  induction l with
  | nil => simp [sortStrings]
  | cons a as ih => simp [sortStrings, mem_insertStr, ih]

/-- Rewriting `available_at` with its own value is the identity. -/
theorem job_set_available (j : FrontierJob) (q : ℚ) (h : j.available_at = q) :
    { j with available_at := q } = j := by
  cases j
  subst h
  rfl

/-- The shape every state produced by `export_state` of a reachable
frontier has: no empty URLs in the seen set or the heaps, and each delayed
entry's key equals its job's `available_at` (the pop loop writes the field
before pushing the tuple). -/
def ExportInv (f : Frontier) : Prop :=
  (∀ u ∈ f.seen, u ≠ "") ∧
  (∀ j ∈ f.heap, j.url ≠ "") ∧
  (∀ e ∈ f.delay_heap, e.2.2.available_at = e.1)

/-- C3: the frontier state round-trips through `from_state ∘ export_state`:
the order counter, total pulls and settings are preserved exactly, the
seen/heap/delayed collections up to equal sets, and every per-host map
(stats, buckets, backoff, hints, cascade counters) exactly. -/
theorem C3_frontier_round_trip (f : Frontier) (h : ExportInv f) :
    let S := Frontier.export_state f
    let S2 := Frontier.export_state (Frontier.from_state S)
    S2.order = S.order ∧ S2.total_pulls = S.total_pulls ∧ S2.settings = S.settings ∧
    (∀ u, u ∈ S2.seen ↔ u ∈ S.seen) ∧
    (∀ j, j ∈ S2.heap ↔ j ∈ S.heap) ∧
    (∀ e, e ∈ S2.delayed ↔ e ∈ S.delayed) ∧
    S2.host_stats = S.host_stats ∧
    S2.host_buckets = S.host_buckets ∧
    S2.host_backoff = S.host_backoff ∧
    S2.host_hints = S.host_hints ∧
    S2.host_cascade = S.host_cascade := by
  obtain ⟨hseen, hheap, hdelay⟩ := h
  intro S S2
  have hheapeq : f.heap.filter (fun j => j.url ≠ "") = f.heap :=
    List.filter_eq_self.mpr (fun a ha => by simpa using hheap a ha)
  have hdelayeq : f.delay_heap.map
      (fun e => (e.1, e.2.1, { e.2.2 with available_at := e.1 })) = f.delay_heap := by
    conv_rhs => rw [← List.map_id f.delay_heap]
    apply List.map_congr_left
    intro a ha
    obtain ⟨q, o, j⟩ := a
    have hav := hdelay (q, o, j) ha
    simp only [List.map_id, id]
    rw [job_set_available j q (by simpa using hav)]
  refine ⟨rfl, rfl, rfl, ?_, ?_, ?_, rfl, rfl, rfl, rfl, rfl⟩
  · intro u
    show u ∈ sortStrings ((sortStrings f.seen).filter (fun u => u ≠ "")) ↔
      u ∈ sortStrings f.seen
    have hfe : (sortStrings f.seen).filter (fun u => u ≠ "") = sortStrings f.seen :=
      List.filter_eq_self.mpr (fun a ha =>
        by simpa using hseen a ((mem_sortStrings a f.seen).mp ha))
    rw [hfe, mem_sortStrings, mem_sortStrings]
  · intro j
    show j ∈ f.heap.filter (fun j => j.url ≠ "") ↔ j ∈ f.heap
    rw [hheapeq]
  · intro e
    show e ∈ f.delay_heap.map
      (fun e => (e.1, e.2.1, { e.2.2 with available_at := e.1 })) ↔ e ∈ f.delay_heap
    rw [hdelayeq]

/-- A populated frontier satisfying the export-state shape. -/
def c3frontier : Frontier :=
  { settings := {}
    heap := [{ priority := -(1 : ℚ) / 2, order := 0, host := "a.test", url := "http://a.test/" }]
    delay_heap := [((5 : ℚ), 1,
      { priority := -(1 : ℚ) / 4, order := 1, host := "b.test", url := "http://b.test/",
        available_at := 5 })]
    seen := ["http://a.test/", "http://b.test/"]
    order := 2
    host_stats := [("a.test", { pulls := 2, reward_sum := 1 / 2 })]
    host_buckets := [("a.test", ⟨1 / 2, 10⟩)]
    host_backoff := [("b.test", 55)]
    host_hints := [("a.test", 9 / 10)]
    host_cascade_stats := [("a.test", ⟨3, 4⟩)]
    total_pulls := 7 }

/-- C3 witness: the round trip at a concrete populated frontier. -/
theorem C3_witness :
    let S := Frontier.export_state c3frontier
    let S2 := Frontier.export_state (Frontier.from_state S)
    S2.order = S.order ∧ S2.total_pulls = S.total_pulls ∧ S2.settings = S.settings ∧
    (∀ u, u ∈ S2.seen ↔ u ∈ S.seen) ∧
    (∀ j, j ∈ S2.heap ↔ j ∈ S.heap) ∧
    (∀ e, e ∈ S2.delayed ↔ e ∈ S.delayed) ∧
    S2.host_stats = S.host_stats ∧
    S2.host_buckets = S.host_buckets ∧
    S2.host_backoff = S.host_backoff ∧
    S2.host_hints = S.host_hints ∧
    S2.host_cascade = S.host_cascade :=
  C3_frontier_round_trip c3frontier ⟨by decide, by decide, by decide⟩

/-- Writing back a binding's current value changes nothing. -/
theorem setA_same {κ α : Type} [BEq κ] [LawfulBEq κ]
    (m : List (κ × α)) (k : κ) (v : α) (h : lookupA m k = some v) :
    setA m k v = m := by
  induction m with
  | nil => simp [lookupA] at h
  | cons p rest ih =>
    rw [lookupA_cons] at h
    rw [setA_cons]
    by_cases hp : p.1 == k
    · rw [if_pos hp] at *
      have hk : p.1 = k := by simpa using hp
      cases h
      cases p
      simp at hk
      rw [hk]
    · rw [if_neg hp] at *
      rw [ih h]

/-- The bucket `_ensure_bucket` hands back. -/
def bucketOrF (f : Frontier) (host : String) (now : ℚ) : Bucket :=
  (lookupA f.host_buckets host).getD ⟨f.settings.host_token_capacity, now⟩

/-- All fields but the bucket map agree. -/
def sameExceptBuckets (f g : Frontier) : Prop :=
  g.settings = f.settings ∧ g.heap = f.heap ∧ g.delay_heap = f.delay_heap ∧
  g.seen = f.seen ∧ g.order = f.order ∧ g.host_stats = f.host_stats ∧
  g.host_backoff = f.host_backoff ∧ g.host_hints = f.host_hints ∧
  g.host_cascade_stats = f.host_cascade_stats ∧ g.total_pulls = f.total_pulls ∧
  g.inflight = f.inflight

theorem sameExceptBuckets_refl (f : Frontier) : sameExceptBuckets f f :=
  ⟨rfl, rfl, rfl, rfl, rfl, rfl, rfl, rfl, rfl, rfl, rfl⟩

theorem sameExceptBuckets_trans {f g k : Frontier}
    (h1 : sameExceptBuckets f g) (h2 : sameExceptBuckets g k) : sameExceptBuckets f k := by
  obtain ⟨a1, a2, a3, a4, a5, a6, a7, a8, a9, a10, a11⟩ := h1
  obtain ⟨b1, b2, b3, b4, b5, b6, b7, b8, b9, b10, b11⟩ := h2
  exact ⟨b1.trans a1, b2.trans a2, b3.trans a3, b4.trans a4, b5.trans a5, b6.trans a6,
    b7.trans a7, b8.trans a8, b9.trans a9, b10.trans a10, b11.trans a11⟩

/-- `_ensure_bucket` returns the stored-or-fresh bucket. -/
theorem ensure_fst (f : Frontier) (host : String) (now : ℚ) :
    (Frontier._ensure_bucket f host now).1 = bucketOrF f host now := by
  unfold Frontier._ensure_bucket bucketOrF
  cases lookupA f.host_buckets host <;> rfl

theorem ensure_sameExceptBuckets (f : Frontier) (host : String) (now : ℚ) :
    sameExceptBuckets f (Frontier._ensure_bucket f host now).2 := by
  unfold Frontier._ensure_bucket
  cases lookupA f.host_buckets host with
  | none => exact ⟨rfl, rfl, rfl, rfl, rfl, rfl, rfl, rfl, rfl, rfl, rfl⟩
  | some b => exact sameExceptBuckets_refl f

theorem ensure_lookup_self (f : Frontier) (host : String) (now : ℚ) :
    lookupA (Frontier._ensure_bucket f host now).2.host_buckets host =
      some (bucketOrF f host now) := by
  unfold Frontier._ensure_bucket bucketOrF
  cases h : lookupA f.host_buckets host with
  | none => simp [lookupA_setA_self]
  | some b => simp [h]

theorem ensure_lookup_other (f : Frontier) (host : String) (now : ℚ) (h' : String)
    (hne : h' ≠ host) :
    lookupA (Frontier._ensure_bucket f host now).2.host_buckets h' =
      lookupA f.host_buckets h' := by
  unfold Frontier._ensure_bucket
  cases h : lookupA f.host_buckets host with
  | none => simp [lookupA_setA_ne _ _ _ _ hne]
  | some b => rfl

theorem refill_sameExceptBuckets (f : Frontier) (host : String) (now : ℚ) :
    sameExceptBuckets f (Frontier._refill_tokens f host now) := by
  unfold Frontier._refill_tokens
  have h := ensure_sameExceptBuckets f host now
  obtain ⟨a1, a2, a3, a4, a5, a6, a7, a8, a9, a10, a11⟩ := h
  exact ⟨a1, a2, a3, a4, a5, a6, a7, a8, a9, a10, a11⟩

theorem refill_lookup_self (f : Frontier) (host : String) (now : ℚ) :
    lookupA (Frontier._refill_tokens f host now).host_buckets host =
      some (Frontier.refilledBucket f.settings (bucketOrF f host now)
        (getA f.host_backoff host 0) now) := by
  unfold Frontier._refill_tokens
  rw [lookupA_setA_self]
  rw [ensure_fst]
  rw [(ensure_sameExceptBuckets f host now).1, (ensure_sameExceptBuckets f host now).2.2.2.2.2.2.1]

theorem refill_lookup_other (f : Frontier) (host : String) (now : ℚ) (h' : String)
    (hne : h' ≠ host) :
    lookupA (Frontier._refill_tokens f host now).host_buckets h' =
      lookupA f.host_buckets h' := by
  unfold Frontier._refill_tokens
  rw [lookupA_setA_ne _ _ _ _ hne]
  exact ensure_lookup_other f host now h' hne

/-- Closed form of the tokens after a refill. -/
theorem tokensAfterRefill_eq (f : Frontier) (host : String) (now : ℚ) :
    tokensAfterRefill f host now =
      (Frontier.refilledBucket f.settings (bucketOrF f host now)
        (getA f.host_backoff host 0) now).tokens := by
  unfold tokensAfterRefill bucketTokens
  rw [refill_lookup_self]
  rfl

/-- Refilling an already-refilled bucket at the same instant changes
nothing. -/
theorem refilledBucket_idem (s : FrontierSettings) (b : Bucket) (k now : ℚ) :
    Frontier.refilledBucket s (Frontier.refilledBucket s b k now) k now =
      Frontier.refilledBucket s b k now := by
  by_cases hk : k > now
  · simp only [Frontier.refilledBucket, if_pos hk]
  · by_cases hr : s.host_refill_seconds ≤ 0
    · simp only [Frontier.refilledBucket, if_neg hk, if_pos hr]
    · by_cases he : max 0 (now - b.updated_at) ≤ 0
      · simp only [Frontier.refilledBucket, if_neg hk, if_neg hr, if_pos he]
      · simp only [Frontier.refilledBucket, if_neg hk, if_neg hr, if_neg he]
        simp

/-- `tokensAfterRefill` only reads the host's bucket, the host's backoff
and the settings. -/
theorem tokensAfterRefill_congr (g f : Frontier) (host : String) (now : ℚ)
    (hb : lookupA g.host_buckets host = lookupA f.host_buckets host)
    (hs : g.settings = f.settings)
    (hk : getA g.host_backoff host 0 = getA f.host_backoff host 0) :
    tokensAfterRefill g host now = tokensAfterRefill f host now := by
  rw [tokensAfterRefill_eq, tokensAfterRefill_eq, hs, hk]
  unfold bucketOrF
  rw [hb, hs]

/-- A refill leaves the just-refilled token count fixed. -/
theorem tokensAfterRefill_refill_self (f : Frontier) (host : String) (now : ℚ) :
    tokensAfterRefill (Frontier._refill_tokens f host now) host now =
      tokensAfterRefill f host now := by
  rw [tokensAfterRefill_eq, tokensAfterRefill_eq]
  have hb : bucketOrF (Frontier._refill_tokens f host now) host now =
      Frontier.refilledBucket f.settings (bucketOrF f host now)
        (getA f.host_backoff host 0) now := by
    unfold bucketOrF
    rw [refill_lookup_self]
    rfl
  rw [hb, (refill_sameExceptBuckets f host now).1,
    (refill_sameExceptBuckets f host now).2.2.2.2.2.2.1, refilledBucket_idem]

/-- A refill of any host leaves every host's after-refill token count at
the same instant unchanged. -/
theorem tokensAfterRefill_refill_any (f : Frontier) (host h2 : String) (now : ℚ) :
    tokensAfterRefill (Frontier._refill_tokens f host now) h2 now =
      tokensAfterRefill f h2 now := by
  by_cases hh : h2 = host
  · rw [hh]
    exact tokensAfterRefill_refill_self f host now
  · refine tokensAfterRefill_congr _ _ _ _ (refill_lookup_other f host now h2 hh)
      (refill_sameExceptBuckets f host now).1 ?_
    rw [(refill_sameExceptBuckets f host now).2.2.2.2.2.2.1]

/-- The stored-or-fresh bucket satisfies the token bounds. -/
theorem bucketOrF_bounds (f : Frontier) (host : String) (now : ℚ)
    (hcap : 0 ≤ f.settings.host_token_capacity) (hinv : BucketInv f) :
    0 ≤ (bucketOrF f host now).tokens ∧
      (bucketOrF f host now).tokens ≤ f.settings.host_token_capacity := by
  unfold bucketOrF
  cases hl : lookupA f.host_buckets host with
  | none => exact ⟨hcap, le_refl _⟩
  | some b => exact hinv host b hl

/-- The refill arithmetic preserves the token bounds. -/
theorem refilledBucket_bounds (s : FrontierSettings) (b : Bucket) (k now : ℚ)
    (hcap : 0 ≤ s.host_token_capacity) (h0 : 0 ≤ b.tokens)
    (h1 : b.tokens ≤ s.host_token_capacity) :
    0 ≤ (Frontier.refilledBucket s b k now).tokens ∧
      (Frontier.refilledBucket s b k now).tokens ≤ s.host_token_capacity := by
  by_cases hk : k > now
  · simp only [Frontier.refilledBucket, if_pos hk]
    exact ⟨le_refl 0, hcap⟩
  · by_cases hr : s.host_refill_seconds ≤ 0
    · simp only [Frontier.refilledBucket, if_neg hk, if_pos hr]
      exact ⟨hcap, le_refl _⟩
    · by_cases he : max 0 (now - b.updated_at) ≤ 0
      · simp only [Frontier.refilledBucket, if_neg hk, if_neg hr, if_pos he]
        exact ⟨h0, h1⟩
      · simp only [Frontier.refilledBucket, if_neg hk, if_neg hr, if_neg he]
        constructor
        · exact le_min hcap (add_nonneg h0
            (div_nonneg (le_max_left 0 _) (le_of_lt (lt_of_not_le hr))))
        · exact min_le_left _ _

/-- After-refill tokens satisfy the bounds. -/
theorem tokensAfterRefill_bounds (f : Frontier) (host : String) (now : ℚ)
    (hcap : 0 ≤ f.settings.host_token_capacity) (hinv : BucketInv f) :
    0 ≤ tokensAfterRefill f host now ∧
      tokensAfterRefill f host now ≤ f.settings.host_token_capacity := by
  rw [tokensAfterRefill_eq]
  obtain ⟨a, b⟩ := bucketOrF_bounds f host now hcap hinv
  exact refilledBucket_bounds _ _ _ _ hcap a b

/-- The bucket invariant only reads the bucket map and the settings. -/
theorem BucketInv_congr (g f : Frontier) (hb : g.host_buckets = f.host_buckets)
    (hs : g.settings = f.settings) (hinv : BucketInv f) : BucketInv g := by
  intro h b hl
  rw [hb] at hl
  rw [hs]
  exact hinv h b hl

/-- Writing one in-bounds bucket preserves the invariant. -/
theorem BucketInv_setA (f : Frontier) (host : String) (b : Bucket)
    (hinv : BucketInv f) (h0 : 0 ≤ b.tokens)
    (h1 : b.tokens ≤ f.settings.host_token_capacity) :
    BucketInv { f with host_buckets := setA f.host_buckets host b } := by
  intro h2 b2 hl
  by_cases hh : h2 = host
  · subst hh
    rw [show ({ f with host_buckets := setA f.host_buckets h2 b } : Frontier).host_buckets =
      setA f.host_buckets h2 b from rfl, lookupA_setA_self] at hl
    cases hl
    exact ⟨h0, h1⟩
  · rw [show ({ f with host_buckets := setA f.host_buckets host b } : Frontier).host_buckets =
      setA f.host_buckets host b from rfl, lookupA_setA_ne _ _ _ _ hh] at hl
    exact hinv h2 b2 hl

/-- `_ensure_bucket` preserves the invariant. -/
theorem BucketInv_ensure (f : Frontier) (host : String) (now : ℚ)
    (hcap : 0 ≤ f.settings.host_token_capacity) (hinv : BucketInv f) :
    BucketInv (Frontier._ensure_bucket f host now).2 := by
  intro h2 b2 hl
  rw [(ensure_sameExceptBuckets f host now).1]
  by_cases hh : h2 = host
  · subst hh
    rw [ensure_lookup_self] at hl
    cases hl
    exact bucketOrF_bounds f h2 now hcap hinv
  · rw [ensure_lookup_other f host now h2 hh] at hl
    exact hinv h2 b2 hl

/-- `_refill_tokens` preserves the invariant. -/
theorem BucketInv_refill (f : Frontier) (host : String) (now : ℚ)
    (hcap : 0 ≤ f.settings.host_token_capacity) (hinv : BucketInv f) :
    BucketInv (Frontier._refill_tokens f host now) := by
  intro h2 b2 hl
  rw [(refill_sameExceptBuckets f host now).1]
  by_cases hh : h2 = host
  · subst hh
    rw [refill_lookup_self] at hl
    cases hl
    obtain ⟨a, b⟩ := bucketOrF_bounds f h2 now hcap hinv
    exact refilledBucket_bounds _ _ _ _ hcap a b
  · rw [refill_lookup_other f host now h2 hh] at hl
    exact hinv h2 b2 hl

/-- `bucketTokens` only reads the bucket map and the settings. -/
theorem bucketTokens_congr (g f : Frontier) (host : String)
    (hb : g.host_buckets = f.host_buckets) (hs : g.settings = f.settings) :
    bucketTokens g host = bucketTokens f host := by
  unfold bucketTokens
  rw [hb, hs]

/-- Reduction equation of `_consume_host_token` (the inner let hoisted
above the backoff test, a zeta-equal form). -/
theorem consume_eq (f : Frontier) (host : String) (now : ℚ) :
    Frontier._consume_host_token f host now =
      (let f1 := Frontier._refill_tokens f host now
       let b := (lookupA f1.host_buckets host).getD ⟨f1.settings.host_token_capacity, now⟩
       if getA f1.host_backoff host 0 > now then (false, f1)
       else if b.tokens ≥ 1 then
         (true, { f1 with host_buckets := setA f1.host_buckets host ⟨b.tokens - 1, now⟩ })
       else (false, f1)) := rfl

/-- A failed token grab leaves exactly the refilled state. -/
theorem consume_false_eq (f : Frontier) (host : String) (now : ℚ)
    (hf : (Frontier._consume_host_token f host now).1 = false) :
    (Frontier._consume_host_token f host now).2 = Frontier._refill_tokens f host now := by
  simp only [consume_eq] at hf ⊢
  split_ifs at hf ⊢ with h1 h2
  all_goals rfl

/-- A successful token grab had at least one refilled token and wrote back
exactly one token fewer. -/
theorem consume_true_eq (f : Frontier) (host : String) (now : ℚ)
    (ht : (Frontier._consume_host_token f host now).1 = true) :
    1 ≤ tokensAfterRefill f host now ∧
    (Frontier._consume_host_token f host now).2 =
      (let f1 := Frontier._refill_tokens f host now
       let nb := setA f1.host_buckets host ⟨tokensAfterRefill f host now - 1, now⟩
       { f1 with host_buckets := nb }) := by
  have hl := refill_lookup_self f host now
  have htr : tokensAfterRefill f host now =
      ((lookupA (Frontier._refill_tokens f host now).host_buckets host).getD
        ⟨(Frontier._refill_tokens f host now).settings.host_token_capacity, now⟩).tokens := by
    rw [hl, tokensAfterRefill_eq]
    rfl
  simp only [consume_eq] at ht ⊢
  split_ifs at ht ⊢ with h1 h2
  constructor
  · rw [htr]
    exact h2
  · rw [htr]

/-- `_next_available_time` returns exactly the refilled state. -/
theorem next_available_snd (f : Frontier) (host : String) (now : ℚ) :
    (Frontier._next_available_time f host now).2 = Frontier._refill_tokens f host now := rfl

/-- `_promote_ready_jobs` only moves jobs between the heaps. -/
theorem promote_buckets (f : Frontier) (now : ℚ) :
    (Frontier._promote_ready_jobs f now).host_buckets = f.host_buckets ∧
    (Frontier._promote_ready_jobs f now).settings = f.settings ∧
    (Frontier._promote_ready_jobs f now).host_backoff = f.host_backoff :=
  ⟨rfl, rfl, rfl⟩

/-- Write-back of an in-bounds bucket after `_ensure_bucket` keeps the
invariant. -/
theorem BucketInv_ensure_setA (g : Frontier) (host : String) (now t tok : ℚ)
    (hcap : 0 ≤ g.settings.host_token_capacity) (hinv : BucketInv g)
    (h0 : 0 ≤ tok) (h1 : tok ≤ g.settings.host_token_capacity) :
    BucketInv (let e := (Frontier._ensure_bucket g host now).2
               { e with host_buckets := setA e.host_buckets host ⟨tok, t⟩ }) :=
  BucketInv_setA _ host ⟨tok, t⟩ (BucketInv_ensure g host now hcap hinv) h0
    (by rw [(ensure_sameExceptBuckets g host now).1]; exact h1)

/-- The bucket `_ensure_bucket` hands back is in bounds. -/
theorem ensure_fst_bounds (g : Frontier) (host : String) (now : ℚ)
    (hcap : 0 ≤ g.settings.host_token_capacity) (hinv : BucketInv g) :
    0 ≤ (Frontier._ensure_bucket g host now).1.tokens ∧
      (Frontier._ensure_bucket g host now).1.tokens ≤ g.settings.host_token_capacity := by
  rw [ensure_fst]
  exact bucketOrF_bounds g host now hcap hinv

/-- `_host_budget_score` returns exactly the refilled state. -/
theorem host_budget_snd (f : Frontier) (host : String) (now : ℚ) :
    (Frontier._host_budget_score f host now).2 = Frontier._refill_tokens f host now := by
  simp only [Frontier._host_budget_score]
  split
  · rfl
  · split <;> rfl

/-- `_compute_priority` returns exactly the refilled state. -/
theorem compute_priority_snd (O : MathFns) (f : Frontier) (host : String) (depth : Int)
    (meta : JobMeta) (now : ℚ) :
    (Frontier._compute_priority O f host depth meta now).2 =
      Frontier._refill_tokens f host now :=
  host_budget_snd f host now

/-- The ensured bucket has non-negative tokens. -/
theorem ensure_fst_nonneg (g : Frontier) (host : String) (now : ℚ)
    (hcap : 0 ≤ g.settings.host_token_capacity) (hinv : BucketInv g) :
    0 ≤ (Frontier._ensure_bucket g host now).1.tokens := by
  rw [ensure_fst]
  exact (bucketOrF_bounds g host now hcap hinv).1

/-- The ensured bucket's tokens do not exceed the capacity. -/
theorem ensure_fst_le (g : Frontier) (host : String) (now : ℚ)
    (hcap : 0 ≤ g.settings.host_token_capacity) (hinv : BucketInv g) :
    (Frontier._ensure_bucket g host now).1.tokens ≤ g.settings.host_token_capacity := by
  rw [ensure_fst]
  exact (bucketOrF_bounds g host now hcap hinv).2

/-- `_ensure_bucket` keeps the settings. -/
theorem ensure_snd_settings (g : Frontier) (host : String) (now : ℚ) :
    (Frontier._ensure_bucket g host now).2.settings = g.settings :=
  (ensure_sameExceptBuckets g host now).1

/-- `_refill_tokens` keeps the settings. -/
theorem refill_settings (g : Frontier) (host : String) (now : ℚ) :
    (Frontier._refill_tokens g host now).settings = g.settings :=
  (refill_sameExceptBuckets g host now).1

/-- The ensure-write shape followed by a cascade-statistics write keeps the
invariant. -/
theorem BucketInv_ensure_setA_cascade (g : Frontier) (host : String) (now t tok : ℚ)
    (host2 : String) (c : CascadeStats)
    (hcap : 0 ≤ g.settings.host_token_capacity) (hinv : BucketInv g)
    (h0 : 0 ≤ tok) (h1 : tok ≤ g.settings.host_token_capacity) :
    BucketInv (let e := (Frontier._ensure_bucket g host now).2
               let e2 := { e with host_buckets := setA e.host_buckets host ⟨tok, t⟩ }
               { e2 with host_cascade_stats := setA e2.host_cascade_stats host2 c }) := by
  refine BucketInv_congr _ _ rfl rfl ?_
  exact BucketInv_ensure_setA g host now t tok hcap hinv h0 h1

/-- `record_failure` keeps every bucket in bounds and the settings fixed. -/
theorem record_failure_inv (f : Frontier) (url : String) (code : Option Int)
    (reason : Option String) (now : ℚ)
    (hcap : 0 ≤ f.settings.host_token_capacity) (hinv : BucketInv f) :
    BucketInv (Frontier.record_failure f url code reason now) ∧
    (Frontier.record_failure f url code reason now).settings = f.settings := by
  simp only [Frontier.record_failure]
  by_cases hu : url = ""
  · rw [if_pos hu]
    exact ⟨hinv, rfl⟩
  rw [if_neg hu]
  by_cases hh : hostOf url = ""
  · rw [if_pos hh]
    exact ⟨BucketInv_congr _ f rfl rfl hinv, rfl⟩
  rw [if_neg hh]
  constructor
  · exact BucketInv_ensure_setA _ _ _ _ _ hcap (BucketInv_congr _ f rfl rfl hinv)
      (le_refl 0) hcap
  · exact ensure_snd_settings _ _ _

set_option maxHeartbeats 2000000 in
/-- `record_feedback` keeps every bucket in bounds and the settings
fixed. -/
theorem record_feedback_inv (f : Frontier) (url : String) (score : ℚ) (action : String)
    (ts : Option ℚ) (cs : Option Bool) (now : ℚ)
    (hcap : 0 ≤ f.settings.host_token_capacity) (hinv : BucketInv f) :
    BucketInv (Frontier.record_feedback f url score action ts cs now) ∧
    (Frontier.record_feedback f url score action ts cs now).settings = f.settings := by
  rcases cs with _ | cb
  · simp only [Frontier.record_feedback]
    by_cases hu : url = ""
    · rw [if_pos hu]
      exact ⟨hinv, rfl⟩
    rw [if_neg hu]
    by_cases hh : hostOf url = ""
    · rw [if_pos hh]
      exact ⟨BucketInv_congr _ f rfl rfl hinv, rfl⟩
    rw [if_neg hh]
    constructor
    · repeat' split
      all_goals
        exact BucketInv_ensure_setA _ _ _ _ _ hcap (BucketInv_congr _ f rfl rfl hinv)
          (ensure_fst_nonneg _ _ _ hcap (BucketInv_congr _ f rfl rfl hinv))
          (ensure_fst_le _ _ _ hcap (BucketInv_congr _ f rfl rfl hinv))
    · repeat' split
      all_goals exact ensure_snd_settings _ _ _
  · simp only [Frontier.record_feedback]
    by_cases hu : url = ""
    · rw [if_pos hu]
      exact ⟨hinv, rfl⟩
    rw [if_neg hu]
    by_cases hh : hostOf url = ""
    · rw [if_pos hh]
      exact ⟨BucketInv_congr _ f rfl rfl hinv, rfl⟩
    rw [if_neg hh]
    constructor
    · repeat' split
      all_goals
        exact BucketInv_ensure_setA_cascade _ _ _ _ _ _ _ hcap
          (BucketInv_congr _ f rfl rfl hinv)
          (ensure_fst_nonneg _ _ _ hcap (BucketInv_congr _ f rfl rfl hinv))
          (ensure_fst_le _ _ _ hcap (BucketInv_congr _ f rfl rfl hinv))
    · repeat' split
      all_goals exact ensure_snd_settings _ _ _

set_option maxHeartbeats 2000000 in
/-- `add` keeps every bucket in bounds and the settings fixed. -/
theorem add_inv (O : MathFns) (f : Frontier) (url : String) (depth : Int)
    (dfrom : Option String) (pr : Option ℚ) (sh : Option ℚ) (meta : Option JobMeta)
    (now : ℚ) (hcap : 0 ≤ f.settings.host_token_capacity) (hinv : BucketInv f) :
    BucketInv (Frontier.add O f url depth dfrom pr sh meta now) ∧
    (Frontier.add O f url depth dfrom pr sh meta now).settings = f.settings := by
  simp only [Frontier.add]
  by_cases hu : url = ""
  · rw [if_pos hu]
    exact ⟨hinv, rfl⟩
  rw [if_neg hu]
  by_cases hseen : url ∈ f.seen
  · rw [if_pos hseen]
    exact ⟨hinv, rfl⟩
  rw [if_neg hseen]
  by_cases hh : hostOf url = ""
  · rw [if_pos hh]
    exact ⟨hinv, rfl⟩
  rw [if_neg hh]
  constructor
  · repeat' split
    all_goals (first
      | exact BucketInv_congr _ f rfl rfl hinv
      | (rw [compute_priority_snd]
         refine BucketInv_congr _ (Frontier._refill_tokens _ _ now) rfl rfl ?_
         exact BucketInv_refill _ _ _ hcap (BucketInv_congr _ f rfl rfl hinv)))
  · repeat' split
    all_goals (first
      | rfl
      | (rw [compute_priority_snd]
         exact refill_settings _ _ _))

/-- `_refill_tokens` keeps the backoff map. -/
theorem refill_backoff (g : Frontier) (host : String) (now : ℚ) :
    (Frontier._refill_tokens g host now).host_backoff = g.host_backoff :=
  (refill_sameExceptBuckets g host now).2.2.2.2.2.2.1

/-- The refill-write shape keeps the invariant. -/
theorem BucketInv_refill_setA (g : Frontier) (host : String) (now t tok : ℚ)
    (hcap : 0 ≤ g.settings.host_token_capacity) (hinv : BucketInv g)
    (h0 : 0 ≤ tok) (h1 : tok ≤ g.settings.host_token_capacity) :
    BucketInv (let r := Frontier._refill_tokens g host now
               { r with host_buckets := setA r.host_buckets host ⟨tok, t⟩ }) := by
  refine BucketInv_setA _ host _ (BucketInv_refill g host now hcap hinv) h0 ?_
  rw [refill_settings]
  exact h1

/-- The deferred-and-promoted state of one `pop` loop iteration has the
refilled bucket map. -/
theorem popStep_buckets (f2 : Frontier) (job : FrontierJob) (now : ℚ) :
    (Frontier._promote_ready_jobs (Frontier.popDefer f2 job now) now).host_buckets =
      (Frontier._refill_tokens f2 job.host now).host_buckets := by
  rw [(promote_buckets _ _).1]
  rfl

/-- The deferred-and-promoted state keeps the settings. -/
theorem popStep_settings (f2 : Frontier) (job : FrontierJob) (now : ℚ) :
    (Frontier._promote_ready_jobs (Frontier.popDefer f2 job now) now).settings =
      f2.settings := by
  rw [(promote_buckets _ _).2.1]
  rw [show (Frontier.popDefer f2 job now).settings =
    (Frontier._refill_tokens f2 job.host now).settings from rfl]
  exact refill_settings f2 job.host now

/-- The deferred-and-promoted state keeps the backoff map. -/
theorem popStep_backoff (f2 : Frontier) (job : FrontierJob) (now : ℚ) :
    (Frontier._promote_ready_jobs (Frontier.popDefer f2 job now) now).host_backoff =
      f2.host_backoff := by
  rw [(promote_buckets _ _).2.2]
  rw [show (Frontier.popDefer f2 job now).host_backoff =
    (Frontier._refill_tokens f2 job.host now).host_backoff from rfl]
  exact refill_backoff f2 job.host now

/-- The deferred-and-promoted state keeps the invariant. -/
theorem popStep_inv (f2 : Frontier) (job : FrontierJob) (now : ℚ)
    (hcap : 0 ≤ f2.settings.host_token_capacity) (hinv : BucketInv f2) :
    BucketInv (Frontier._promote_ready_jobs (Frontier.popDefer f2 job now) now) := by
  refine BucketInv_congr _ (Frontier._refill_tokens f2 job.host now)
    (popStep_buckets f2 job now)
    ((popStep_settings f2 job now).trans (refill_settings f2 job.host now).symm) ?_
  exact BucketInv_refill f2 job.host now hcap hinv

/-- The deferred-and-promoted state leaves the after-refill token counts at
the same instant unchanged, for every host. -/
theorem popStep_tar (f2 : Frontier) (job : FrontierJob) (now : ℚ) (h2 : String) :
    tokensAfterRefill (Frontier._promote_ready_jobs (Frontier.popDefer f2 job now) now)
      h2 now = tokensAfterRefill f2 h2 now := by
  have h1 : tokensAfterRefill (Frontier._promote_ready_jobs (Frontier.popDefer f2 job now)
      now) h2 now = tokensAfterRefill (Frontier._refill_tokens f2 job.host now) h2 now := by
    refine tokensAfterRefill_congr _ _ h2 now ?_ ?_ ?_
    · rw [popStep_buckets]
    · exact (popStep_settings f2 job now).trans (refill_settings f2 job.host now).symm
    · rw [popStep_backoff, refill_backoff]
  exact h1.trans (tokensAfterRefill_refill_any f2 job.host h2 now)

/-- Step reduction: empty heap. -/
theorem popAuxStep_none (now : ℚ) (rec : Frontier → Option String × Frontier) (f : Frontier)
    (hm : heapMin f.heap = none) : Frontier.popAuxStep now rec f = (none, f) := by
  unfold Frontier.popAuxStep
  rw [hm]

/-- Step reduction: popped job with an empty host. -/
theorem popAuxStep_hostEmpty (now : ℚ) (rec : Frontier → Option String × Frontier)
    (f : Frontier) (job : FrontierJob) (hm : heapMin f.heap = some job)
    (hjh : job.host = "") :
    Frontier.popAuxStep now rec f =
      Frontier.popYield { f with heap := removeFirst f.heap job } job := by
  unfold Frontier.popAuxStep
  rw [hm]
  simp [hjh]

/-- Step reduction: a token was consumed, the job is yielded. -/
theorem popAuxStep_consumed (now : ℚ) (rec : Frontier → Option String × Frontier)
    (f : Frontier) (job : FrontierJob) (f2 : Frontier) (hm : heapMin f.heap = some job)
    (hjh : ¬ job.host = "")
    (hc : Frontier._consume_host_token { f with heap := removeFirst f.heap job }
      job.host now = (true, f2)) :
    Frontier.popAuxStep now rec f = Frontier.popYield f2 job := by
  unfold Frontier.popAuxStep
  rw [hm]
  simp [hjh, hc]

/-- Step reduction: no token, the job is deferred and the loop continues. -/
theorem popAuxStep_deferred (now : ℚ) (rec : Frontier → Option String × Frontier)
    (f : Frontier) (job : FrontierJob) (f2 : Frontier) (hm : heapMin f.heap = some job)
    (hjh : ¬ job.host = "")
    (hc : Frontier._consume_host_token { f with heap := removeFirst f.heap job }
      job.host now = (false, f2)) :
    Frontier.popAuxStep now rec f =
      rec (Frontier._promote_ready_jobs (Frontier.popDefer f2 job now) now) := by
  unfold Frontier.popAuxStep
  rw [hm]
  simp [hjh, hc]

/-- The `pop` loop preserves the bucket invariant and the settings, and a
successful pop leaves the popped job's host holding exactly one token less
than its after-refill count at pop time. -/
theorem popAux_main (now : ℚ) (fuel : Nat) :
    ∀ (f : Frontier), 0 ≤ f.settings.host_token_capacity → BucketInv f →
    BucketInv (Frontier.popAux now fuel f).2 ∧
    (Frontier.popAux now fuel f).2.settings = f.settings ∧
    (∀ url j, (Frontier.popAux now fuel f).1 = some url →
      lookupA (Frontier.popAux now fuel f).2.inflight url = some j → j.host ≠ "" →
      bucketTokens (Frontier.popAux now fuel f).2 j.host =
        tokensAfterRefill f j.host now - 1) := by
  induction fuel with
  | zero =>
    intro f hcap hinv
    refine ⟨hinv, rfl, ?_⟩
    intro url j hurl hj hne
    exact absurd hurl (by simp [Frontier.popAux])
  | succ fuel ih =>
    intro f hcap hinv
    have hsucc : Frontier.popAux now (fuel + 1) f =
        Frontier.popAuxStep now (Frontier.popAux now fuel) f := rfl
    cases hm : heapMin f.heap with
    | none =>
      have hred : Frontier.popAux now (fuel + 1) f = (none, f) :=
        hsucc.trans (popAuxStep_none now _ f hm)
      rw [hred]
      refine ⟨hinv, rfl, ?_⟩
      intro url j hurl hj hne
      exact absurd hurl (by simp)
    | some job =>
      by_cases hjh : job.host = ""
      · have hred : Frontier.popAux now (fuel + 1) f =
            Frontier.popYield { f with heap := removeFirst f.heap job } job :=
          hsucc.trans (popAuxStep_hostEmpty now _ f job hm hjh)
        rw [hred]
        refine ⟨BucketInv_congr _ f rfl rfl hinv, rfl, ?_⟩
        intro url j hurl hj hne
        injection hurl with hu2
        subst hu2
        have hj2 : lookupA
            (setA ({ f with heap := removeFirst f.heap job } : Frontier).inflight
              job.url job) job.url = some j := hj
        rw [lookupA_setA_self] at hj2
        cases hj2
        exact absurd hjh hne
      · cases hc : Frontier._consume_host_token { f with heap := removeFirst f.heap job }
            job.host now with
        | mk tf f2 =>
          cases tf with
          | true =>
            have hred : Frontier.popAux now (fuel + 1) f = Frontier.popYield f2 job :=
              hsucc.trans (popAuxStep_consumed now _ f job f2 hm hjh hc)
            rw [hred]
            have ht : (Frontier._consume_host_token
                { f with heap := removeFirst f.heap job } job.host now).1 = true := by
              rw [hc]
            obtain ⟨h1tok, hshape⟩ := consume_true_eq _ _ _ ht
            have hf2 : f2 = (Frontier._consume_host_token
                { f with heap := removeFirst f.heap job } job.host now).2 := by
              rw [hc]
            have hinv1 : BucketInv ({ f with heap := removeFirst f.heap job } : Frontier) :=
              BucketInv_congr _ f rfl rfl hinv
            have htb := tokensAfterRefill_bounds { f with heap := removeFirst f.heap job }
              job.host now hcap hinv1
            refine ⟨?_, ?_, ?_⟩
            · show BucketInv (Frontier.popYield f2 job).2
              refine BucketInv_congr _ f2 rfl rfl ?_
              rw [hf2, hshape]
              exact BucketInv_refill_setA _ _ _ _ _ hcap hinv1
                (by linarith [h1tok]) (by linarith [htb.2])
            · show (Frontier.popYield f2 job).2.settings = f.settings
              rw [show (Frontier.popYield f2 job).2.settings = f2.settings from rfl,
                hf2, hshape]
              exact refill_settings _ _ _
            · intro url j hurl hj hne
              injection hurl with hu2
              subst hu2
              have hj2 : lookupA (setA f2.inflight job.url job) job.url = some j := hj
              rw [lookupA_setA_self] at hj2
              cases hj2
              have hbt : bucketTokens (Frontier.popYield f2 job).2 job.host =
                  bucketTokens f2 job.host := bucketTokens_congr _ f2 job.host rfl rfl
              rw [hbt]
              have hlook : lookupA f2.host_buckets job.host =
                  some ⟨tokensAfterRefill { f with heap := removeFirst f.heap job }
                    job.host now - 1, now⟩ := by
                rw [hf2, hshape]
                exact lookupA_setA_self _ _ _
              unfold bucketTokens
              rw [hlook]
              have htar : tokensAfterRefill { f with heap := removeFirst f.heap job }
                  job.host now = tokensAfterRefill f job.host now :=
                tokensAfterRefill_congr _ f job.host now rfl rfl rfl
              show tokensAfterRefill { f with heap := removeFirst f.heap job }
                job.host now - 1 = tokensAfterRefill f job.host now - 1
              rw [htar]
          | false =>
            have hred : Frontier.popAux now (fuel + 1) f = Frontier.popAux now fuel
                (Frontier._promote_ready_jobs (Frontier.popDefer f2 job now) now) :=
              hsucc.trans (popAuxStep_deferred now _ f job f2 hm hjh hc)
            rw [hred]
            have hffalse : (Frontier._consume_host_token
                { f with heap := removeFirst f.heap job } job.host now).1 = false := by
              rw [hc]
            have hf2r : f2 = Frontier._refill_tokens
                { f with heap := removeFirst f.heap job } job.host now := by
              have h2 := congrArg Prod.snd hc
              rw [show ((false, f2) : Bool × Frontier).2 = f2 from rfl] at h2
              rw [← h2]
              exact consume_false_eq _ _ _ hffalse
            have hcap2 : 0 ≤ f2.settings.host_token_capacity := by
              rw [hf2r, refill_settings]
              exact hcap
            have hinv2 : BucketInv f2 := by
              rw [hf2r]
              exact BucketInv_refill _ _ _ hcap (BucketInv_congr _ f rfl rfl hinv)
            have hcapF : 0 ≤ (Frontier._promote_ready_jobs (Frontier.popDefer f2 job now)
                now).settings.host_token_capacity := by
              rw [popStep_settings]
              exact hcap2
            have hinvF : BucketInv (Frontier._promote_ready_jobs
                (Frontier.popDefer f2 job now) now) := popStep_inv f2 job now hcap2 hinv2
            have IH := ih (Frontier._promote_ready_jobs (Frontier.popDefer f2 job now) now)
              hcapF hinvF
            refine ⟨IH.1, ?_, ?_⟩
            · refine (IH.2.1).trans ?_
              rw [popStep_settings, hf2r, refill_settings]
            · intro url j hurl hj hne
              have hmain := IH.2.2 url j hurl hj hne
              have htar : tokensAfterRefill (Frontier._promote_ready_jobs
                  (Frontier.popDefer f2 job now) now) j.host now =
                  tokensAfterRefill f j.host now := by
                rw [popStep_tar, hf2r, tokensAfterRefill_refill_any]
                exact tokensAfterRefill_congr _ f j.host now rfl rfl rfl
              exact hmain.trans (by rw [htar])

/-- Every frontier operation preserves the bucket invariant and the
settings. -/
theorem fStep_inv (O : MathFns) (f : Frontier) (op : FOp)
    (hcap : 0 ≤ f.settings.host_token_capacity) (hinv : BucketInv f) :
    BucketInv (fStep O f op) ∧ (fStep O f op).settings = f.settings := by
  cases op with
  | add url depth dfrom pr sh meta now2 =>
    exact add_inv O f url depth dfrom pr sh meta now2 hcap hinv
  | pop now2 =>
    have hcapP : 0 ≤ (Frontier._promote_ready_jobs f now2).settings.host_token_capacity :=
      hcap
    have hinvP : BucketInv (Frontier._promote_ready_jobs f now2) :=
      BucketInv_congr _ f rfl rfl hinv
    have hp := popAux_main now2
      ((Frontier._promote_ready_jobs f now2).heap.length +
        (Frontier._promote_ready_jobs f now2).delay_heap.length + 1)
      (Frontier._promote_ready_jobs f now2) hcapP hinvP
    exact ⟨hp.1, hp.2.1⟩
  | feedback url score action ts cs now2 =>
    exact record_feedback_inv f url score action ts cs now2 hcap hinv
  | failure url code reason now2 =>
    exact record_failure_inv f url code reason now2 hcap hinv

/-- A whole trace of frontier operations preserves the bucket invariant and
the settings. -/
theorem runFOps_inv (O : MathFns) (ops : List FOp) :
    ∀ f, 0 ≤ f.settings.host_token_capacity → BucketInv f →
    BucketInv (runFOps O ops f) ∧ (runFOps O ops f).settings = f.settings := by
  induction ops with
  | nil =>
    intro f hcap hinv
    exact ⟨hinv, rfl⟩
  | cons op rest ih =>
    intro f hcap hinv
    have h1 := fStep_inv O f op hcap hinv
    have h2 := ih (fStep O f op) (by rw [h1.2]; exact hcap) h1.1
    exact ⟨h2.1, h2.2.trans h1.2⟩

/-- **C4**: For every host and every sequence of frontier operations (add,
pop, record_feedback, record_failure) started from a state whose buckets
satisfy the invariant (with a non-negative configured capacity), the host's
token count always satisfies 0 ≤ tokens ≤ host_token_capacity; and whenever
a pop successfully returns a URL whose in-flight job names a non-empty
host, that host's stored tokens right after the pop equal its after-refill
token count at pop time minus one. -/
theorem C4_token_bucket :
    (∀ (O : MathFns) (ops : List FOp) (f : Frontier) (host : String),
       0 ≤ f.settings.host_token_capacity → BucketInv f →
       0 ≤ bucketTokens (runFOps O ops f) host ∧
       bucketTokens (runFOps O ops f) host ≤ f.settings.host_token_capacity) ∧
    (∀ (f : Frontier) (now : ℚ) (url : String) (j : FrontierJob),
       0 ≤ f.settings.host_token_capacity → BucketInv f →
       (Frontier.pop f now).1 = some url →
       lookupA (Frontier.pop f now).2.inflight url = some j → j.host ≠ "" →
       bucketTokens (Frontier.pop f now).2 j.host =
         tokensAfterRefill f j.host now - 1) := by
  constructor
  · intro O ops f host hcap hinv
    obtain ⟨hinvg, hset⟩ := runFOps_inv O ops f hcap hinv
    unfold bucketTokens
    cases hl : lookupA (runFOps O ops f).host_buckets host with
    | none =>
      refine ⟨?_, ?_⟩
      · show (0 : ℚ) ≤ (runFOps O ops f).settings.host_token_capacity
        rw [hset]
        exact hcap
      · show (runFOps O ops f).settings.host_token_capacity ≤
          f.settings.host_token_capacity
        rw [hset]
    | some b =>
      have hb := hinvg host b hl
      refine ⟨hb.1, ?_⟩
      show b.tokens ≤ f.settings.host_token_capacity
      rw [← hset]
      exact hb.2
  · intro f now url j hcap hinv hpop hj hne
    have hcapP : 0 ≤ (Frontier._promote_ready_jobs f now).settings.host_token_capacity :=
      hcap
    have hinvP : BucketInv (Frontier._promote_ready_jobs f now) :=
      BucketInv_congr _ f rfl rfl hinv
    have hp := (popAux_main now
      ((Frontier._promote_ready_jobs f now).heap.length +
        (Frontier._promote_ready_jobs f now).delay_heap.length + 1)
      (Frontier._promote_ready_jobs f now) hcapP hinvP).2.2 url j hpop hj hne
    have htar : tokensAfterRefill (Frontier._promote_ready_jobs f now) j.host now =
        tokensAfterRefill f j.host now :=
      tokensAfterRefill_congr _ f j.host now rfl rfl rfl
    exact hp.trans (by rw [htar])

/-- `pyStrip` is the whitespace instance of `strip2`. -/
theorem pyStrip_eq_strip2 (s : PStr) : pyStrip s = strip2 isPyWs s := rfl

/-- `pyStripChar` is the single-character instance of `strip2`. -/
theorem pyStripChar_eq_strip2 (t : Char) (s : PStr) :
    pyStripChar t s = strip2 (· = t) s := rfl

/-- The head of a `dropWhile` result fails the predicate. -/
theorem head_dropWhile_false (p : Char → Bool) (l : PStr) (x : Char)
    (h : (l.dropWhile p).head? = some x) : p x = false := by
  induction l with
  | nil => simp [List.dropWhile] at h
  | cons a as ih =>
    by_cases ha : p a
    · rw [List.dropWhile_cons, if_pos ha] at h
      exact ih h
    · rw [List.dropWhile_cons, if_neg ha] at h
      cases h
      simpa using ha

/-- A non-empty `dropWhile` result keeps the last element. -/
theorem getLast_dropWhile (p : Char → Bool) (l : PStr) (hne : l.dropWhile p ≠ []) :
    (l.dropWhile p).getLast? = l.getLast? := by
  induction l with
  | nil => rfl
  | cons a as ih =>
    by_cases ha : p a
    · rw [List.dropWhile_cons, if_pos ha] at hne ⊢
      rw [ih hne]
      have has : as ≠ [] := by
        intro he
        rw [he] at hne
        exact hne rfl
      cases as with
      | nil => exact absurd rfl has
      | cons b bs => rw [List.getLast?_cons_cons]
    · rw [List.dropWhile_cons, if_neg ha]

/-- `dropWhile` is the identity when the head fails the predicate. -/
theorem dropWhile_eq_self_of_head (p : Char → Bool) (l : PStr)
    (h : ∀ x, l.head? = some x → p x = false) : l.dropWhile p = l := by
  cases l with
  | nil => rfl
  | cons a as =>
    rw [List.dropWhile_cons, if_neg]
    simp [h a rfl]

/-- `strip2` is the identity on strings whose two end characters fail the
predicate. -/
theorem strip2_eq_self (p : Char → Bool) (t : PStr)
    (h1 : ∀ x, t.head? = some x → p x = false)
    (h2 : ∀ x, t.getLast? = some x → p x = false) : strip2 p t = t := by
  unfold strip2
  rw [dropWhile_eq_self_of_head p t h1]
  rw [dropWhile_eq_self_of_head p t.reverse
    (fun x hx => h2 x (by rwa [List.head?_reverse] at hx))]
  exact List.reverse_reverse t

/-- The first character of a stripped string fails the predicate. -/
theorem strip2_head (p : Char → Bool) (s : PStr) (x : Char)
    (h : (strip2 p s).head? = some x) : p x = false := by
  unfold strip2 at h
  rw [List.head?_reverse] at h
  have hne : (s.dropWhile p).reverse.dropWhile p ≠ [] := by
    intro he
    rw [he] at h
    simp at h
  rw [getLast_dropWhile p _ hne, List.getLast?_reverse] at h
  exact head_dropWhile_false p s x h

/-- The last character of a stripped string fails the predicate. -/
theorem strip2_last (p : Char → Bool) (s : PStr) (x : Char)
    (h : (strip2 p s).getLast? = some x) : p x = false := by
  unfold strip2 at h
  rw [List.getLast?_reverse] at h
  exact head_dropWhile_false p _ x h

/-- Stripping twice is stripping once. -/
theorem strip2_idem (p : Char → Bool) (s : PStr) :
    strip2 p (strip2 p s) = strip2 p s :=
  strip2_eq_self p _ (strip2_head p s) (strip2_last p s)

/-- Stripping only removes characters. -/
theorem strip2_subset (p : Char → Bool) (s : PStr) (c : Char)
    (h : c ∈ strip2 p s) : c ∈ s := by
  unfold strip2 at h
  rw [List.mem_reverse] at h
  have h2 := (List.dropWhile_sublist _).subset h
  rw [List.mem_reverse] at h2
  exact (List.dropWhile_sublist _).subset h2

/-- A character failing the predicate survives `dropWhile`. -/
theorem mem_dropWhile_of_false (p : Char → Bool) (c : Char) (hc : p c = false) :
    ∀ (l : PStr), c ∈ l → c ∈ l.dropWhile p := by
  intro l hl
  induction l with
  | nil => exact absurd hl (by simp)
  | cons a as ih =>
    by_cases ha : p a
    · rw [List.dropWhile_cons, if_pos ha]
      rcases List.mem_cons.mp hl with he | hm
      · rw [he] at hc
        rw [hc] at ha
        exact absurd ha (by simp)
      · exact ih hm
    · rw [List.dropWhile_cons, if_neg ha]
      exact hl

/-- A character failing the predicate survives `strip2`. -/
theorem mem_strip2_of_false (p : Char → Bool) (c : Char) (hc : p c = false)
    (s : PStr) (h : c ∈ s) : c ∈ strip2 p s := by
  unfold strip2
  rw [List.mem_reverse]
  refine mem_dropWhile_of_false p c hc _ ?_
  rw [List.mem_reverse]
  exact mem_dropWhile_of_false p c hc _ h

/-- `Char.ofNat` inverts `Char.toNat` on valid scalar values. -/
theorem char_toNat_ofNat (n : Nat) (h : n.isValidChar) : (Char.ofNat n).toNat = n := by
  unfold Char.ofNat
  rw [dif_pos h]
  rfl

/-- `Char.toLower` either fixes a character or yields a lower-case ASCII
letter. -/
theorem toLower_or (c : Char) :
    Char.toLower c = c ∨ (97 ≤ (Char.toLower c).toNat ∧ (Char.toLower c).toNat ≤ 122) := by
  by_cases h : c.toNat ≥ 65 ∧ c.toNat ≤ 90
  · right
    have hlow : Char.toLower c = Char.ofNat (c.toNat + 32) := by
      simp only [Char.toLower]
      rw [if_pos h]
    have hv : Nat.isValidChar (c.toNat + 32) := by
      unfold Nat.isValidChar
      omega
    rw [hlow, char_toNat_ofNat _ hv]
    omega
  · left
    simp only [Char.toLower]
    rw [if_neg h]

/-- `Char.toLower` is idempotent. -/
theorem toLower_idem (c : Char) : Char.toLower (Char.toLower c) = Char.toLower c := by
  rcases toLower_or c with h | h
  · rw [h]
    exact h
  · generalize hd : Char.toLower c = d at h ⊢
    simp only [Char.toLower]
    rw [if_neg (by omega)]

/-- Lower-casing hits a non-letter target only trivially. -/
theorem toLower_eq_nonletter (c d : Char)
    (hd : d.toNat < 65 ∨ (90 < d.toNat ∧ d.toNat < 97) ∨ 122 < d.toNat) :
    Char.toLower c = d ↔ c = d := by
  constructor
  · intro h
    rcases toLower_or c with h2 | h2
    · rw [← h2]
      exact h
    · rw [h] at h2
      omega
  · intro h
    subst h
    simp only [Char.toLower]
    rw [if_neg (by omega)]

/-- `breakAt` finds nothing when the separator is absent. -/
theorem breakAt_not_mem (t : Char) (s : PStr) (h : t ∉ s) : breakAt t s = (s, none) := by
  induction s with
  | nil => rfl
  | cons c rest ih =>
    unfold breakAt
    rw [if_neg (fun he => h (by rw [he]; exact List.mem_cons_self _ _))]
    rw [ih (fun hm => h (List.mem_cons_of_mem _ hm))]

/-- `breakAt` splits at the first separator. -/
theorem breakAt_append_sep (t : Char) (a b : PStr) (h : t ∉ a) :
    breakAt t (a ++ t :: b) = (a, some b) := by
  induction a with
  | nil => simp [breakAt]
  | cons c rest ih =>
    show breakAt t (c :: (rest ++ t :: b)) = (c :: rest, some b)
    unfold breakAt
    rw [if_neg (fun he => h (by rw [he]; exact List.mem_cons_self _ _))]
    rw [ih (fun hm => h (List.mem_cons_of_mem _ hm))]

/-- `rsplit1` finds nothing when the separator is absent. -/
theorem rsplit1_not_mem (t : Char) (s : PStr) (h : t ∉ s) : rsplit1 t s = none := by
  unfold rsplit1
  rw [breakAt_not_mem t s.reverse (by simpa using h)]

/-- `rsplit1` splits at the last separator. -/
theorem rsplit1_append_sep (t : Char) (u hp : PStr) (h : t ∉ hp) :
    rsplit1 t (u ++ t :: hp) = some (u, hp) := by
  unfold rsplit1
  have hrev : (u ++ t :: hp).reverse = hp.reverse ++ t :: u.reverse := by
    rw [List.reverse_append, List.reverse_cons, List.append_assoc]
    rfl
  rw [hrev, breakAt_append_sep t _ _ (by simpa using h)]
  simp

/-- One `splitChar` step on a cons cell. -/
theorem splitChar_cons (t : Char) (c : Char) (s : PStr) :
    splitChar t (c :: s) =
      match splitChar t s with
      | [] => [[c]]
      | g :: gs => if c = t then [] :: g :: gs else (c :: g) :: gs := rfl

/-- `splitChar` never returns the empty list of groups. -/
theorem splitChar_ne_nil (t : Char) (s : PStr) : splitChar t s ≠ [] := by
  induction s with
  | nil => simp [splitChar]
  | cons c rest ih =>
    rw [splitChar_cons]
    cases hs : splitChar t rest with
    | nil => exact absurd hs ih
    | cons g gs =>
      by_cases hc : c = t
      · simp [hc]
      · simp [hc]

/-- The `splitChar` step in `if` form, given the tail's groups. -/
theorem splitChar_cons_eq (t c : Char) (s : PStr) (g : PStr) (gs : List PStr)
    (hs : splitChar t s = g :: gs) :
    splitChar t (c :: s) = if c = t then [] :: g :: gs else (c :: g) :: gs := by
  rw [splitChar_cons, hs]

/-- A separator-free string is one group. -/
theorem splitChar_single (t : Char) (x : PStr) (h : t ∉ x) : splitChar t x = [x] := by
  induction x with
  | nil => rfl
  | cons c rest ih =>
    have hct : ¬ c = t := fun he => h (by rw [he]; exact List.mem_cons_self _ _)
    rw [splitChar_cons_eq t c rest rest []
      (ih (fun hm => h (List.mem_cons_of_mem _ hm)))]
    rw [if_neg hct]

/-- `splitChar` of a leading separator-free group. -/
theorem splitChar_append_sep (t : Char) (x y : PStr) (h : t ∉ x) :
    splitChar t (x ++ t :: y) = x :: splitChar t y := by
  induction x with
  | nil =>
    show splitChar t (t :: y) = [] :: splitChar t y
    cases hs : splitChar t y with
    | nil => exact absurd hs (splitChar_ne_nil t y)
    | cons g gs =>
      rw [splitChar_cons_eq t t y g gs hs, if_pos rfl]
  | cons c rest ih =>
    have hct : ¬ c = t := fun he => h (by rw [he]; exact List.mem_cons_self _ _)
    show splitChar t (c :: (rest ++ t :: y)) = (c :: rest) :: splitChar t y
    cases hs : splitChar t y with
    | nil => exact absurd hs (splitChar_ne_nil t y)
    | cons g gs =>
      rw [splitChar_cons_eq t c (rest ++ t :: y) rest (g :: gs)
        (by rw [ih (fun hm => h (List.mem_cons_of_mem _ hm)), hs])]
      rw [if_neg hct]

/-- No group of `splitChar` contains the separator. -/
theorem splitChar_sep_not_mem (t : Char) (s : PStr) :
    ∀ part ∈ splitChar t s, t ∉ part := by
  induction s with
  | nil =>
    intro part hp
    simp [splitChar] at hp
    simp [hp]
  | cons c rest ih =>
    intro part hp
    cases hs : splitChar t rest with
    | nil => exact absurd hs (splitChar_ne_nil t rest)
    | cons g gs =>
      rw [splitChar_cons_eq t c rest g gs hs] at hp
      by_cases hc : c = t
      · rw [if_pos hc] at hp
        rcases List.mem_cons.mp hp with he | hm
        · simp [he]
        · exact ih part (hs ▸ hm)
      · rw [if_neg hc] at hp
        rcases List.mem_cons.mp hp with he | hm
        · rw [he]
          intro hmem
          rcases List.mem_cons.mp hmem with he2 | hm2
          · exact hc he2.symm
          · exact ih g (hs ▸ List.mem_cons_self g gs) hm2
        · exact ih part (hs ▸ List.mem_cons_of_mem g hm)

/-- Characters of `splitChar` groups come from the string. -/
theorem splitChar_sub (t : Char) (s : PStr) :
    ∀ part ∈ splitChar t s, ∀ ch ∈ part, ch ∈ s := by
  induction s with
  | nil =>
    intro part hp ch hch
    simp [splitChar] at hp
    rw [hp] at hch
    exact absurd hch (by simp)
  | cons c rest ih =>
    intro part hp ch hch
    cases hs : splitChar t rest with
    | nil => exact absurd hs (splitChar_ne_nil t rest)
    | cons g gs =>
      rw [splitChar_cons_eq t c rest g gs hs] at hp
      by_cases hc : c = t
      · rw [if_pos hc] at hp
        rcases List.mem_cons.mp hp with he | hm
        · rw [he] at hch
          exact absurd hch (by simp)
        · exact List.mem_cons_of_mem c (ih part (hs ▸ hm) ch hch)
      · rw [if_neg hc] at hp
        rcases List.mem_cons.mp hp with he | hm
        · rw [he] at hch
          rcases List.mem_cons.mp hch with he2 | hm2
          · rw [he2]
            exact List.mem_cons_self c rest
          · exact List.mem_cons_of_mem c
              (ih g (hs ▸ List.mem_cons_self g gs) ch hm2)
        · exact List.mem_cons_of_mem c (ih part (hs ▸ List.mem_cons_of_mem g hm) ch hch)

/-- `takeWhile` swallows a satisfying prefix and stops at the first
failure. -/
theorem takeWhile_append_stop (p : Char → Bool) (a : PStr) (c : Char) (b : PStr)
    (ha : ∀ x ∈ a, p x = true) (hc : p c = false) :
    (a ++ c :: b).takeWhile p = a := by
  induction a with
  | nil => simp [List.takeWhile_cons, hc]
  | cons x xs ih =>
    rw [List.cons_append, List.takeWhile_cons, ha x (List.mem_cons_self x xs)]
    rw [ih (fun y hy => ha y (List.mem_cons_of_mem x hy))]
    simp

/-- `takeWhile` of an all-satisfying list. -/
theorem takeWhile_all (p : Char → Bool) (a : PStr) (ha : ∀ x ∈ a, p x = true) :
    a.takeWhile p = a := by
  induction a with
  | nil => rfl
  | cons x xs ih =>
    rw [List.takeWhile_cons, ha x (List.mem_cons_self x xs)]
    rw [ih (fun y hy => ha y (List.mem_cons_of_mem x hy))]
    simp

/-- Dropping one more than a prefix's length. -/
theorem drop_succ_append (a : PStr) (c : Char) (b : PStr) :
    (a ++ c :: b).drop (a.length + 1) = b := by
  have h : a ++ c :: b = (a ++ [c]) ++ b := by simp
  rw [h]
  have h2 : a.length + 1 = (a ++ [c]).length := by simp
  rw [h2, List.drop_left]

/-- `urlunsplit` on a canonical-shaped split result. -/
theorem urlunsplit_form (scheme N P Q : PStr) (hN : N ≠ []) (hs : scheme ≠ [])
    (hP : P.take 1 = ['/']) :
    urlunsplit ⟨scheme, N, P, Q, []⟩ =
      scheme ++ ':' :: '/' :: '/' :: (N ++ P ++ (if Q ≠ [] then '?' :: Q else [])) := by
  have hPne : ¬ (P ≠ [] ∧ P.take 1 ≠ ['/']) := by
    intro hcon
    exact hcon.2 hP
  simp only [urlunsplit]
  rw [if_pos (Or.inl hN), if_neg hPne, if_pos hs]
  by_cases hq : Q = []
  · simp [hq]
  · simp [hq]

/-- The canonical URL shape re-splits into exactly its components. -/
theorem urlsplitE_canonical (scheme N P Q : PStr)
    (hsch_len : 0 < scheme.length)
    (hsch_alpha : (scheme.headD ' ').isAlpha = true)
    (hsch_chars : scheme.all isSchemeChar = true)
    (hsch_nocolon : ':' ∉ scheme)
    (hsch_lower : pyLower scheme = scheme)
    (hsch_nobad : ∀ ch ∈ scheme, ¬ (ch = '\t' ∨ ch = '\r' ∨ ch = '\n'))
    (hN_clean : ∀ ch ∈ N, ¬ (ch = '/' ∨ ch = '?' ∨ ch = '#'))
    (hN_nobad : ∀ ch ∈ N, ¬ (ch = '\t' ∨ ch = '\r' ∨ ch = '\n'))
    (hN_br : ¬ (('[' ∈ N ∧ ']' ∉ N) ∨ (']' ∈ N ∧ '[' ∉ N)))
    (hP_head : P.take 1 = ['/'])
    (hP_clean : ∀ ch ∈ P, ¬ (ch = '?' ∨ ch = '#'))
    (hP_nobad : ∀ ch ∈ P, ¬ (ch = '\t' ∨ ch = '\r' ∨ ch = '\n'))
    (hQ_clean : ∀ ch ∈ Q, ¬ ch = '#')
    (hQ_nobad : ∀ ch ∈ Q, ¬ (ch = '\t' ∨ ch = '\r' ∨ ch = '\n')) :
    urlsplitE (scheme ++ ':' :: '/' :: '/' ::
      (N ++ P ++ (if Q ≠ [] then '?' :: Q else []))) = .ok ⟨scheme, N, P, Q, []⟩ := by
  set qpart : PStr := if Q ≠ [] then '?' :: Q else [] with hqp
  set u : PStr := scheme ++ ':' :: '/' :: '/' :: (N ++ P ++ qpart) with hu
  have hqp_nobad : ∀ ch ∈ qpart, ¬ (ch = '\t' ∨ ch = '\r' ∨ ch = '\n') := by
    intro ch hch
    rw [hqp] at hch
    by_cases hq : Q ≠ []
    · rw [if_pos hq] at hch
      rcases List.mem_cons.mp hch with he | hm
      · rw [he]
        intro hcon
        rcases hcon with h | h | h <;> exact absurd h (by decide)
      · exact hQ_nobad ch hm
    · rw [if_neg hq] at hch
      exact absurd hch (by simp)
  have hclean : removeUnsafeBytes u = u := by
    unfold removeUnsafeBytes
    rw [List.filter_eq_self]
    intro a ha
    rw [hu] at ha
    simp only [decide_not, Bool.not_eq_eq_eq_not, Bool.not_true, decide_eq_false_iff_not]
    rcases List.mem_append.mp ha with h1 | h2
    · exact hsch_nobad a h1
    · rcases List.mem_cons.mp h2 with he | h3
      · rw [he]
        intro hcon
        rcases hcon with h | h | h <;> exact absurd h (by decide)
      · rcases List.mem_cons.mp h3 with he | h4
        · rw [he]
          intro hcon
          rcases hcon with h | h | h <;> exact absurd h (by decide)
        · rcases List.mem_cons.mp h4 with he | h5
          · rw [he]
            intro hcon
            rcases hcon with h | h | h <;> exact absurd h (by decide)
          · rcases List.mem_append.mp h5 with h6 | h7
            · rcases List.mem_append.mp h6 with h8 | h9
              · exact hN_nobad a h8
              · exact hP_nobad a h9
            · exact hqp_nobad a h7
  have hpre : u.takeWhile (· ≠ ':') = scheme := by
    rw [hu]
    refine takeWhile_append_stop _ scheme ':' _ ?_ (by simp)
    intro x hx
    simp only [ne_eq, decide_eq_true_eq]
    intro he
    rw [he] at hx
    exact hsch_nocolon hx
  have hdrop : u.drop (scheme.length + 1) = '/' :: '/' :: (N ++ P ++ qpart) := by
    rw [hu]
    exact drop_succ_append scheme ':' _
  obtain ⟨p0, P', hPeq, hp0⟩ : ∃ p0 P', P = p0 :: P' ∧ p0 = '/' := by
    cases P with
    | nil => simp at hP_head
    | cons p0 P' =>
      refine ⟨p0, P', rfl, ?_⟩
      simpa [List.take] using hP_head
  have hafter : N ++ P ++ qpart = N ++ '/' :: (P' ++ qpart) := by
    rw [hPeq, hp0]
    simp
  have hnet : (N ++ P ++ qpart).takeWhile
      (fun c => ¬ (c = '/' ∨ c = '?' ∨ c = '#')) = N := by
    rw [hafter]
    refine takeWhile_append_stop _ N '/' _ ?_ (by simp)
    intro x hx
    simp only [decide_not, Bool.not_eq_eq_eq_not, Bool.not_true, decide_eq_false_iff_not]
    exact hN_clean x hx
  have hrest2 : (N ++ P ++ qpart).drop N.length = P ++ qpart := by
    rw [List.append_assoc, List.drop_left]
  have hcond : List.length scheme < List.length u ∧ 0 < List.length scheme ∧
      (List.headD u ' ').isAlpha = true ∧ List.all scheme isSchemeChar = true := by
    refine ⟨?_, hsch_len, ?_, hsch_chars⟩
    · rw [hu]
      simp only [List.length_append, List.length_cons]
      omega
    · cases hsch : scheme with
      | nil =>
        rw [hsch] at hsch_len
        simp at hsch_len
      | cons c s2 =>
        have halpha := hsch_alpha
        rw [hsch] at halpha
        rw [hu, hsch]
        simpa using (by simpa using halpha)
  have hbf : breakAt '#' (P ++ qpart) = (P ++ qpart, none) := by
    refine breakAt_not_mem '#' _ ?_
    intro hmem
    rcases List.mem_append.mp hmem with h1 | h2
    · exact hP_clean '#' h1 (Or.inr rfl)
    · rw [hqp] at h2
      by_cases hq : Q ≠ []
      · rw [if_pos hq] at h2
        rcases List.mem_cons.mp h2 with he | hm
        · exact absurd he (by decide)
        · exact hQ_clean '#' hm rfl
      · rw [if_neg hq] at h2
        exact absurd h2 (by simp)
  simp only [urlsplitE]
  rw [hclean, hpre]
  rw [if_pos hcond, hsch_lower, hdrop]
  dsimp only
  rw [if_pos (show List.take 2 ('/' :: '/' :: (N ++ P ++ qpart)) = ['/', '/'] from rfl)]
  simp only [List.drop_succ_cons, List.drop_zero]
  rw [hnet, hrest2, if_neg hN_br, hbf]
  dsimp only
  by_cases hq : Q = []
  · have hqe : qpart = [] := by
      rw [hqp, if_neg (by simpa using hq)]
    rw [hqe, List.append_nil]
    rw [breakAt_not_mem '?' P (fun hmem => hP_clean '?' hmem (Or.inl rfl))]
    rw [hq]
    rfl
  · have hqe : qpart = '?' :: Q := by
      rw [hqp, if_pos (by simpa using hq)]
    rw [hqe]
    rw [breakAt_append_sep '?' P Q (fun hmem => hP_clean '?' hmem (Or.inl rfl))]
    rfl

/-- The prefix `breakAt` returns never contains the separator. -/
theorem breakAt_fst_not_mem (t : Char) (s : PStr) : t ∉ (breakAt t s).1 := by
  induction s with
  | nil => simp [breakAt]
  | cons c rest ih =>
    unfold breakAt
    by_cases hc : c = t
    · rw [if_pos hc]
      simp
    · rw [if_neg hc]
      cases hb : breakAt t rest with
      | mk a b =>
        rw [hb] at ih
        intro hmem
        rcases List.mem_cons.mp hmem with he | hm
        · exact hc he.symm
        · exact ih hm

/-- `breakAt` without a hit scanned the whole string. -/
theorem breakAt_none_eq (t : Char) (s : PStr) (h : (breakAt t s).2 = none) :
    (breakAt t s).1 = s ∧ t ∉ s := by
  induction s with
  | nil => simp [breakAt]
  | cons c rest ih =>
    unfold breakAt at h ⊢
    by_cases hc : c = t
    · rw [if_pos hc] at h
      simp at h
    · rw [if_neg hc] at h ⊢
      cases hb : breakAt t rest with
      | mk a b =>
        rw [hb] at h ih
        simp only at h
        obtain ⟨ha, hm⟩ := ih h
        simp only at ha
        constructor
        · rw [ha]
        · intro hmem
          rcases List.mem_cons.mp hmem with he | hm2
          · exact hc he.symm
          · exact hm hm2

/-- A `breakAt` hit decomposes the string. -/
theorem breakAt_some_eq (t : Char) (s : PStr) (a b : PStr)
    (h : breakAt t s = (a, some b)) : s = a ++ t :: b := by
  induction s generalizing a with
  | nil => simp [breakAt] at h
  | cons c rest ih =>
    unfold breakAt at h
    by_cases hc : c = t
    · rw [if_pos hc] at h
      injection h with h1 h2
      injection h2 with h2
      rw [hc, ← h1, ← h2]
      rfl
    · rw [if_neg hc] at h
      cases hb : breakAt t rest with
      | mk a2 b2 =>
        rw [hb] at h
        injection h with h1 h2
        cases b2 with
        | none => simp at h2
        | some b3 =>
          injection h2 with h2
          rw [← h1, List.cons_append]
          rw [ih a2 (by rw [hb, h2])]

/-- A `rsplit1` hit decomposes at the last separator. -/
theorem rsplit1_some_eq (t : Char) (s : PStr) (u hp : PStr)
    (h : rsplit1 t s = some (u, hp)) : s = u ++ t :: hp ∧ t ∉ hp := by
  unfold rsplit1 at h
  cases hb : breakAt t s.reverse with
  | mk afterRev bo =>
    rw [hb] at h
    cases bo with
    | none => simp at h
    | some beforeRev =>
      simp only at h
      injection h with h
      injection h with h1 h2
      have hdec := breakAt_some_eq t s.reverse afterRev beforeRev hb
      have hfst : t ∉ afterRev := by
        have := breakAt_fst_not_mem t s.reverse
        rw [hb] at this
        exact this
      constructor
      · have : s = (afterRev ++ t :: beforeRev).reverse := by
          rw [← hdec, List.reverse_reverse]
        rw [this, List.reverse_append, List.reverse_cons, List.append_assoc]
        rw [← h1, ← h2]
        simp
      · rw [← h2]
        simpa using hfst

/-- `rsplit1` misses only when the separator is absent. -/
theorem rsplit1_none_not_mem_of (t : Char) (s : PStr) (h : rsplit1 t s = none) :
    t ∉ s := by
  unfold rsplit1 at h
  cases hb : breakAt t s.reverse with
  | mk afterRev bo =>
    rw [hb] at h
    cases bo with
    | some beforeRev => simp at h
    | none =>
      have := (breakAt_none_eq t s.reverse (by rw [hb])).2
      simpa using this

/-- The netloc shape `_normalize_netloc` produces. -/
def netlocNF (userinfo host portF : PStr) : PStr :=
  if userinfo ≠ [] then
    userinfo ++ '@' :: (if portF = [] then host else host ++ ':' :: portF)
  else (if portF = [] then host else host ++ ':' :: portF)

/-- `_normalize_netloc` fixes its own output shape. -/
theorem normalize_netloc_fixed (scheme userinfo host portF : PStr)
    (hs : scheme = "http".toList ∨ scheme = "https".toList)
    (hat_h : '@' ∉ host) (hat_p : '@' ∉ portF)
    (hcol_h : ':' ∉ host)
    (hlow : pyLower host = host)
    (hdot : pyStripChar '.' host = host)
    (hstrip : pyStrip portF = portF)
    (hdef : ¬ ((scheme = "http".toList ∧ portF = "80".toList) ∨
               (scheme = "https".toList ∧ portF = "443".toList))) :
    _normalize_netloc (netlocNF userinfo host portF) scheme =
      netlocNF userinfo host portF := by
  have hat_hp : '@' ∉ (if portF = [] then host else host ++ ':' :: portF) := by
    by_cases hpf : portF = []
    · rw [if_pos hpf]
      exact hat_h
    · rw [if_neg hpf]
      intro hmem
      rcases List.mem_append.mp hmem with h1 | h2
      · exact hat_h h1
      · rcases List.mem_cons.mp h2 with he | hm
        · exact absurd he (by decide)
        · exact hat_p hm
  have hbreak : breakAt ':' (if portF = [] then host else host ++ ':' :: portF) =
      (host, if portF = [] then none else some portF) := by
    by_cases hpf : portF = []
    · rw [if_pos hpf, if_pos hpf]
      exact breakAt_not_mem ':' host hcol_h
    · rw [if_neg hpf, if_neg hpf]
      exact breakAt_append_sep ':' host portF hcol_h
  have hhost2 : pyStripChar '.' (pyLower host) = host := by
    rw [hlow, hdot]
  have hdef2 : ¬ ((scheme = "http".toList ∧ pyStrip portF = "80".toList) ∨
      (scheme = "https".toList ∧ pyStrip portF = "443".toList)) := by
    rw [hstrip]
    exact hdef
  have hdef0 : ¬ ((scheme = "http".toList ∧ ([] : PStr) = "80".toList) ∨
      (scheme = "https".toList ∧ ([] : PStr) = "443".toList)) := by
    intro hcon
    rcases hcon with ⟨h1, h2⟩ | ⟨h1, h2⟩ <;> exact absurd h2 (by decide)
  by_cases huser : userinfo ≠ []
  · have hN : netlocNF userinfo host portF =
        userinfo ++ '@' :: (if portF = [] then host else host ++ ':' :: portF) := by
      unfold netlocNF
      rw [if_pos huser]
    rw [hN]
    simp only [_normalize_netloc, rsplit1_append_sep '@' userinfo _ hat_hp, hbreak]
    by_cases hpf : portF = []
    · simp only [if_pos hpf]
      rw [show pyStrip ([] : PStr) = [] from rfl]
      rw [if_neg hdef0]
      rw [hhost2]
      rw [if_pos rfl]
      rw [if_pos huser]
    · simp only [if_neg hpf]
      rw [hhost2]
      rw [if_neg hdef2, hstrip]
      rw [if_neg hpf, if_pos huser]
  · have hN : netlocNF userinfo host portF =
        (if portF = [] then host else host ++ ':' :: portF) := by
      unfold netlocNF
      rw [if_neg huser]
    rw [hN]
    simp only [_normalize_netloc, rsplit1_not_mem '@' _ hat_hp, hbreak]
    by_cases hpf : portF = []
    · simp only [if_pos hpf]
      rw [show pyStrip ([] : PStr) = [] from rfl]
      rw [if_neg hdef0]
      rw [hhost2]
      rw [if_pos rfl]
      rw [if_neg (by simpa using huser)]
    · simp only [if_neg hpf]
      rw [hhost2]
      rw [if_neg hdef2, hstrip]
      rw [if_neg hpf, if_neg (by simpa using huser)]

/-- Characters of the normalized host are lowered characters of the raw
host. -/
theorem host_mem_lower (h0 : PStr) (ch : Char) (h : ch ∈ pyStripChar '.' (pyLower h0)) :
    ∃ o ∈ h0, ch = Char.toLower o := by
  rw [pyStripChar_eq_strip2] at h
  have h2 := strip2_subset _ _ _ h
  unfold pyLower at h2
  obtain ⟨o, ho, he⟩ := List.mem_map.mp h2
  exact ⟨o, ho, he.symm⟩

/-- A non-letter character absent from the raw host is absent from the
normalized host. -/
theorem host_not_mem (h0 : PStr) (ch : Char)
    (hd : ch.toNat < 65 ∨ (90 < ch.toNat ∧ ch.toNat < 97) ∨ 122 < ch.toNat)
    (hn : ch ∉ h0) : ch ∉ pyStripChar '.' (pyLower h0) := by
  intro hmem
  obtain ⟨o, ho, he⟩ := host_mem_lower h0 ch hmem
  have : o = ch := (toLower_eq_nonletter o ch hd).mp he.symm
  rw [this] at ho
  exact hn ho

/-- The normalized host is already lower-case. -/
theorem host_lower_fixed (h0 : PStr) :
    pyLower (pyStripChar '.' (pyLower h0)) = pyStripChar '.' (pyLower h0) := by
  unfold pyLower
  refine (List.map_congr_left ?_).trans (List.map_id _)
  intro a ha
  obtain ⟨o, ho, he⟩ := host_mem_lower h0 a (show a ∈ pyStripChar '.' (pyLower h0) from ha)
  rw [he]
  exact toLower_idem o

/-- The normalized host is already dot-stripped. -/
theorem host_dot_fixed (h0 : PStr) :
    pyStripChar '.' (pyStripChar '.' (pyLower h0)) = pyStripChar '.' (pyLower h0) := by
  rw [pyStripChar_eq_strip2 '.' (pyLower h0),
    pyStripChar_eq_strip2 '.' (strip2 (· = '.') (pyLower h0))]
  exact strip2_idem _ _

/-- A non-letter, non-dot character of the raw host survives host
normalization. -/
theorem host_mem_of_mem (h0 : PStr) (ch : Char)
    (hd : ch.toNat < 65 ∨ (90 < ch.toNat ∧ ch.toNat < 97) ∨ 122 < ch.toNat)
    (hdot : ¬ ch = '.') (h : ch ∈ h0) : ch ∈ pyStripChar '.' (pyLower h0) := by
  rw [pyStripChar_eq_strip2]
  refine mem_strip2_of_false _ _ (by simp [hdot]) _ ?_
  unfold pyLower
  refine List.mem_map.mpr ⟨ch, h, ?_⟩
  exact (toLower_eq_nonletter ch ch hd).mpr rfl

/-- Membership in the normalized-netloc shape, for characters that are
neither `@` nor `:`. -/
theorem mem_netlocNF (u h p : PStr) (ch : Char) (h1 : ¬ ch = '@') (h2 : ¬ ch = ':') :
    ch ∈ netlocNF u h p ↔ (ch ∈ u ∨ ch ∈ h ∨ ch ∈ p) := by
  unfold netlocNF
  by_cases hu : u ≠ []
  · rw [if_pos hu]
    by_cases hp : p = []
    · rw [if_pos hp, hp]
      simp [List.mem_append, List.mem_cons, h1]
    · rw [if_neg hp]
      simp [List.mem_append, List.mem_cons, h1, h2]
  · rw [if_neg hu]
    simp only [ne_eq, not_not] at hu
    rw [hu]
    by_cases hp : p = []
    · rw [if_pos hp, hp]
      simp
    · rw [if_neg hp]
      simp [List.mem_append, List.mem_cons, h2]

/-- `_normalize_netloc` always produces the `netlocNF` shape, with the
component facts the fixed-point lemma needs and bracket-membership
equivalence with the raw netloc. -/
theorem normalize_netloc_shape (netloc0 scheme : PStr)
    (hs : scheme = "http".toList ∨ scheme = "https".toList) :
    ∃ userinfo host portF,
      _normalize_netloc netloc0 scheme = netlocNF userinfo host portF ∧
      ('@' ∉ host ∧ '@' ∉ portF ∧ ':' ∉ host ∧
       pyLower host = host ∧ pyStripChar '.' host = host ∧ pyStrip portF = portF ∧
       ¬ ((scheme = "http".toList ∧ portF = "80".toList) ∨
          (scheme = "https".toList ∧ portF = "443".toList))) ∧
      (∀ ch ∈ userinfo, ch ∈ netloc0) ∧
      (∀ ch ∈ host, ∃ o ∈ netloc0, ch = Char.toLower o) ∧
      (∀ ch ∈ portF, ch ∈ netloc0) ∧
      (∀ ch, (ch = '[' ∨ ch = ']') →
        (ch ∈ netlocNF userinfo host portF ↔ ch ∈ netloc0)) := by
  have hbr_nl : ∀ ch : Char, (ch = '[' ∨ ch = ']') →
      (ch.toNat < 65 ∨ (90 < ch.toNat ∧ ch.toNat < 97) ∨ 122 < ch.toNat) ∧
      ¬ ch = '.' ∧ ¬ ch = '@' ∧ ¬ ch = ':' ∧ isPyWs ch = false := by
    intro ch hch
    rcases hch with h | h <;> rw [h] <;>
      exact ⟨by decide, by decide, by decide, by decide, by decide⟩
  have hmain : ∀ (u0 h0 p0 : PStr),
      _normalize_netloc netloc0 scheme =
        (if u0 ≠ [] then
          u0 ++ '@' ::
            (if (if (scheme = "http".toList ∧ pyStrip p0 = "80".toList) ∨
                    (scheme = "https".toList ∧ pyStrip p0 = "443".toList)
                 then [] else pyStrip p0) = []
             then pyStripChar '.' (pyLower h0)
             else pyStripChar '.' (pyLower h0) ++ ':' ::
               (if (scheme = "http".toList ∧ pyStrip p0 = "80".toList) ∨
                   (scheme = "https".toList ∧ pyStrip p0 = "443".toList)
                then [] else pyStrip p0))
         else
          (if (if (scheme = "http".toList ∧ pyStrip p0 = "80".toList) ∨
                  (scheme = "https".toList ∧ pyStrip p0 = "443".toList)
               then [] else pyStrip p0) = []
           then pyStripChar '.' (pyLower h0)
           else pyStripChar '.' (pyLower h0) ++ ':' ::
             (if (scheme = "http".toList ∧ pyStrip p0 = "80".toList) ∨
                 (scheme = "https".toList ∧ pyStrip p0 = "443".toList)
              then [] else pyStrip p0))) →
      '@' ∉ h0 → '@' ∉ p0 → ':' ∉ h0 →
      (∀ ch ∈ u0, ch ∈ netloc0) →
      (∀ ch ∈ h0, ch ∈ netloc0) →
      (∀ ch ∈ p0, ch ∈ netloc0) →
      (∀ ch, (ch = '[' ∨ ch = ']') → ch ∈ netloc0 →
        (ch ∈ u0 ∨ ch ∈ h0 ∨ ch ∈ p0)) →
      ∃ userinfo host portF,
        _normalize_netloc netloc0 scheme = netlocNF userinfo host portF ∧
        ('@' ∉ host ∧ '@' ∉ portF ∧ ':' ∉ host ∧
         pyLower host = host ∧ pyStripChar '.' host = host ∧ pyStrip portF = portF ∧
         ¬ ((scheme = "http".toList ∧ portF = "80".toList) ∨
            (scheme = "https".toList ∧ portF = "443".toList))) ∧
        (∀ ch ∈ userinfo, ch ∈ netloc0) ∧
        (∀ ch ∈ host, ∃ o ∈ netloc0, ch = Char.toLower o) ∧
        (∀ ch ∈ portF, ch ∈ netloc0) ∧
        (∀ ch, (ch = '[' ∨ ch = ']') →
          (ch ∈ netlocNF userinfo host portF ↔ ch ∈ netloc0)) := by
    intro u0 h0 p0 hEQ hat_h0 hat_p0 hcol0 hmemU hmemH hmemP hmemBack
    by_cases hdefq : (scheme = "http".toList ∧ pyStrip p0 = "80".toList) ∨
        (scheme = "https".toList ∧ pyStrip p0 = "443".toList)
    · refine ⟨u0, pyStripChar '.' (pyLower h0), [], ?_, ?_, hmemU, ?_, ?_, ?_⟩
      · rw [hEQ, if_pos hdefq]
        rfl
      · refine ⟨host_not_mem h0 '@' (by decide) hat_h0, by simp,
          host_not_mem h0 ':' (by decide) hcol0,
          host_lower_fixed h0, host_dot_fixed h0, rfl, ?_⟩
        intro hcon
        rcases hcon with ⟨_, h2⟩ | ⟨_, h2⟩ <;> exact absurd h2.symm (by decide)
      · intro ch hch
        obtain ⟨o, ho, he⟩ := host_mem_lower h0 ch hch
        exact ⟨o, hmemH o ho, he⟩
      · intro ch hch
        exact absurd hch (by simp)
      · intro ch hch
        obtain ⟨hnl, hdot, hat, hcolc, hws⟩ := hbr_nl ch hch
        rw [mem_netlocNF u0 _ [] ch hat hcolc]
        constructor
        · intro hin
          rcases hin with h | h | h
          · exact hmemU ch h
          · obtain ⟨o, ho, he⟩ := host_mem_lower h0 ch h
            have ho2 : o = ch := (toLower_eq_nonletter o ch hnl).mp he.symm
            rw [ho2] at ho
            exact hmemH ch ho
          · exact absurd h (by simp)
        · intro hin
          rcases hmemBack ch hch hin with h | h | h
          · exact Or.inl h
          · exact Or.inr (Or.inl (host_mem_of_mem h0 ch hnl hdot h))
          · exfalso
            have hm2 : ch ∈ pyStrip p0 := by
              rw [pyStrip_eq_strip2]
              exact mem_strip2_of_false _ _ hws _ h
            rcases hdefq with ⟨_, hp⟩ | ⟨_, hp⟩ <;> rw [hp] at hm2 <;>
              rcases hch with h3 | h3 <;> rw [h3] at hm2 <;>
                exact absurd hm2 (by decide)
    · refine ⟨u0, pyStripChar '.' (pyLower h0), pyStrip p0, ?_, ?_, hmemU, ?_, ?_, ?_⟩
      · rw [hEQ, if_neg hdefq]
        rfl
      · refine ⟨host_not_mem h0 '@' (by decide) hat_h0, ?_,
          host_not_mem h0 ':' (by decide) hcol0,
          host_lower_fixed h0, host_dot_fixed h0, ?_, ?_⟩
        · intro hm
          rw [pyStrip_eq_strip2] at hm
          exact hat_p0 (strip2_subset _ _ _ hm)
        · rw [pyStrip_eq_strip2, pyStrip_eq_strip2]
          exact strip2_idem _ _
        · exact hdefq
      · intro ch hch
        obtain ⟨o, ho, he⟩ := host_mem_lower h0 ch hch
        exact ⟨o, hmemH o ho, he⟩
      · intro ch hch
        rw [pyStrip_eq_strip2] at hch
        exact hmemP ch (strip2_subset _ _ _ hch)
      · intro ch hch
        obtain ⟨hnl, hdot, hat, hcolc, hws⟩ := hbr_nl ch hch
        rw [mem_netlocNF u0 _ _ ch hat hcolc]
        constructor
        · intro hin
          rcases hin with h | h | h
          · exact hmemU ch h
          · obtain ⟨o, ho, he⟩ := host_mem_lower h0 ch h
            have ho2 : o = ch := (toLower_eq_nonletter o ch hnl).mp he.symm
            rw [ho2] at ho
            exact hmemH ch ho
          · rw [pyStrip_eq_strip2] at h
            exact hmemP ch (strip2_subset _ _ _ h)
        · intro hin
          rcases hmemBack ch hch hin with h | h | h
          · exact Or.inl h
          · exact Or.inr (Or.inl (host_mem_of_mem h0 ch hnl hdot h))
          · refine Or.inr (Or.inr ?_)
            rw [pyStrip_eq_strip2]
            exact mem_strip2_of_false _ _ hws _ h
  cases hu0 : rsplit1 '@' netloc0 with
  | none =>
    have hat := rsplit1_none_not_mem_of '@' netloc0 hu0
    cases hb : breakAt ':' netloc0 with
    | mk h0 po =>
      cases po with
      | none =>
        obtain ⟨ha0, hcolm⟩ := breakAt_none_eq ':' netloc0 (by rw [hb])
        have ha : h0 = netloc0 := by rw [← ha0, hb]
        refine hmain [] h0 [] ?_ (by rw [ha]; exact hat) (by simp)
          (by rw [ha]; exact hcolm) (by simp)
          (fun ch hch => by rw [ha] at hch; exact hch) (by simp) ?_
        · simp only [_normalize_netloc, hu0, hb]
        · intro ch hch hm
          refine Or.inr (Or.inl ?_)
          rw [ha]
          exact hm
      | some p0 =>
        have hdec := breakAt_some_eq ':' netloc0 h0 p0 hb
        have hfst : ':' ∉ h0 := by
          have := breakAt_fst_not_mem ':' netloc0
          rw [hb] at this
          exact this
        have hat_h : '@' ∉ h0 := fun hm => hat (hdec ▸ List.mem_append.mpr (Or.inl hm))
        have hat_p : '@' ∉ p0 := fun hm =>
          hat (hdec ▸ List.mem_append.mpr (Or.inr (List.mem_cons_of_mem _ hm)))
        refine hmain [] h0 p0 ?_ hat_h hat_p hfst (by simp)
          (fun ch hm => hdec ▸ List.mem_append.mpr (Or.inl hm))
          (fun ch hm => hdec ▸ List.mem_append.mpr (Or.inr (List.mem_cons_of_mem _ hm)))
          ?_
        · simp only [_normalize_netloc, hu0, hb]
        · intro ch hch hm
          rw [hdec] at hm
          rcases List.mem_append.mp hm with h | h
          · exact Or.inr (Or.inl h)
          · rcases List.mem_cons.mp h with he | h2
            · exact absurd he (hbr_nl ch hch).2.2.2.1
            · exact Or.inr (Or.inr h2)
  | some up =>
    obtain ⟨u0, hp0⟩ := up
    obtain ⟨hdec0, hat0⟩ := rsplit1_some_eq '@' netloc0 u0 hp0 hu0
    cases hb : breakAt ':' hp0 with
    | mk h0 po =>
      cases po with
      | none =>
        obtain ⟨ha0, hcolm⟩ := breakAt_none_eq ':' hp0 (by rw [hb])
        have ha : h0 = hp0 := by rw [← ha0, hb]
        refine hmain u0 h0 [] ?_ (by rw [ha]; exact hat0) (by simp)
          (by rw [ha]; exact hcolm)
          (fun ch hm => hdec0 ▸ List.mem_append.mpr (Or.inl hm))
          (fun ch hm => hdec0 ▸ List.mem_append.mpr
            (Or.inr (List.mem_cons_of_mem _ (by rw [ha] at hm; exact hm))))
          (by simp) ?_
        · simp only [_normalize_netloc, hu0, hb]
        · intro ch hch hm
          rw [hdec0] at hm
          rcases List.mem_append.mp hm with h | h
          · exact Or.inl h
          · rcases List.mem_cons.mp h with he | h2
            · exact absurd he (hbr_nl ch hch).2.2.1
            · refine Or.inr (Or.inl ?_)
              rw [ha]
              exact h2
      | some p0 =>
        have hdec := breakAt_some_eq ':' hp0 h0 p0 hb
        have hfst : ':' ∉ h0 := by
          have := breakAt_fst_not_mem ':' hp0
          rw [hb] at this
          exact this
        have hat_h : '@' ∉ h0 := fun hm => hat0 (hdec ▸ List.mem_append.mpr (Or.inl hm))
        have hat_p : '@' ∉ p0 := fun hm =>
          hat0 (hdec ▸ List.mem_append.mpr (Or.inr (List.mem_cons_of_mem _ hm)))
        refine hmain u0 h0 p0 ?_ hat_h hat_p hfst
          (fun ch hm => hdec0 ▸ List.mem_append.mpr (Or.inl hm))
          (fun ch hm => hdec0 ▸ List.mem_append.mpr (Or.inr (List.mem_cons_of_mem _
            (hdec ▸ List.mem_append.mpr (Or.inl hm)))))
          (fun ch hm => hdec0 ▸ List.mem_append.mpr (Or.inr (List.mem_cons_of_mem _
            (hdec ▸ List.mem_append.mpr (Or.inr (List.mem_cons_of_mem _ hm))))))
          ?_
        · simp only [_normalize_netloc, hu0, hb]
        · intro ch hch hm
          rw [hdec0] at hm
          rcases List.mem_append.mp hm with h | h
          · exact Or.inl h
          · rcases List.mem_cons.mp h with he | h2
            · exact absurd he (hbr_nl ch hch).2.2.1
            · rw [hdec] at h2
              rcases List.mem_append.mp h2 with h3 | h3
              · exact Or.inr (Or.inl h3)
              · rcases List.mem_cons.mp h3 with he2 | h4
                · exact absurd he2 (hbr_nl ch hch).2.2.2.1
                · exact Or.inr (Or.inr h4)

/-- `intercalate` on a cons cell with a non-empty tail. -/
theorem intercalate_cons₂ (sep : PStr) (c : PStr) (cs : List PStr) (h : cs ≠ []) :
    List.intercalate sep (c :: cs) = c ++ sep ++ List.intercalate sep cs := by
  cases cs with
  | nil => exact absurd rfl h
  | cons d ds =>
    unfold List.intercalate
    simp [List.intersperse]

/-- `intercalate` on a single component. -/
theorem intercalate_one (sep : PStr) (c : PStr) : List.intercalate sep [c] = c := by
  unfold List.intercalate
  simp

/-- Characters of an `intercalate` come from the parts or the separator. -/
theorem mem_intercalate (c : PStr) (comps : List PStr) (ch : Char)
    (h : ch ∈ List.intercalate c comps) : ch ∈ c ∨ ∃ p ∈ comps, ch ∈ p := by
  induction comps with
  | nil => simp [List.intercalate] at h
  | cons d ds ih =>
    cases ds with
    | nil =>
      rw [intercalate_one] at h
      exact Or.inr ⟨d, List.mem_cons_self d _, h⟩
    | cons e es =>
      rw [intercalate_cons₂ c d (e :: es) (by simp)] at h
      rcases List.mem_append.mp h with h1 | h2
      · rcases List.mem_append.mp h1 with h3 | h4
        · exact Or.inr ⟨d, List.mem_cons_self d _, h3⟩
        · exact Or.inl h4
      · rcases ih h2 with h3 | h4
        · exact Or.inl h3
        · rcases h4 with ⟨p, hp, hchp⟩
          exact Or.inr ⟨p, List.mem_cons_of_mem d hp, hchp⟩

/-- `splitChar` peels leading separators into empty groups. -/
theorem splitChar_replicate (t : Char) (k : Nat) (x : PStr) :
    splitChar t (List.replicate k t ++ x) = List.replicate k [] ++ splitChar t x := by
  induction k with
  | zero => simp
  | succ m ih =>
    rw [List.replicate_succ, List.cons_append]
    rw [show (t :: (List.replicate m t ++ x)) = [] ++ t :: (List.replicate m t ++ x)
      from rfl]
    rw [splitChar_append_sep t [] _ (by simp), ih]
    rfl

/-- `splitChar` of an intercalated component list plus optional trailing slash. -/
theorem splitChar_inter (tr : Bool) :
    ∀ comps : List PStr, (∀ c ∈ comps, c ≠ [] ∧ '/' ∉ c) → comps ≠ [] →
    splitChar '/' (List.intercalate ['/'] comps ++ (if tr then ['/'] else [])) =
      comps ++ (if tr then [[]] else []) := by
  intro comps
  induction comps with
  | nil => exact fun _ hne => absurd rfl hne
  | cons d ds ih =>
    intro hcomps _
    cases ds with
    | nil =>
      rw [intercalate_one]
      have hd := hcomps d (List.mem_cons_self d _)
      cases tr with
      | false =>
        have h1 : (if (false : Bool) = true then (['/'] : PStr) else []) = [] := by simp
        have h2 : (if (false : Bool) = true then ([[]] : List PStr) else []) = [] := by
          simp
        rw [h1, h2, List.append_nil, List.append_nil, splitChar_single '/' d hd.2]
      | true =>
        have h1 : (if (true : Bool) = true then (['/'] : PStr) else []) = ['/'] := by simp
        have h2 : (if (true : Bool) = true then ([[]] : List PStr) else []) = [[]] := by
          simp
        rw [h1, h2, show d ++ (['/'] : PStr) = d ++ '/' :: [] from rfl]
        rw [splitChar_append_sep '/' d [] hd.2]
        rfl
    | cons e es =>
      rw [intercalate_cons₂ ['/'] d (e :: es) (by simp)]
      have hd := hcomps d (List.mem_cons_self d _)
      rw [List.append_assoc, List.append_assoc]
      rw [show ((['/'] : PStr) ++ (List.intercalate ['/'] (e :: es) ++
        (if tr then ['/'] else []))) = '/' :: (List.intercalate ['/'] (e :: es) ++
        (if tr then ['/'] else [])) from rfl]
      rw [splitChar_append_sep '/' d _ hd.2]
      rw [ih (fun c hc => hcomps c (List.mem_cons_of_mem d hc)) (by simp)]
      rfl

/-- `splitChar` of the canonical path shape. -/
theorem splitChar_pathNF (k : Nat) (comps : List PStr) (tr : Bool)
    (hcomps : ∀ c ∈ comps, c ≠ [] ∧ '/' ∉ c) (hne : comps ≠ []) :
    splitChar '/' (pathNF k comps tr) =
      List.replicate k [] ++ comps ++ (if tr then [[]] else []) := by
  unfold pathNF
  rw [List.append_assoc, splitChar_replicate, splitChar_inter tr comps hcomps hne]
  rw [List.append_assoc]

/-- `normStep` drops empty components. -/
theorem normStep_nil (isl : Nat) (acc : List PStr) : normStep isl acc [] = acc := by
  unfold normStep
  rw [if_pos (Or.inl rfl)]

/-- `normStep` appends a component that is non-empty, not a dot form, slash-free. -/
theorem normStep_good (isl : Nat) (acc : List PStr) (c : PStr) (h : goodComp c) :
    normStep isl acc c = acc ++ [c] := by
  unfold normStep
  rw [if_neg (fun hor => hor.elim (fun h1 => h.1 h1) (fun h1 => h.2.1 h1))]
  rw [if_pos (Or.inl h.2.2.1)]

/-- The component fold ignores a leading block of empty groups. -/
theorem foldl_normStep_replicate (isl k : Nat) (acc : List PStr) (rest : List PStr) :
    List.foldl (normStep isl) acc (List.replicate k [] ++ rest) =
      List.foldl (normStep isl) acc rest := by
  induction k with
  | zero => simp
  | succ m ih =>
    rw [List.replicate_succ, List.cons_append, List.foldl_cons, normStep_nil]
    exact ih

/-- The component fold appends good components in order. -/
theorem foldl_normStep_good (isl : Nat) :
    ∀ (comps : List PStr) (acc : List PStr), (∀ c ∈ comps, goodComp c) →
    List.foldl (normStep isl) acc comps = acc ++ comps := by
  intro comps
  induction comps with
  | nil =>
    intro acc _
    simp
  | cons d ds ih =>
    intro acc h
    rw [List.foldl_cons, normStep_good isl acc d (h d (List.mem_cons_self d _))]
    rw [ih (acc ++ [d]) (fun c hc => h c (List.mem_cons_of_mem d hc))]
    simp

/-- The component fold ignores a trailing empty group. -/
theorem foldl_normStep_trailing (isl : Nat) (acc : List PStr) (xs : List PStr) :
    List.foldl (normStep isl) acc (xs ++ [[]]) = List.foldl (normStep isl) acc xs := by
  rw [List.foldl_append]
  simp [normStep_nil]

/-- Head decomposition of an intercalation. -/
theorem intercalate_head (c : PStr) (cs : List PStr) :
    ∃ Y, List.intercalate ['/'] (c :: cs) = c ++ Y := by
  cases cs with
  | nil => exact ⟨[], by rw [intercalate_one]; simp⟩
  | cons d ds =>
    exact ⟨['/'] ++ List.intercalate ['/'] (d :: ds),
      by rw [intercalate_cons₂ ['/'] c (d :: ds) (by simp), List.append_assoc]⟩

/-- Last element of an intercalation of non-empty slash-free components. -/
theorem intercalate_getLast :
    ∀ comps : List PStr, (∀ p ∈ comps, p ≠ [] ∧ '/' ∉ p) → comps ≠ [] →
    ∃ x, (List.intercalate ['/'] comps).getLast? = some x ∧ x ≠ '/' := by
  intro comps
  induction comps with
  | nil => exact fun _ hne => absurd rfl hne
  | cons d ds ih =>
    intro h _
    cases ds with
    | nil =>
      rw [intercalate_one]
      have hd := h d (List.mem_cons_self d _)
      cases hg : d.getLast? with
      | none => exact absurd (List.getLast?_eq_none_iff.mp hg) hd.1
      | some x =>
        have hxd : x ∈ d := List.mem_of_mem_getLast? (by rw [hg]; rfl)
        exact ⟨x, rfl, fun hx => hd.2 (by rw [← hx]; exact hxd)⟩
    | cons e es =>
      rw [intercalate_cons₂ ['/'] d (e :: es) (by simp)]
      obtain ⟨x, hx, hxs⟩ := ih (fun p hp => h p (List.mem_cons_of_mem d hp)) (by simp)
      refine ⟨x, ?_, hxs⟩
      rw [List.append_assoc, List.getLast?_append, List.getLast?_append, hx]
      rfl

/-- `normpath` on the canonical path shape drops only the trailing slash. -/
theorem normpath_pathNF (k : Nat) (comps : List PStr) (tr : Bool)
    (hk1 : 1 ≤ k) (hk2 : k ≤ 2) (hcomps : ∀ c ∈ comps, goodComp c) (hne : comps ≠ []) :
    normpath (pathNF k comps tr) =
      List.replicate k '/' ++ List.intercalate ['/'] comps := by
  obtain ⟨c1, cs, rfl⟩ : ∃ c1 cs, comps = c1 :: cs := by
    cases comps with
    | nil => exact absurd rfl hne
    | cons a b => exact ⟨a, b, rfl⟩
  obtain ⟨ch, c1t, rfl⟩ : ∃ ch c1t, c1 = ch :: c1t := by
    cases c1 with
    | nil => exact absurd rfl (hcomps [] (List.mem_cons_self _ _)).1
    | cons a b => exact ⟨a, b, rfl⟩
  have hch : ch ≠ '/' := by
    intro h
    apply (hcomps (ch :: c1t) (List.mem_cons_self _ _)).2.2.2
    rw [← h]
    exact List.mem_cons_self ch c1t
  obtain ⟨Y, hY⟩ := intercalate_head (ch :: c1t) cs
  have hsplit := splitChar_pathNF k ((ch :: c1t) :: cs) tr
    (fun c hc => ⟨(hcomps c hc).1, (hcomps c hc).2.2.2⟩) (by simp)
  rw [List.append_assoc] at hsplit
  obtain ⟨R, hpR⟩ : ∃ R, pathNF k ((ch :: c1t) :: cs) tr =
      List.replicate k '/' ++ ch :: R := by
    refine ⟨c1t ++ (Y ++ (if tr then ['/'] else [])), ?_⟩
    unfold pathNF
    rw [hY]
    simp
  have hfold : List.foldl (normStep k) []
      (splitChar '/' (pathNF k ((ch :: c1t) :: cs) tr)) =
      (ch :: c1t) :: cs := by
    rw [hsplit, foldl_normStep_replicate]
    cases tr with
    | false =>
      rw [show (if (false : Bool) = true then ([[]] : List PStr) else []) = []
        from by simp, List.append_nil]
      rw [foldl_normStep_good k ((ch :: c1t) :: cs) [] hcomps, List.nil_append]
    | true =>
      rw [show (if (true : Bool) = true then ([[]] : List PStr) else []) = [[]]
        from by simp, foldl_normStep_trailing]
      rw [foldl_normStep_good k ((ch :: c1t) :: cs) [] hcomps, List.nil_append]
  rcases (by omega : k = 1 ∨ k = 2) with rfl | rfl
  · have hp1 : pathNF 1 ((ch :: c1t) :: cs) tr = '/' :: ch :: R := by
      rw [hpR]
      rfl
    rw [hp1] at hfold
    rw [hp1]
    simp only [normpath]
    rw [if_neg (List.cons_ne_nil _ _)]
    have hc2 : ¬(('/' :: ch :: R).take 2 = ['/', '/'] ∧
        ¬ (('/' :: ch :: R).take 3 = ['/', '/', '/'])) := by
      rintro ⟨h1, _⟩
      simp [List.take] at h1
      exact hch h1
    have ht1 : ('/' :: ch :: R).take 1 = ['/'] := rfl
    rw [if_pos ht1, if_neg hc2, hfold]
    rw [if_neg (by simp)]
  · have hp2 : pathNF 2 ((ch :: c1t) :: cs) tr = '/' :: '/' :: ch :: R := by
      rw [hpR]
      rfl
    rw [hp2] at hfold
    rw [hp2]
    simp only [normpath]
    rw [if_neg (List.cons_ne_nil _ _)]
    have hc2 : (('/' :: '/' :: ch :: R).take 2 = ['/', '/'] ∧
        ¬ (('/' :: '/' :: ch :: R).take 3 = ['/', '/', '/'])) := by
      refine ⟨rfl, ?_⟩
      intro h1
      simp [List.take] at h1
      exact hch h1
    have ht1 : ('/' :: '/' :: ch :: R).take 1 = ['/'] := rfl
    rw [if_pos ht1, if_pos hc2, hfold]
    rw [if_neg (by simp)]

/-- `_normalize_path` fixes the canonical path shape. -/
theorem normalize_path_fixed (k : Nat) (comps : List PStr) (tr : Bool)
    (hk1 : 1 ≤ k) (hk2 : k ≤ 2) (hcomps : ∀ c ∈ comps, goodComp c)
    (hem : comps = [] → k = 1 ∧ tr = false) :
    _normalize_path (pathNF k comps tr) = pathNF k comps tr := by
  cases comps with
  | nil =>
    obtain ⟨rfl, rfl⟩ := hem rfl
    decide
  | cons c1 cs =>
    have hne : (c1 :: cs : List PStr) ≠ [] := by simp
    obtain ⟨ch, c1t, rfl⟩ : ∃ ch c1t, c1 = ch :: c1t := by
      cases c1 with
      | nil => exact absurd rfl (hcomps [] (List.mem_cons_self _ _)).1
      | cons a b => exact ⟨a, b, rfl⟩
    have hch : ch ≠ '/' := by
      intro h
      apply (hcomps (ch :: c1t) (List.mem_cons_self _ _)).2.2.2
      rw [← h]
      exact List.mem_cons_self ch c1t
    have hchmem : ch ∈ List.intercalate ['/'] ((ch :: c1t) :: cs) := by
      obtain ⟨Y, hY⟩ := intercalate_head (ch :: c1t) cs
      rw [hY]
      exact List.mem_append_left _ (List.mem_cons_self _ _)
    have hn1 := normpath_pathNF k ((ch :: c1t) :: cs) tr hk1 hk2 hcomps hne
    obtain ⟨x, hx, hxs⟩ := intercalate_getLast ((ch :: c1t) :: cs)
      (fun p hp => ⟨(hcomps p hp).1, (hcomps p hp).2.2.2⟩) hne
    have hn1last : (List.replicate k '/' ++
        List.intercalate ['/'] ((ch :: c1t) :: cs)).getLast? = some x := by
      rw [List.getLast?_append, hx]
      rfl
    have ht : (List.replicate k '/' ++
        List.intercalate ['/'] ((ch :: c1t) :: cs)).take 1 = ['/'] := by
      rcases (by omega : k = 1 ∨ k = 2) with rfl | rfl
      · rfl
      · rfl
    have hgx : ¬((List.replicate k '/' ++
        List.intercalate ['/'] ((ch :: c1t) :: cs)).getLast? = some '/') := by
      intro h
      exact hxs (Option.some.inj (hn1last.symm.trans h))
    cases tr with
    | false =>
      have hp : pathNF k ((ch :: c1t) :: cs) false =
          List.replicate k '/' ++ List.intercalate ['/'] ((ch :: c1t) :: cs) := by
        unfold pathNF
        simp
      rw [hp] at hn1 ⊢
      have hne0 : List.replicate k '/' ++
          List.intercalate ['/'] ((ch :: c1t) :: cs) ≠ [] := by
        intro h
        rw [h] at ht
        simp at ht
      have hne22 : List.replicate k '/' ++
          List.intercalate ['/'] ((ch :: c1t) :: cs) ≠ ['/', '/'] := by
        intro h
        have hm : ch ∈ (['/', '/'] : PStr) := by
          rw [← h]
          exact List.mem_append_right _ hchmem
        simp at hm
        exact hch hm
      simp only [_normalize_path]
      rw [if_neg hne0, hn1, if_neg (not_not_intro ht)]
      have hc3 : ¬(((List.replicate k '/' ++
          List.intercalate ['/'] ((ch :: c1t) :: cs)).getLast? = some '/') ∧
          ¬((List.replicate k '/' ++
          List.intercalate ['/'] ((ch :: c1t) :: cs)).getLast? = some '/')) :=
        fun hand => hgx hand.1
      rw [if_neg hc3, if_neg hne22]
    | true =>
      have hp : pathNF k ((ch :: c1t) :: cs) true =
          (List.replicate k '/' ++ List.intercalate ['/'] ((ch :: c1t) :: cs)) ++
            ['/'] := by
        unfold pathNF
        simp
      rw [hp] at hn1 ⊢
      have hne0 : (List.replicate k '/' ++
          List.intercalate ['/'] ((ch :: c1t) :: cs)) ++ ['/'] ≠ [] := by simp
      have hg2 : ((List.replicate k '/' ++
          List.intercalate ['/'] ((ch :: c1t) :: cs)) ++ ['/']).getLast? =
          some '/' := by
        rw [List.getLast?_append]
        rfl
      have hne22 : (List.replicate k '/' ++
          List.intercalate ['/'] ((ch :: c1t) :: cs)) ++ ['/'] ≠ ['/', '/'] := by
        intro h
        have hm : ch ∈ (['/', '/'] : PStr) := by
          rw [← h]
          exact List.mem_append_left _ (List.mem_append_right _ hchmem)
        simp at hm
        exact hch hm
      simp only [_normalize_path]
      rw [if_neg hne0, hn1, if_neg (not_not_intro ht)]
      have hc3 : (((List.replicate k '/' ++
          List.intercalate ['/'] ((ch :: c1t) :: cs)) ++ ['/']).getLast? =
          some '/') ∧
          ¬((List.replicate k '/' ++
          List.intercalate ['/'] ((ch :: c1t) :: cs)).getLast? = some '/') :=
        ⟨hg2, hgx⟩
      rw [if_pos hc3, if_neg hne22]

/-- The component fold preserves goodness and character origin when the
path is absolute. -/
theorem foldl_normStep_inv (isl : Nat) (hisl : isl ≠ 0) (P : Char → Prop) :
    ∀ (parts : List PStr) (acc : List PStr),
    (∀ c ∈ acc, goodComp c ∧ ∀ ch ∈ c, P ch) →
    (∀ c ∈ parts, '/' ∉ c ∧ ∀ ch ∈ c, P ch) →
    ∀ c ∈ List.foldl (normStep isl) acc parts, goodComp c ∧ ∀ ch ∈ c, P ch := by
  intro parts
  induction parts with
  | nil =>
    intro acc hacc _ c hc
    exact hacc c hc
  | cons q qs ih =>
    intro acc hacc hparts
    rw [List.foldl_cons]
    refine ih (normStep isl acc q) ?_ (fun c hc => hparts c (List.mem_cons_of_mem q hc))
    intro c hc
    unfold normStep at hc
    by_cases h1 : q = [] ∨ q = ['.']
    · rw [if_pos h1] at hc
      exact hacc c hc
    · rw [if_neg h1] at hc
      by_cases h2 : q ≠ ['.', '.'] ∨ (isl = 0 ∧ acc = []) ∨
          (acc ≠ [] ∧ acc.getLast? = some ['.', '.'])
      · rw [if_pos h2] at hc
        rcases List.mem_append.mp hc with hca | hcq
        · exact hacc c hca
        · have hcq2 : c = q := by simpa using hcq
          have hq2 : q ≠ ['.', '.'] := by
            rcases h2 with h | h | h
            · exact h
            · exact absurd h.1 hisl
            · exact absurd rfl
                (hacc ['.', '.'] (List.mem_of_mem_getLast? (by rw [h.2]; rfl))).1.2.2.1
          have hqp := hparts q (List.mem_cons_self q _)
          rw [hcq2]
          exact ⟨⟨fun hh => h1 (Or.inl hh), fun hh => h1 (Or.inr hh), hq2, hqp.1⟩, hqp.2⟩
      · rw [if_neg h2] at hc
        by_cases h3 : acc ≠ []
        · rw [if_pos h3] at hc
          exact hacc c (List.dropLast_subset acc hc)
        · rw [if_neg h3] at hc
          exact hacc c hc

/-- `normpath` output shape for an absolute path. -/
theorem normpath_shape (p0 : PStr) (h : p0.take 1 = ['/']) :
    ∃ k comps, 1 ≤ k ∧ k ≤ 2 ∧ (∀ c ∈ comps, goodComp c) ∧
      (∀ c ∈ comps, ∀ ch ∈ c, ch ∈ p0) ∧
      normpath p0 = List.replicate k '/' ++ List.intercalate ['/'] comps := by
  have hne : p0 ≠ [] := by
    intro hh
    rw [hh] at h
    simp at h
  by_cases h2 : p0.take 2 = ['/', '/'] ∧ ¬ (p0.take 3 = ['/', '/', '/'])
  · have hinv := foldl_normStep_inv 2 (by omega) (fun ch => ch ∈ p0)
      (splitChar '/' p0) []
      (fun c hc => absurd hc (List.not_mem_nil c))
      (fun c hc => ⟨splitChar_sep_not_mem '/' p0 c hc,
        fun ch hch => splitChar_sub '/' p0 c hc ch hch⟩)
    refine ⟨2, List.foldl (normStep 2) [] (splitChar '/' p0), by omega, by omega,
      fun c hc => (hinv c hc).1, fun c hc => (hinv c hc).2, ?_⟩
    simp only [normpath]
    rw [if_neg hne, if_pos h, if_pos h2]
    rw [if_neg (by simp)]
  · have hinv := foldl_normStep_inv 1 (by omega) (fun ch => ch ∈ p0)
      (splitChar '/' p0) []
      (fun c hc => absurd hc (List.not_mem_nil c))
      (fun c hc => ⟨splitChar_sep_not_mem '/' p0 c hc,
        fun ch hch => splitChar_sub '/' p0 c hc ch hch⟩)
    refine ⟨1, List.foldl (normStep 1) [] (splitChar '/' p0), by omega, by omega,
      fun c hc => (hinv c hc).1, fun c hc => (hinv c hc).2, ?_⟩
    simp only [normpath]
    rw [if_neg hne, if_pos h, if_neg h2]
    rw [if_neg (by simp)]

/-- Characters of the canonical path shape are slashes or component characters. -/
theorem pathNF_chars (k : Nat) (comps : List PStr) (tr : Bool) (P : Char → Prop)
    (h : ∀ c ∈ comps, ∀ ch ∈ c, P ch) :
    ∀ ch ∈ pathNF k comps tr, ch = '/' ∨ P ch := by
  intro ch hch
  unfold pathNF at hch
  rcases List.mem_append.mp hch with h1 | h2
  · rcases List.mem_append.mp h1 with h3 | h4
    · exact Or.inl (List.eq_of_mem_replicate h3)
    · rcases mem_intercalate ['/'] comps ch h4 with h5 | ⟨p, hp, hchp⟩
      · exact Or.inl (by simpa using h5)
      · exact Or.inr (h p hp ch hchp)
  · cases tr with
    | true => exact Or.inl (by simpa using h2)
    | false => exact absurd h2 (by simp)

/-- The canonical path shape starts with a slash. -/
theorem pathNF_take1 (k : Nat) (comps : List PStr) (tr : Bool) (hk : 1 ≤ k) :
    (pathNF k comps tr).take 1 = ['/'] := by
  unfold pathNF
  cases k with
  | zero => omega
  | succ m => rfl

/-- `_normalize_path` always produces the canonical path shape (for an empty
or absolute input), with characters drawn from the input or slashes. -/
theorem normalize_path_shape (p0 : PStr) (h : p0 = [] ∨ p0.take 1 = ['/']) :
    ∃ k comps tr, _normalize_path p0 = pathNF k comps tr ∧ 1 ≤ k ∧ k ≤ 2 ∧
      (∀ c ∈ comps, goodComp c) ∧ (comps = [] → k = 1 ∧ tr = false) ∧
      (∀ ch ∈ _normalize_path p0, ch = '/' ∨ ch ∈ p0) := by
  rcases h with rfl | h
  · have hmain : _normalize_path [] = pathNF 1 [] false := by decide
    refine ⟨1, [], false, hmain, by omega, by omega,
      fun c hc => absurd hc (List.not_mem_nil c), fun _ => ⟨rfl, rfl⟩, ?_⟩
    intro ch hch
    rw [hmain, show pathNF 1 [] false = ['/'] from by decide] at hch
    exact Or.inl (by simpa using hch)
  · obtain ⟨k, comps, hk1, hk2, hgood, horig, hnp⟩ := normpath_shape p0 h
    have hne : p0 ≠ [] := by
      intro hh
      rw [hh] at h
      simp at h
    have ht : (List.replicate k '/' ++ List.intercalate ['/'] comps).take 1 =
        ['/'] := by
      rcases (by omega : k = 1 ∨ k = 2) with rfl | rfl
      · rfl
      · rfl
    cases comps with
    | nil =>
      have hn1 : normpath p0 = List.replicate k '/' := by
        rw [hnp]
        simp [List.intercalate]
      have ht2 : (List.replicate k '/').take 1 = ['/'] := by
        rcases (by omega : k = 1 ∨ k = 2) with rfl | rfl
        · rfl
        · rfl
      have hg : (List.replicate k '/').getLast? = some '/' := by
        rcases (by omega : k = 1 ∨ k = 2) with rfl | rfl
        · rfl
        · rfl
      have hmain : _normalize_path p0 = pathNF 1 [] false := by
        simp only [_normalize_path]
        rw [if_neg hne, hn1, if_neg (not_not_intro ht2)]
        have hc3 : ¬((p0.getLast? = some '/') ∧
            ¬((List.replicate k '/').getLast? = some '/')) := fun hand => hand.2 hg
        rw [if_neg hc3]
        rcases (by omega : k = 1 ∨ k = 2) with rfl | rfl
        · rw [if_neg (show ¬(List.replicate 1 '/' = ['/', '/']) from by decide)]
          rfl
        · rw [if_pos (show List.replicate 2 '/' = ['/', '/'] from by decide)]
          rfl
      refine ⟨1, [], false, hmain, by omega, by omega,
        fun c hc => absurd hc (List.not_mem_nil c), fun _ => ⟨rfl, rfl⟩, ?_⟩
      intro ch hch
      rw [hmain, show pathNF 1 [] false = ['/'] from by decide] at hch
      exact Or.inl (by simpa using hch)
    | cons c1 cs =>
      obtain ⟨ch, c1t, rfl⟩ : ∃ ch c1t, c1 = ch :: c1t := by
        cases c1 with
        | nil => exact absurd rfl (hgood [] (List.mem_cons_self _ _)).1
        | cons a b => exact ⟨a, b, rfl⟩
      have hch : ch ≠ '/' := by
        intro hh
        apply (hgood (ch :: c1t) (List.mem_cons_self _ _)).2.2.2
        rw [← hh]
        exact List.mem_cons_self ch c1t
      have hchmem : ch ∈ List.intercalate ['/'] ((ch :: c1t) :: cs) := by
        obtain ⟨Y, hY⟩ := intercalate_head (ch :: c1t) cs
        rw [hY]
        exact List.mem_append_left _ (List.mem_cons_self _ _)
      obtain ⟨x, hx, hxs⟩ := intercalate_getLast ((ch :: c1t) :: cs)
        (fun p hp => ⟨(hgood p hp).1, (hgood p hp).2.2.2⟩) (by simp)
      have hgx : ¬((List.replicate k '/' ++
          List.intercalate ['/'] ((ch :: c1t) :: cs)).getLast? = some '/') := by
        intro hh
        apply hxs
        apply Option.some.inj
        rw [← hh, List.getLast?_append, hx]
        rfl
      by_cases htr : p0.getLast? = some '/'
      · have hp' : pathNF k ((ch :: c1t) :: cs) true =
            (List.replicate k '/' ++ List.intercalate ['/'] ((ch :: c1t) :: cs)) ++
              ['/'] := by
          unfold pathNF
          simp
        have hne22 : (List.replicate k '/' ++
            List.intercalate ['/'] ((ch :: c1t) :: cs)) ++ ['/'] ≠ ['/', '/'] := by
          intro hh
          have hm : ch ∈ (['/', '/'] : PStr) := by
            rw [← hh]
            exact List.mem_append_left _ (List.mem_append_right _ hchmem)
          simp at hm
          exact hch hm
        have hmain : _normalize_path p0 = pathNF k ((ch :: c1t) :: cs) true := by
          simp only [_normalize_path]
          rw [if_neg hne, hnp, if_neg (not_not_intro ht)]
          have hc3 : (p0.getLast? = some '/') ∧
              ¬((List.replicate k '/' ++
              List.intercalate ['/'] ((ch :: c1t) :: cs)).getLast? = some '/') :=
            ⟨htr, hgx⟩
          rw [if_pos hc3, if_neg hne22, hp']
        refine ⟨k, (ch :: c1t) :: cs, true, hmain, hk1, hk2, hgood,
          fun hh => absurd hh (by simp), ?_⟩
        intro d hd
        rw [hmain] at hd
        exact pathNF_chars k ((ch :: c1t) :: cs) true (fun e => e ∈ p0) horig d hd
      · have hp' : pathNF k ((ch :: c1t) :: cs) false =
            List.replicate k '/' ++ List.intercalate ['/'] ((ch :: c1t) :: cs) := by
          unfold pathNF
          simp
        have hne22 : List.replicate k '/' ++
            List.intercalate ['/'] ((ch :: c1t) :: cs) ≠ ['/', '/'] := by
          intro hh
          have hm : ch ∈ (['/', '/'] : PStr) := by
            rw [← hh]
            exact List.mem_append_right _ hchmem
          simp at hm
          exact hch hm
        have hmain : _normalize_path p0 = pathNF k ((ch :: c1t) :: cs) false := by
          simp only [_normalize_path]
          rw [if_neg hne, hnp, if_neg (not_not_intro ht)]
          have hc3 : ¬((p0.getLast? = some '/') ∧
              ¬((List.replicate k '/' ++
              List.intercalate ['/'] ((ch :: c1t) :: cs)).getLast? = some '/')) :=
            fun hand => htr hand.1
          rw [if_neg hc3, if_neg hne22, hp']
        refine ⟨k, (ch :: c1t) :: cs, false, hmain, hk1, hk2, hgood,
          fun hh => absurd hh (by simp), ?_⟩
        intro d hd
        rw [hmain] at hd
        exact pathNF_chars k ((ch :: c1t) :: cs) false (fun e => e ∈ p0) horig d hd

/-- One decode step never produces leftover bytes beyond its input. -/
theorem utf8Step_snd_length (b : Nat) (rest : List Nat) :
    (utf8Step b rest).2.length ≤ rest.length := by
  cases rest with
  | nil =>
    simp only [utf8Step]
    split_ifs <;> simp <;> omega
  | cons b1 r1 =>
    cases r1 with
    | nil =>
      simp only [utf8Step]
      split_ifs <;> simp <;> omega
    | cons b2 r2 =>
      cases r2 with
      | nil =>
        simp only [utf8Step]
        split_ifs <;> simp <;> omega
      | cons b3 r3 =>
        simp only [utf8Step]
        split_ifs <;> simp <;> omega

/-- The decode loop is fuel-insensitive once the fuel covers the input. -/
theorem utf8F_congr : ∀ (f1 : Nat) (l : List Nat) (f2 : Nat), l.length ≤ f1 →
    l.length ≤ f2 → utf8DecodeReplaceF f1 l = utf8DecodeReplaceF f2 l := by
  intro f1
  induction f1 with
  | zero =>
    intro l f2 h1 _
    have hl : l = [] := by
      cases l with
      | nil => rfl
      | cons a r => simp at h1
    subst hl
    cases f2 <;> rfl
  | succ f ih =>
    intro l f2 h1 h2
    cases l with
    | nil => cases f2 <;> rfl
    | cons b rest =>
      cases f2 with
      | zero => simp at h2
      | succ f2p =>
        show (utf8Step b rest).1 :: utf8DecodeReplaceF f (utf8Step b rest).2 =
          (utf8Step b rest).1 :: utf8DecodeReplaceF f2p (utf8Step b rest).2
        have hlen := utf8Step_snd_length b rest
        have hr1 : rest.length ≤ f := by
          simp at h1
          omega
        have hr2 : rest.length ≤ f2p := by
          simp at h2
          omega
        rw [ih (utf8Step b rest).2 f2p (le_trans hlen hr1) (le_trans hlen hr2)]

/-- Decoding a valid UTF-8 encoding of one character prepends that
character. -/
theorem utf8_decode_encode_cons (c : Char) (bs : List Nat) :
    utf8DecodeReplace (utf8EncodeChar c ++ bs) = c :: utf8DecodeReplace bs := by
  have hv : c.toNat < 55296 ∨ 57343 < c.toNat ∧ c.toNat < 1114112 := c.valid
  by_cases h1 : c.toNat < 0x80
  · rw [show utf8EncodeChar c = [c.toNat] from by unfold utf8EncodeChar; rw [if_pos h1]]
    rw [List.cons_append, List.nil_append]
    have hstep : utf8Step c.toNat bs = (c, bs) := by
      simp only [utf8Step]
      rw [if_pos h1, Char.ofNat_toNat]
    show utf8DecodeReplaceF (c.toNat :: bs).length (c.toNat :: bs) =
      c :: utf8DecodeReplace bs
    rw [show (c.toNat :: bs).length = bs.length + 1 from rfl]
    rw [show utf8DecodeReplaceF (bs.length + 1) (c.toNat :: bs) =
      (utf8Step c.toNat bs).1 ::
        utf8DecodeReplaceF bs.length (utf8Step c.toNat bs).2 from rfl]
    rw [hstep]
    rfl
  · by_cases h2 : c.toNat < 0x800
    · rw [show utf8EncodeChar c = [0xC0 + c.toNat / 64, 0x80 + c.toNat % 64] from by
        unfold utf8EncodeChar
        rw [if_neg h1, if_pos h2]]
      rw [List.cons_append, List.cons_append, List.nil_append]
      have hstep : utf8Step (0xC0 + c.toNat / 64) ((0x80 + c.toNat % 64) :: bs) =
          (c, bs) := by
        simp only [utf8Step]
        rw [if_neg (by omega), if_pos (by constructor <;> omega)]
        rw [if_pos (by simp [isCont]; omega)]
        rw [show (0xC0 + c.toNat / 64 - 0xC0) * 64 + (0x80 + c.toNat % 64 - 0x80) =
          c.toNat from by omega, Char.ofNat_toNat]
      show utf8DecodeReplaceF ((0xC0 + c.toNat / 64) :: (0x80 + c.toNat % 64) ::
        bs).length ((0xC0 + c.toNat / 64) :: (0x80 + c.toNat % 64) :: bs) =
        c :: utf8DecodeReplace bs
      rw [show ((0xC0 + c.toNat / 64) :: (0x80 + c.toNat % 64) :: bs).length =
        (bs.length + 1) + 1 from rfl]
      rw [show utf8DecodeReplaceF ((bs.length + 1) + 1)
        ((0xC0 + c.toNat / 64) :: (0x80 + c.toNat % 64) :: bs) =
        (utf8Step (0xC0 + c.toNat / 64) ((0x80 + c.toNat % 64) :: bs)).1 ::
          utf8DecodeReplaceF (bs.length + 1)
            (utf8Step (0xC0 + c.toNat / 64) ((0x80 + c.toNat % 64) :: bs)).2
        from rfl]
      rw [hstep]
      show c :: utf8DecodeReplaceF (bs.length + 1) bs = c :: utf8DecodeReplace bs
      rw [utf8F_congr (bs.length + 1) bs bs.length (by omega) (le_refl _)]
      rfl
    · by_cases h3 : c.toNat < 0x10000
      · rw [show utf8EncodeChar c = [0xE0 + c.toNat / 4096,
            0x80 + (c.toNat / 64) % 64, 0x80 + c.toNat % 64] from by
          unfold utf8EncodeChar
          rw [if_neg h1, if_neg h2, if_pos h3]]
        rw [List.cons_append, List.cons_append, List.cons_append, List.nil_append]
        have hstep : utf8Step (0xE0 + c.toNat / 4096)
            ((0x80 + c.toNat / 64 % 64) :: (0x80 + c.toNat % 64) :: bs) =
            (c, bs) := by
          simp only [utf8Step]
          rw [if_neg (by omega), if_neg (by omega), if_pos (by constructor <;> omega)]
          rw [if_pos (by
            refine ⟨fun hb => by omega, fun hb => by omega, ?_, ?_⟩
            · simp [isCont]
              omega
            · simp [isCont]
              omega)]
          rw [show (0xE0 + c.toNat / 4096 - 0xE0) * 4096 +
            (0x80 + c.toNat / 64 % 64 - 0x80) * 64 + (0x80 + c.toNat % 64 - 0x80) =
            c.toNat from by omega, Char.ofNat_toNat]
        show utf8DecodeReplaceF ((0xE0 + c.toNat / 4096) ::
          (0x80 + c.toNat / 64 % 64) :: (0x80 + c.toNat % 64) :: bs).length
          ((0xE0 + c.toNat / 4096) :: (0x80 + c.toNat / 64 % 64) ::
            (0x80 + c.toNat % 64) :: bs) = c :: utf8DecodeReplace bs
        rw [show ((0xE0 + c.toNat / 4096) :: (0x80 + c.toNat / 64 % 64) ::
          (0x80 + c.toNat % 64) :: bs).length = ((bs.length + 1) + 1) + 1 from rfl]
        rw [show utf8DecodeReplaceF (((bs.length + 1) + 1) + 1)
          ((0xE0 + c.toNat / 4096) :: (0x80 + c.toNat / 64 % 64) ::
            (0x80 + c.toNat % 64) :: bs) =
          (utf8Step (0xE0 + c.toNat / 4096)
            ((0x80 + c.toNat / 64 % 64) :: (0x80 + c.toNat % 64) :: bs)).1 ::
            utf8DecodeReplaceF ((bs.length + 1) + 1)
              (utf8Step (0xE0 + c.toNat / 4096)
                ((0x80 + c.toNat / 64 % 64) :: (0x80 + c.toNat % 64) :: bs)).2
          from rfl]
        rw [hstep]
        show c :: utf8DecodeReplaceF ((bs.length + 1) + 1) bs =
          c :: utf8DecodeReplace bs
        rw [utf8F_congr ((bs.length + 1) + 1) bs bs.length (by omega) (le_refl _)]
        rfl
      · rw [show utf8EncodeChar c = [0xF0 + c.toNat / 262144,
            0x80 + (c.toNat / 4096) % 64, 0x80 + (c.toNat / 64) % 64,
            0x80 + c.toNat % 64] from by
          unfold utf8EncodeChar
          rw [if_neg h1, if_neg h2, if_neg h3]]
        rw [List.cons_append, List.cons_append, List.cons_append, List.cons_append,
          List.nil_append]
        have hstep : utf8Step (0xF0 + c.toNat / 262144)
            ((0x80 + c.toNat / 4096 % 64) :: (0x80 + c.toNat / 64 % 64) ::
              (0x80 + c.toNat % 64) :: bs) = (c, bs) := by
          simp only [utf8Step]
          rw [if_neg (by omega), if_neg (by omega), if_neg (by omega),
            if_pos (by constructor <;> omega)]
          rw [if_pos (by
            refine ⟨fun hb => by omega, fun hb => by omega, ?_, ?_, ?_⟩
            · simp [isCont]
              omega
            · simp [isCont]
              omega
            · simp [isCont]
              omega)]
          rw [show (0xF0 + c.toNat / 262144 - 0xF0) * 262144 +
            (0x80 + c.toNat / 4096 % 64 - 0x80) * 4096 +
            (0x80 + c.toNat / 64 % 64 - 0x80) * 64 + (0x80 + c.toNat % 64 - 0x80) =
            c.toNat from by omega, Char.ofNat_toNat]
        show utf8DecodeReplaceF ((0xF0 + c.toNat / 262144) ::
          (0x80 + c.toNat / 4096 % 64) :: (0x80 + c.toNat / 64 % 64) ::
          (0x80 + c.toNat % 64) :: bs).length
          ((0xF0 + c.toNat / 262144) :: (0x80 + c.toNat / 4096 % 64) ::
            (0x80 + c.toNat / 64 % 64) :: (0x80 + c.toNat % 64) :: bs) =
          c :: utf8DecodeReplace bs
        rw [show ((0xF0 + c.toNat / 262144) :: (0x80 + c.toNat / 4096 % 64) ::
          (0x80 + c.toNat / 64 % 64) :: (0x80 + c.toNat % 64) :: bs).length =
          (((bs.length + 1) + 1) + 1) + 1 from rfl]
        rw [show utf8DecodeReplaceF ((((bs.length + 1) + 1) + 1) + 1)
          ((0xF0 + c.toNat / 262144) :: (0x80 + c.toNat / 4096 % 64) ::
            (0x80 + c.toNat / 64 % 64) :: (0x80 + c.toNat % 64) :: bs) =
          (utf8Step (0xF0 + c.toNat / 262144)
            ((0x80 + c.toNat / 4096 % 64) :: (0x80 + c.toNat / 64 % 64) ::
              (0x80 + c.toNat % 64) :: bs)).1 ::
            utf8DecodeReplaceF (((bs.length + 1) + 1) + 1)
              (utf8Step (0xF0 + c.toNat / 262144)
                ((0x80 + c.toNat / 4096 % 64) :: (0x80 + c.toNat / 64 % 64) ::
                  (0x80 + c.toNat % 64) :: bs)).2
          from rfl]
        rw [hstep]
        show c :: utf8DecodeReplaceF (((bs.length + 1) + 1) + 1) bs =
          c :: utf8DecodeReplace bs
        rw [utf8F_congr (((bs.length + 1) + 1) + 1) bs bs.length (by omega)
          (le_refl _)]
        rfl

/-- Decoding inverts encoding. -/
theorem utf8_decode_encode (t : PStr) : utf8DecodeReplace (utf8Encode t) = t := by
  induction t with
  | nil => rfl
  | cons c rest ih =>
    show utf8DecodeReplace (utf8EncodeChar c ++ utf8Encode rest) = c :: rest
    rw [utf8_decode_encode_cons, ih]

set_option maxRecDepth 10000 in
/-- Each escape digit pair decodes back to its byte. -/
theorem escRound : ∀ b < 256, isHexDigit (hexDigits.getD (b / 16 % 16) '0') ∧
    isHexDigit (hexDigits.getD (b % 16) '0') ∧
    hexVal (hexDigits.getD (b / 16 % 16) '0') (hexDigits.getD (b % 16) '0') = b := by
  decide

/-- `utf8Encode` is an append homomorphism. -/
theorem utf8Encode_append (xs ys : PStr) :
    utf8Encode (xs ++ ys) = utf8Encode xs ++ utf8Encode ys := by
  induction xs with
  | nil => rfl
  | cons c r ih =>
    show utf8EncodeChar c ++ utf8Encode (r ++ ys) = _
    rw [ih, ← List.append_assoc]
    rfl

/-- `quoteBytes` distributes over append. -/
theorem quoteBytes_append (safe : PStr) (xs ys : List Nat) :
    quoteBytes safe (xs ++ ys) = quoteBytes safe xs ++ quoteBytes safe ys := by
  induction xs with
  | nil => rfl
  | cons b r ih =>
    rw [List.cons_append]
    simp only [quoteBytes]
    rw [ih, List.append_assoc]

/-- `unqAux` on the empty input flushes the buffer. -/
theorem unqAux_nil (buf : List Nat) :
    unqAux buf [] = utf8DecodeReplace buf.reverse := rfl

/-- `unqAux` consumes a hex escape into the buffer. -/
theorem unqAux_esc (buf : List Nat) (a b : Char) (r : PStr)
    (ha : isHexDigit a) (hb : isHexDigit b) :
    unqAux buf ('%' :: a :: b :: r) = unqAux (hexVal a b :: buf) r := by
  simp [unqAux, ha, hb]

/-- `unqAux` passes a non-escape character through, flushing the buffer. -/
theorem unqAux_pass (buf : List Nat) (c : Char) (r : PStr) (hc : c ≠ '%') :
    unqAux buf (c :: r) = utf8DecodeReplace buf.reverse ++ c :: unqAux [] r := by
  cases r with
  | nil => simp [unqAux, hc]
  | cons a r2 =>
    cases r2 with
    | nil => simp [unqAux, hc]
    | cons b r3 => simp [unqAux, hc]

/-- A defaulted index into the hex-digit table is a hex digit. -/
theorem getD_hexDigits_mem (i : Nat) : hexDigits.getD i '0' ∈ hexDigits := by
  by_cases h : i < hexDigits.length
  · rw [List.getD_eq_getElem hexDigits '0' h]
    exact List.getElem_mem h
  · rw [List.getD_eq_default hexDigits '0' (by omega)]
    decide

/-- Characters emitted by `quoteBytes`. -/
theorem quoteBytes_chars (safe : PStr) : ∀ bs, ∀ ch ∈ quoteBytes safe bs,
    ch ∈ alwaysSafe ∨ ch ∈ safe ∨ ch = '%' ∨ ch ∈ hexDigits := by
  intro bs
  induction bs with
  | nil =>
    intro ch hch
    exact absurd hch (List.not_mem_nil ch)
  | cons b r ih =>
    intro ch hch
    simp only [quoteBytes] at hch
    rcases List.mem_append.mp hch with h1 | h2
    · by_cases hb : b < 0x80 ∧ (Char.ofNat b ∈ alwaysSafe ∨ Char.ofNat b ∈ safe)
      · rw [if_pos hb] at h1
        have hce : ch = Char.ofNat b := by simpa using h1
        rcases hb.2 with hs | hs
        · exact Or.inl (hce ▸ hs)
        · exact Or.inr (Or.inl (hce ▸ hs))
      · rw [if_neg hb] at h1
        unfold escTriple at h1
        rcases (by simpa using h1 : ch = '%' ∨ ch = hexDigits.getD (b / 16 % 16) '0' ∨
            ch = hexDigits.getD (b % 16) '0') with h | h | h
        · exact Or.inr (Or.inr (Or.inl h))
        · exact Or.inr (Or.inr (Or.inr (h ▸ getD_hexDigits_mem _)))
        · exact Or.inr (Or.inr (Or.inr (h ▸ getD_hexDigits_mem _)))
    · exact ih ch h2

/-- Characters emitted by `quote_plus`. -/
theorem pyQuotePlus_chars (s : PStr) : ∀ ch ∈ pyQuotePlus s,
    ch ∈ alwaysSafe ∨ ch = '+' ∨ ch = '%' ∨ ch ∈ hexDigits := by
  intro ch hch
  unfold pyQuotePlus pyQuote at hch
  by_cases hsp : ' ' ∈ s
  · rw [if_pos hsp] at hch
    obtain ⟨d, hd, hde⟩ := List.mem_map.mp hch
    by_cases hd2 : d = ' '
    · rw [← hde, if_pos hd2]
      exact Or.inr (Or.inl rfl)
    · rw [← hde, if_neg hd2]
      rcases quoteBytes_chars [' '] (utf8Encode s) d hd with h | h | h | h
      · exact Or.inl h
      · exact absurd (by simpa using h) hd2
      · exact Or.inr (Or.inr (Or.inl h))
      · exact Or.inr (Or.inr (Or.inr h))
  · rw [if_neg hsp] at hch
    rcases quoteBytes_chars [] (utf8Encode s) ch hch with h | h | h | h
    · exact Or.inl h
    · exact absurd h (List.not_mem_nil ch)
    · exact Or.inr (Or.inr (Or.inl h))
    · exact Or.inr (Or.inr (Or.inr h))

/-- `str.replace('+', ' ')` is the identity on plus-free strings. -/
theorem plusToSpace_id (s : PStr) (h : '+' ∉ s) : plusToSpace s = s := by
  induction s with
  | nil => rfl
  | cons c r ih =>
    have hc : c ≠ '+' := by
      intro he
      apply h
      rw [← he]
      exact List.mem_cons_self c r
    show (if c = '+' then ' ' else c) :: plusToSpace r = c :: r
    rw [if_neg hc, ih (fun hr => h (List.mem_cons_of_mem c hr))]

/-- `str.replace('+', ' ')` undoes the space-to-plus substitution on
plus-free strings. -/
theorem plus_space_cancel (s : PStr) (h : '+' ∉ s) :
    plusToSpace (s.map (fun c => if c = ' ' then '+' else c)) = s := by
  induction s with
  | nil => rfl
  | cons c r ih =>
    have hc : c ≠ '+' := by
      intro he
      apply h
      rw [← he]
      exact List.mem_cons_self c r
    rw [List.map_cons]
    show (if (if c = ' ' then '+' else c) = '+' then ' ' else
      (if c = ' ' then '+' else c)) :: plusToSpace (r.map _) = c :: r
    have hh : (if (if c = ' ' then '+' else c) = '+' then ' ' else
        (if c = ' ' then '+' else c)) = c := by
      by_cases hsp : c = ' '
      · simp [hsp]
      · simp [hsp, hc]
    rw [hh]
    have ht := ih (fun hr => h (List.mem_cons_of_mem c hr))
    rw [ht]

/-- A run of escaped bytes is collected into the buffer. -/
theorem unq_esc_run (safe : PStr) : ∀ (L : List Nat) (buf : List Nat) (X : PStr),
    (∀ b ∈ L, ¬(b < 0x80 ∧ (Char.ofNat b ∈ alwaysSafe ∨ Char.ofNat b ∈ safe)) ∧
      b < 256) →
    unqAux buf (quoteBytes safe L ++ X) = unqAux (L.reverse ++ buf) X := by
  intro L
  induction L with
  | nil =>
    intro buf X _
    rfl
  | cons b r ih =>
    intro buf X h
    have hb := h b (List.mem_cons_self b r)
    simp only [quoteBytes]
    rw [if_neg hb.1]
    unfold escTriple
    rw [List.append_assoc]
    obtain ⟨hh1, hh2, hh3⟩ := escRound b hb.2
    rw [show (['%', hexDigits.getD (b / 16 % 16) '0',
      hexDigits.getD (b % 16) '0'] : PStr) ++ (quoteBytes safe r ++ X) =
      '%' :: hexDigits.getD (b / 16 % 16) '0' :: hexDigits.getD (b % 16) '0' ::
        (quoteBytes safe r ++ X) from rfl]
    rw [unqAux_esc _ _ _ _ hh1 hh2, hh3]
    rw [ih (b :: buf) X (fun e he => h e (List.mem_cons_of_mem b he))]
    rw [List.reverse_cons, List.append_assoc]
    rfl

/-- Unquoting inverts quoting (with a pending decoded prefix). -/
theorem unq_quote_aux (safe : PStr)
    (hsafe : ∀ c ∈ safe, c ≠ '%' ∧ c.toNat < 0x80) :
    ∀ (s : PStr) (t : PStr),
    unqAux (utf8Encode t).reverse (quoteBytes safe (utf8Encode s)) = t ++ s := by
  intro s
  induction s with
  | nil =>
    intro t
    show unqAux (utf8Encode t).reverse [] = t ++ []
    rw [unqAux_nil, List.reverse_reverse, utf8_decode_encode, List.append_nil]
  | cons c rest ih =>
    intro t
    show unqAux (utf8Encode t).reverse
      (quoteBytes safe (utf8EncodeChar c ++ utf8Encode rest)) = t ++ c :: rest
    rw [quoteBytes_append]
    by_cases hraw : c.toNat < 0x80 ∧
        (Char.ofNat c.toNat ∈ alwaysSafe ∨ Char.ofNat c.toNat ∈ safe)
    · have henc : utf8EncodeChar c = [c.toNat] := by
        unfold utf8EncodeChar
        rw [if_pos hraw.1]
      rw [henc]
      have hq : quoteBytes safe [c.toNat] = [Char.ofNat c.toNat] := by
        simp only [quoteBytes]
        rw [if_pos hraw]
        rfl
      rw [hq, Char.ofNat_toNat]
      have hcp : c ≠ '%' := by
        intro he
        rcases hraw.2 with hs | hs
        · rw [Char.ofNat_toNat, he] at hs
          exact absurd hs (by decide)
        · rw [Char.ofNat_toNat] at hs
          exact (hsafe c hs).1 he
      rw [List.singleton_append, unqAux_pass _ c _ hcp]
      rw [List.reverse_reverse, utf8_decode_encode]
      have h0 := ih ([] : PStr)
      rw [show (utf8Encode ([] : PStr)).reverse = ([] : List Nat) from rfl] at h0
      rw [h0]
      simp
    · have hv : c.toNat < 55296 ∨ 57343 < c.toNat ∧ c.toNat < 1114112 := c.valid
      have hesc : ∀ b ∈ utf8EncodeChar c,
          ¬(b < 0x80 ∧ (Char.ofNat b ∈ alwaysSafe ∨ Char.ofNat b ∈ safe)) ∧
          b < 256 := by
        intro b hbm
        by_cases h1 : c.toNat < 0x80
        · rw [show utf8EncodeChar c = [c.toNat] from by
            unfold utf8EncodeChar; rw [if_pos h1]] at hbm
          have hbe : b = c.toNat := by simpa using hbm
          exact ⟨by rw [hbe]; exact hraw, by omega⟩
        · by_cases h2 : c.toNat < 0x800
          · rw [show utf8EncodeChar c = [0xC0 + c.toNat / 64, 0x80 + c.toNat % 64]
              from by unfold utf8EncodeChar; rw [if_neg h1, if_pos h2]] at hbm
            rcases (by simpa using hbm : b = 0xC0 + c.toNat / 64 ∨
                b = 0x80 + c.toNat % 64) with hbe | hbe
            · exact ⟨fun hand => absurd hand.1 (by omega), by omega⟩
            · exact ⟨fun hand => absurd hand.1 (by omega), by omega⟩
          · by_cases h3 : c.toNat < 0x10000
            · rw [show utf8EncodeChar c = [0xE0 + c.toNat / 4096,
                0x80 + (c.toNat / 64) % 64, 0x80 + c.toNat % 64] from by
                unfold utf8EncodeChar; rw [if_neg h1, if_neg h2, if_pos h3]] at hbm
              rcases (by simpa using hbm : b = 0xE0 + c.toNat / 4096 ∨
                  b = 0x80 + c.toNat / 64 % 64 ∨ b = 0x80 + c.toNat % 64)
                with hbe | hbe | hbe
              · exact ⟨fun hand => absurd hand.1 (by omega), by omega⟩
              · exact ⟨fun hand => absurd hand.1 (by omega), by omega⟩
              · exact ⟨fun hand => absurd hand.1 (by omega), by omega⟩
            · rw [show utf8EncodeChar c = [0xF0 + c.toNat / 262144,
                0x80 + (c.toNat / 4096) % 64, 0x80 + (c.toNat / 64) % 64,
                0x80 + c.toNat % 64] from by
                unfold utf8EncodeChar; rw [if_neg h1, if_neg h2, if_neg h3]] at hbm
              rcases (by simpa using hbm : b = 0xF0 + c.toNat / 262144 ∨
                  b = 0x80 + c.toNat / 4096 % 64 ∨ b = 0x80 + c.toNat / 64 % 64 ∨
                  b = 0x80 + c.toNat % 64) with hbe | hbe | hbe | hbe
              · exact ⟨fun hand => absurd hand.1 (by omega), by omega⟩
              · exact ⟨fun hand => absurd hand.1 (by omega), by omega⟩
              · exact ⟨fun hand => absurd hand.1 (by omega), by omega⟩
              · exact ⟨fun hand => absurd hand.1 (by omega), by omega⟩
      rw [unq_esc_run safe (utf8EncodeChar c) _ _ hesc]
      rw [show (utf8EncodeChar c).reverse ++ (utf8Encode t).reverse =
        (utf8Encode (t ++ [c])).reverse from by
        have h1 : utf8Encode [c] = utf8EncodeChar c := by
          show utf8EncodeChar c ++ utf8Encode [] = utf8EncodeChar c
          rw [show utf8Encode ([] : PStr) = [] from rfl, List.append_nil]
        rw [utf8Encode_append, h1, List.reverse_append]]
      rw [ih (t ++ [c])]
      simp

/-- `unquote_plus` inverts `quote_plus`. -/
theorem pyUnquotePlus_pyQuotePlus (s : PStr) : pyUnquotePlus (pyQuotePlus s) = s := by
  unfold pyUnquotePlus pyQuotePlus
  by_cases hsp : ' ' ∈ s
  · rw [if_pos hsp]
    have hplus : '+' ∉ pyQuote [' '] s := by
      intro hmem
      unfold pyQuote at hmem
      rcases quoteBytes_chars [' '] (utf8Encode s) '+' hmem with h | h | h | h
      · exact absurd h (by decide)
      · exact absurd h (by decide)
      · exact absurd h (by decide)
      · exact absurd h (by decide)
    rw [plus_space_cancel _ hplus]
    unfold pyQuote
    have hrt := unq_quote_aux [' ']
      (by
        intro c hc
        have hce : c = ' ' := by simpa using hc
        exact ⟨by rw [hce]; decide, by rw [hce]; decide⟩) s []
    rw [show (utf8Encode ([] : PStr)).reverse = ([] : List Nat) from rfl] at hrt
    rw [hrt]
    rfl
  · rw [if_neg hsp]
    have hplus : '+' ∉ pyQuote [] s := by
      intro hmem
      unfold pyQuote at hmem
      rcases quoteBytes_chars [] (utf8Encode s) '+' hmem with h | h | h | h
      · exact absurd h (by decide)
      · exact absurd h (List.not_mem_nil _)
      · exact absurd h (by decide)
      · exact absurd h (by decide)
    rw [plusToSpace_id _ hplus]
    unfold pyQuote
    have hrt := unq_quote_aux []
      (by
        intro c hc
        exact absurd hc (List.not_mem_nil c)) s []
    rw [show (utf8Encode ([] : PStr)).reverse = ([] : List Nat) from rfl] at hrt
    rw [hrt]
    rfl

/-- Python string `<` is irreflexive. -/
theorem strLtB_irrefl : ∀ a : PStr, strLtB a a = false := by
  intro a
  induction a with
  | nil => rfl
  | cons c r ih =>
    show strLtB (c :: r) (c :: r) = false
    simp only [strLtB]
    rw [if_neg (lt_irrefl c.toNat), if_neg (lt_irrefl c.toNat), ih]

/-- Python string `<` is asymmetric. -/
theorem strLtB_asymm : ∀ a b : PStr, strLtB a b = true → strLtB b a = false := by
  intro a
  induction a with
  | nil =>
    intro b h
    cases b with
    | nil => exact absurd h (by decide)
    | cons c r => rfl
  | cons c r ih =>
    intro b h
    cases b with
    | nil =>
      rw [show strLtB (c :: r) [] = false from rfl] at h
      exact absurd h (by simp)
    | cons d s =>
      show strLtB (d :: s) (c :: r) = false
      simp only [strLtB] at h ⊢
      by_cases h1 : c.toNat < d.toNat
      · rw [if_neg (by omega), if_pos h1]
      · rw [if_neg h1] at h
        by_cases h2 : d.toNat < c.toNat
        · rw [if_pos h2] at h
          exact absurd h (by simp)
        · rw [if_neg h2] at h
          rw [if_neg h2, if_neg h1]
          exact ih s h

/-- Tuple `<` is irreflexive. -/
theorem pairLtB_irrefl (p : PStr × PStr) : pairLtB p p = false := by
  simp [pairLtB, strLtB_irrefl]

/-- Tuple `<` is asymmetric. -/
theorem pairLtB_asymm (p q : PStr × PStr) (h : pairLtB p q = true) :
    pairLtB q p = false := by
  simp [pairLtB] at h ⊢
  rcases h with h | ⟨he, h2⟩
  · refine ⟨strLtB_asymm _ _ h, ?_⟩
    intro he
    rw [he] at h
    rw [strLtB_irrefl] at h
    exact absurd h (by simp)
  · refine ⟨?_, ?_⟩
    · rw [he, strLtB_irrefl]
    · intro _
      exact strLtB_asymm _ _ h2

/-- Adjacent sortedness in the tuple order. -/
def sortedP : List (PStr × PStr) → Prop
  | [] => True
  | [_] => True
  | x :: y :: r => pairLeB x y = true ∧ sortedP (y :: r)

/-- Insertion preserves sortedness. -/
theorem insertPair_sorted (x : PStr × PStr) :
    ∀ l, sortedP l → sortedP (insertPair x l) := by
  intro l
  induction l with
  | nil =>
    intro _
    trivial
  | cons y ys ih =>
    intro hs
    show sortedP (if pairLeB x y then x :: y :: ys else y :: insertPair x ys)
    by_cases hxy : pairLeB x y = true
    · rw [if_pos hxy]
      exact ⟨hxy, hs⟩
    · rw [if_neg hxy]
      have hyx : pairLeB y x = true := by
        simp [pairLeB] at hxy ⊢
        exact pairLtB_asymm y x hxy
      cases ys with
      | nil => exact ⟨hyx, trivial⟩
      | cons z zs =>
        by_cases hxz : pairLeB x z = true
        · have ihr := ih hs.2
          rw [show insertPair x (z :: zs) =
            (if pairLeB x z then x :: z :: zs else z :: insertPair x zs) from rfl,
            if_pos hxz] at ihr
          rw [show insertPair x (z :: zs) =
            (if pairLeB x z then x :: z :: zs else z :: insertPair x zs) from rfl,
            if_pos hxz]
          exact ⟨hyx, ihr⟩
        · have ihr := ih hs.2
          rw [show insertPair x (z :: zs) =
            (if pairLeB x z then x :: z :: zs else z :: insertPair x zs) from rfl,
            if_neg hxz] at ihr
          rw [show insertPair x (z :: zs) =
            (if pairLeB x z then x :: z :: zs else z :: insertPair x zs) from rfl,
            if_neg hxz]
          exact ⟨hs.1, ihr⟩

/-- `sortPairs` always produces a sorted list. -/
theorem sortPairs_sorted : ∀ l, sortedP (sortPairs l) := by
  intro l
  induction l with
  | nil => trivial
  | cons x xs ih => exact insertPair_sorted x (sortPairs xs) ih

/-- `sortPairs` fixes sorted lists. -/
theorem sortPairs_fixed : ∀ l, sortedP l → sortPairs l = l := by
  intro l
  induction l with
  | nil =>
    intro _
    rfl
  | cons x xs ih =>
    intro hs
    show insertPair x (sortPairs xs) = x :: xs
    cases xs with
    | nil => rfl
    | cons y ys =>
      rw [ih hs.2]
      show (if pairLeB x y then x :: y :: ys else y :: insertPair x ys) = x :: y :: ys
      rw [if_pos hs.1]

/-- `sortPairs` is idempotent. -/
theorem sortPairs_idem (l : List (PStr × PStr)) :
    sortPairs (sortPairs l) = sortPairs l :=
  sortPairs_fixed (sortPairs l) (sortPairs_sorted l)

/-- `splitChar` inverts an intercalation of separator-free groups. -/
theorem splitChar_intercalate (t : Char) : ∀ groups : List PStr,
    (∀ g ∈ groups, t ∉ g) → groups ≠ [] →
    splitChar t (List.intercalate [t] groups) = groups := by
  intro groups
  induction groups with
  | nil => exact fun _ h => absurd rfl h
  | cons g gs ih =>
    intro h _
    cases gs with
    | nil =>
      rw [intercalate_one]
      rw [splitChar_single t g (h g (List.mem_cons_self g _))]
    | cons g2 gs2 =>
      rw [intercalate_cons₂ [t] g (g2 :: gs2) (by simp)]
      rw [List.append_assoc]
      rw [show ([t] : PStr) ++ List.intercalate [t] (g2 :: gs2) =
        t :: List.intercalate [t] (g2 :: gs2) from rfl]
      rw [splitChar_append_sep t g _ (h g (List.mem_cons_self g _))]
      rw [ih (fun g2 hg2 => h g2 (List.mem_cons_of_mem g hg2)) (by simp)]

/-- `parse_qsl` inverts `urlencode` on non-empty pair lists. -/
theorem parse_qsl_urlencode : ∀ pairs : List (PStr × PStr), pairs ≠ [] →
    parse_qsl (urlencode pairs) = pairs := by
  intro pairs hne
  unfold parse_qsl urlencode
  have hfree : ∀ g ∈ pairs.map (fun p => pyQuotePlus p.1 ++ '=' :: pyQuotePlus p.2),
      '&' ∉ g := by
    intro g hg
    obtain ⟨p, hp, rfl⟩ := List.mem_map.mp hg
    intro hmem
    rcases List.mem_append.mp hmem with h1 | h2
    · rcases pyQuotePlus_chars _ '&' h1 with h | h | h | h
      · exact absurd h (by decide)
      · exact absurd h (by decide)
      · exact absurd h (by decide)
      · exact absurd h (by decide)
    · rcases List.mem_cons.mp h2 with he | h3
      · exact absurd he (by decide)
      · rcases pyQuotePlus_chars _ '&' h3 with h | h | h | h
        · exact absurd h (by decide)
        · exact absurd h (by decide)
        · exact absurd h (by decide)
        · exact absurd h (by decide)
  have hmapne : pairs.map (fun p => pyQuotePlus p.1 ++ '=' :: pyQuotePlus p.2) ≠ [] := by
    intro hmap
    exact hne (by simpa using hmap)
  rw [splitChar_intercalate '&' _ hfree hmapne, List.foldr_map]
  clear hfree hmapne hne
  induction pairs with
  | nil => rfl
  | cons p ps ih =>
    rw [List.foldr_cons]
    have henc : pyQuotePlus p.1 ++ '=' :: pyQuotePlus p.2 ≠ [] := by simp
    have heq : '=' ∉ pyQuotePlus p.1 := by
      intro hmem
      rcases pyQuotePlus_chars _ '=' hmem with h | h | h | h
      · exact absurd h (by decide)
      · exact absurd h (by decide)
      · exact absurd h (by decide)
      · exact absurd h (by decide)
    have hbreak := breakAt_append_sep '=' (pyQuotePlus p.1) (pyQuotePlus p.2) heq
    simp only []
    rw [if_neg henc, hbreak]
    simp only []
    rw [pyUnquotePlus_pyQuotePlus, pyUnquotePlus_pyQuotePlus, ih]

/-- `_normalize_query` is idempotent. -/
theorem normalize_query_idem (q0 : PStr) :
    _normalize_query (_normalize_query q0) = _normalize_query q0 := by
  by_cases h0 : q0 = []
  · rw [h0]
    rfl
  · unfold _normalize_query
    rw [if_neg h0]
    by_cases hp : sortPairs (parse_qsl q0) = []
    · rw [hp]
      rfl
    · have hne2 : urlencode (sortPairs (parse_qsl q0)) ≠ [] := by
        unfold urlencode
        cases hsp : sortPairs (parse_qsl q0) with
        | nil => exact absurd hsp hp
        | cons p ps =>
          rw [List.map_cons]
          cases hmp : ps.map (fun p => pyQuotePlus p.1 ++ '=' :: pyQuotePlus p.2) with
          | nil =>
            rw [intercalate_one]
            simp
          | cons g gs =>
            rw [intercalate_cons₂ ['&'] _ (g :: gs) (by simp)]
            simp
      rw [if_neg hne2]
      rw [parse_qsl_urlencode (sortPairs (parse_qsl q0)) hp]
      rw [sortPairs_idem]

/-- Characters of a normalized query. -/
theorem normalize_query_chars (q0 : PStr) : ∀ ch ∈ _normalize_query q0,
    ch ∈ alwaysSafe ∨ ch = '+' ∨ ch = '%' ∨ ch ∈ hexDigits ∨ ch = '&' ∨ ch = '=' := by
  intro ch hch
  unfold _normalize_query at hch
  by_cases h0 : q0 = []
  · rw [if_pos h0] at hch
    exact absurd hch (List.not_mem_nil ch)
  · rw [if_neg h0] at hch
    unfold urlencode at hch
    rcases mem_intercalate ['&'] _ ch hch with h | ⟨g, hg, hchg⟩
    · exact Or.inr (Or.inr (Or.inr (Or.inr (Or.inl (by simpa using h)))))
    · obtain ⟨p, hp, rfl⟩ := List.mem_map.mp hg
      rcases List.mem_append.mp hchg with h1 | h2
      · rcases pyQuotePlus_chars _ ch h1 with h | h | h | h
        · exact Or.inl h
        · exact Or.inr (Or.inl h)
        · exact Or.inr (Or.inr (Or.inl h))
        · exact Or.inr (Or.inr (Or.inr (Or.inl h)))
      · rcases List.mem_cons.mp h2 with he | h3
        · exact Or.inr (Or.inr (Or.inr (Or.inr (Or.inr he))))
        · rcases pyQuotePlus_chars _ ch h3 with h | h | h | h
          · exact Or.inl h
          · exact Or.inr (Or.inl h)
          · exact Or.inr (Or.inr (Or.inl h))
          · exact Or.inr (Or.inr (Or.inr (Or.inl h)))

/-- Members of a `takeWhile` prefix are members of the list. -/
theorem mem_takeWhile_sub (p : Char → Bool) : ∀ (l : PStr) (a : Char),
    a ∈ l.takeWhile p → a ∈ l := by
  intro l
  induction l with
  | nil =>
    intro a h
    simpa using h
  | cons c r ih =>
    intro a h
    rw [List.takeWhile_cons] at h
    by_cases hc : p c = true
    · rw [hc] at h
      simp only [if_pos] at h
      rcases List.mem_cons.mp h with he | hm
      · rw [he]
        exact List.mem_cons_self c r
      · exact List.mem_cons_of_mem c (ih a hm)
    · rw [Bool.not_eq_true] at hc
      rw [hc] at h
      simp at h
  done

/-- Dropping the `takeWhile` prefix is `dropWhile`. -/
theorem takeWhile_length_drop (p : Char → Bool) : ∀ l : PStr,
    l.drop (l.takeWhile p).length = l.dropWhile p := by
  intro l
  induction l with
  | nil => rfl
  | cons c r ih =>
    rw [List.takeWhile_cons, List.dropWhile_cons]
    by_cases hc : p c = true
    · rw [hc]
      simp only [if_pos]
      rw [List.length_cons, List.drop_succ_cons]
      exact ih
    · rw [Bool.not_eq_true] at hc
      rw [hc]
      simp
  done

/-- `breakAt` at an immediate separator. -/
theorem breakAt_cons_sep (t : Char) (rest : PStr) :
    breakAt t (t :: rest) = ([], some rest) := by
  simp [breakAt]

/-- `breakAt` past a non-separator head. -/
theorem breakAt_cons_ne (t c : Char) (rest : PStr) (hc : ¬ c = t) :
    breakAt t (c :: rest) = (c :: (breakAt t rest).1, (breakAt t rest).2) := by
  cases hb : breakAt t rest with
  | mk a b =>
    simp only [breakAt]
    rw [if_neg hc, hb]

/-- The prefix `breakAt` returns is drawn from the string. -/
theorem breakAt_fst_sub (t : Char) : ∀ (s : PStr), ∀ ch ∈ (breakAt t s).1, ch ∈ s := by
  intro s
  induction s with
  | nil =>
    intro ch hch
    simpa [breakAt] using hch
  | cons c r ih =>
    intro ch hch
    by_cases hc : c = t
    · rw [hc, breakAt_cons_sep] at hch
      simp at hch
    · rw [breakAt_cons_ne t c r hc] at hch
      rcases List.mem_cons.mp hch with he | hm
      · rw [he]
        exact List.mem_cons_self c r
      · exact List.mem_cons_of_mem c (ih ch hm)

/-- The path extracted after the netloc is empty or slash-initial. -/
theorem path_from_rest2 (rest2 : PStr)
    (hh : rest2.take 1 = [] ∨ rest2.take 1 = ['/'] ∨ rest2.take 1 = ['?'] ∨
      rest2.take 1 = ['#']) :
    (breakAt '?' (breakAt '#' rest2).1).1 = [] ∨
    ((breakAt '?' (breakAt '#' rest2).1).1).take 1 = ['/'] := by
  cases rest2 with
  | nil => exact Or.inl rfl
  | cons c rr =>
    have hc1 : (c :: rr).take 1 = [c] := rfl
    rcases hh with h | h | h | h
    · rw [hc1] at h
      exact absurd h (by simp)
    · have hce : c = '/' := by
        rw [hc1] at h
        simpa using h
      rw [hce, breakAt_cons_ne '#' '/' rr (by decide)]
      rw [show ((('/' : Char) :: (breakAt '#' rr).1,
        (breakAt '#' rr).2) : PStr × Option PStr).1 =
        '/' :: (breakAt '#' rr).1 from rfl]
      rw [breakAt_cons_ne '?' '/' _ (by decide)]
      exact Or.inr rfl
    · have hce : c = '?' := by
        rw [hc1] at h
        simpa using h
      rw [hce, breakAt_cons_ne '#' '?' rr (by decide)]
      rw [show ((('?' : Char) :: (breakAt '#' rr).1,
        (breakAt '#' rr).2) : PStr × Option PStr).1 =
        '?' :: (breakAt '#' rr).1 from rfl]
      rw [breakAt_cons_sep '?' _]
      exact Or.inl rfl
    · have hce : c = '#' := by
        rw [hc1] at h
        simpa using h
      rw [hce, breakAt_cons_sep '#' rr]
      exact Or.inl rfl

/-- Heads after dropping netloc characters. -/
theorem dropWhile_head_cases (after : PStr) :
    (after.dropWhile (fun c => ¬ (c = '/' ∨ c = '?' ∨ c = '#'))).take 1 = [] ∨
    (after.dropWhile (fun c => ¬ (c = '/' ∨ c = '?' ∨ c = '#'))).take 1 = ['/'] ∨
    (after.dropWhile (fun c => ¬ (c = '/' ∨ c = '?' ∨ c = '#'))).take 1 = ['?'] ∨
    (after.dropWhile (fun c => ¬ (c = '/' ∨ c = '?' ∨ c = '#'))).take 1 = ['#'] := by
  cases hd : after.dropWhile (fun c => ¬ (c = '/' ∨ c = '?' ∨ c = '#')) with
  | nil => exact Or.inl rfl
  | cons c rr =>
    have hp := head_dropWhile_false _ after c (by rw [hd]; rfl)
    have himp : ¬c = '/' → ¬c = '?' → c = '#' := by simpa using hp
    have hc : c = '/' ∨ c = '?' ∨ c = '#' := by
      by_cases e1 : c = '/'
      · exact Or.inl e1
      · by_cases e2 : c = '?'
        · exact Or.inr (Or.inl e2)
        · exact Or.inr (Or.inr (himp e1 e2))
    rcases hc with he | he | he
    · exact Or.inr (Or.inl (by rw [he]; rfl))
    · exact Or.inr (Or.inr (Or.inl (by rw [he]; rfl)))
    · exact Or.inr (Or.inr (Or.inr (by rw [he]; rfl)))

/-- Structural properties of a successful `urlsplit`. -/
theorem urlsplitE_ok_props (u0 : PStr) (r : SplitResult) (h : urlsplitE u0 = .ok r) :
    (∀ ch ∈ r.netloc, ¬ (ch = '/' ∨ ch = '?' ∨ ch = '#')) ∧
    (∀ ch ∈ r.netloc, ¬ (ch = '\t' ∨ ch = '\r' ∨ ch = '\n')) ∧
    ¬ (('[' ∈ r.netloc ∧ ']' ∉ r.netloc) ∨ (']' ∈ r.netloc ∧ '[' ∉ r.netloc)) ∧
    (r.netloc ≠ [] → r.path = [] ∨ r.path.take 1 = ['/']) ∧
    (∀ ch ∈ r.path, ¬ (ch = '?' ∨ ch = '#')) ∧
    (∀ ch ∈ r.path, ¬ (ch = '\t' ∨ ch = '\r' ∨ ch = '\n')) := by
  have hUclean : ∀ ch ∈ removeUnsafeBytes u0,
      ¬ (ch = '\t' ∨ ch = '\r' ∨ ch = '\n') := by
    intro ch hch
    unfold removeUnsafeBytes at hch
    have hf := List.of_mem_filter hch
    simpa using hf
  simp only [urlsplitE] at h
  split at h
  · dsimp only at h
    split at h
    · split at h
      · exact absurd h (by simp)
      · rename_i hbr
        have hr := Except.ok.inj h
        subst hr
        dsimp only
        refine ⟨?_, ?_, hbr, ?_, ?_, ?_⟩
        · intro ch hch
          have := List.mem_takeWhile_imp hch
          simpa using this
        · intro ch hch
          exact hUclean ch (List.drop_subset _ _
            (List.drop_subset _ _ (mem_takeWhile_sub _ _ ch hch)))
        · intro _
          refine path_from_rest2 _ ?_
          rw [takeWhile_length_drop]
          exact dropWhile_head_cases _
        · intro ch hch
          intro hcon
          rcases hcon with he | he
          · exact breakAt_fst_not_mem '?' _ (he ▸ hch)
          · exact breakAt_fst_not_mem '#' _ (he ▸ breakAt_fst_sub '?' _ ch hch)
        · intro ch hch
          exact hUclean ch (List.drop_subset _ _ (List.drop_subset _ _
            (List.drop_subset _ _
              (breakAt_fst_sub '#' _ ch (breakAt_fst_sub '?' _ ch hch)))))
    · have hr := Except.ok.inj h
      subst hr
      dsimp only
      refine ⟨?_, ?_, ?_, ?_, ?_, ?_⟩
      · intro ch hch
        exact absurd hch (List.not_mem_nil ch)
      · intro ch hch
        exact absurd hch (List.not_mem_nil ch)
      · simp
      · intro hne
        exact absurd rfl hne
      · intro ch hch
        intro hcon
        rcases hcon with he | he
        · exact breakAt_fst_not_mem '?' _ (he ▸ hch)
        · exact breakAt_fst_not_mem '#' _ (he ▸ breakAt_fst_sub '?' _ ch hch)
      · intro ch hch
        exact hUclean ch (List.drop_subset _ _
          (breakAt_fst_sub '#' _ ch (breakAt_fst_sub '?' _ ch hch)))
  · dsimp only at h
    split at h
    · split at h
      · exact absurd h (by simp)
      · rename_i hbr
        have hr := Except.ok.inj h
        subst hr
        dsimp only
        refine ⟨?_, ?_, hbr, ?_, ?_, ?_⟩
        · intro ch hch
          have := List.mem_takeWhile_imp hch
          simpa using this
        · intro ch hch
          exact hUclean ch (List.drop_subset _ _ (mem_takeWhile_sub _ _ ch hch))
        · intro _
          refine path_from_rest2 _ ?_
          rw [takeWhile_length_drop]
          exact dropWhile_head_cases _
        · intro ch hch
          intro hcon
          rcases hcon with he | he
          · exact breakAt_fst_not_mem '?' _ (he ▸ hch)
          · exact breakAt_fst_not_mem '#' _ (he ▸ breakAt_fst_sub '?' _ ch hch)
        · intro ch hch
          exact hUclean ch (List.drop_subset _ _ (List.drop_subset _ _
            (breakAt_fst_sub '#' _ ch (breakAt_fst_sub '?' _ ch hch))))
    · have hr := Except.ok.inj h
      subst hr
      dsimp only
      refine ⟨?_, ?_, ?_, ?_, ?_, ?_⟩
      · intro ch hch
        exact absurd hch (List.not_mem_nil ch)
      · intro ch hch
        exact absurd hch (List.not_mem_nil ch)
      · simp
      · intro hne
        exact absurd rfl hne
      · intro ch hch
        intro hcon
        rcases hcon with he | he
        · exact breakAt_fst_not_mem '?' _ (he ▸ hch)
        · exact breakAt_fst_not_mem '#' _ (he ▸ breakAt_fst_sub '?' _ ch hch)
      · intro ch hch
        exact hUclean ch (breakAt_fst_sub '#' _ ch (breakAt_fst_sub '?' _ ch hch))

/-- Inversion of a successful `canonicalize_url`. -/
theorem canonicalize_ok_inv (u c : PStr) (h : canonicalize_url u = .ok c) :
    ∃ split : SplitResult, urlsplitE (pyStrip u) = .ok split ∧
      split.scheme ≠ [] ∧
      (pyLower split.scheme = "http".toList ∨ pyLower split.scheme = "https".toList) ∧
      split.netloc ≠ [] ∧
      c = urlunsplit ⟨pyLower split.scheme,
        _normalize_netloc split.netloc (pyLower split.scheme),
        _normalize_path split.path, _normalize_query split.query, []⟩ := by
  simp only [canonicalize_url] at h
  split at h
  · exact absurd h (by simp)
  · split at h
    · exact absurd h (by simp)
    · rename_i split hsp
      split at h
      · exact absurd h (by simp)
      · rename_i h1
        split at h
        · exact absurd h (by simp)
        · rename_i h2
          split at h
          · exact absurd h (by simp)
          · rename_i h3
            exact ⟨split, hsp, h1, not_not.mp h2, h3, (Except.ok.inj h).symm⟩

/-- Splitting a URL whose remainder does not start with two slashes yields an
empty netloc. -/
theorem urlsplitE_no_netloc (scheme rest0 : PStr)
    (hsch_len : 0 < scheme.length)
    (hsch_alpha : (scheme.headD ' ').isAlpha = true)
    (hsch_chars : scheme.all isSchemeChar = true)
    (hsch_nocolon : ':' ∉ scheme)
    (hsch_nobad : ∀ ch ∈ scheme, ¬ (ch = '\t' ∨ ch = '\r' ∨ ch = '\n'))
    (hrest_nobad : ∀ ch ∈ rest0, ¬ (ch = '\t' ∨ ch = '\r' ∨ ch = '\n'))
    (hrest2 : ¬ rest0.take 2 = ['/', '/']) :
    ∃ r : SplitResult, urlsplitE (scheme ++ ':' :: rest0) = .ok r ∧
      r.scheme = pyLower scheme ∧ r.netloc = [] := by
  set u : PStr := scheme ++ ':' :: rest0 with hu
  have hclean : removeUnsafeBytes u = u := by
    unfold removeUnsafeBytes
    rw [List.filter_eq_self]
    intro a ha
    rw [hu] at ha
    simp only [decide_not, Bool.not_eq_eq_eq_not, Bool.not_true, decide_eq_false_iff_not]
    rcases List.mem_append.mp ha with h1 | h2
    · exact hsch_nobad a h1
    · rcases List.mem_cons.mp h2 with he | h3
      · rw [he]
        intro hcon
        rcases hcon with h | h | h <;> exact absurd h (by decide)
      · exact hrest_nobad a h3
  have hpre : u.takeWhile (· ≠ ':') = scheme := by
    rw [hu]
    refine takeWhile_append_stop _ scheme ':' _ ?_ (by simp)
    intro x hx
    simp only [ne_eq, decide_eq_true_eq]
    intro he
    rw [he] at hx
    exact hsch_nocolon hx
  have hdrop : u.drop (scheme.length + 1) = rest0 := by
    rw [hu]
    exact drop_succ_append scheme ':' _
  have hcond : List.length scheme < List.length u ∧ 0 < List.length scheme ∧
      (List.headD u ' ').isAlpha = true ∧ List.all scheme isSchemeChar = true := by
    refine ⟨?_, hsch_len, ?_, hsch_chars⟩
    · rw [hu]
      simp only [List.length_append, List.length_cons]
      omega
    · cases hsch : scheme with
      | nil =>
        rw [hsch] at hsch_len
        simp at hsch_len
      | cons c s2 =>
        have halpha := hsch_alpha
        rw [hsch] at halpha
        rw [hu, hsch]
        simpa using (by simpa using halpha)
  simp only [urlsplitE]
  rw [hclean, hpre, if_pos hcond, hdrop]
  dsimp only
  rw [if_neg hrest2]
  exact ⟨_, rfl, rfl, rfl⟩

/-- The normalized netloc stays free of delimiter and unsafe characters and
keeps brackets matched. -/
theorem normalize_netloc_clean (netloc0 scheme : PStr)
    (hs : scheme = "http".toList ∨ scheme = "https".toList)
    (hc0 : ∀ ch ∈ netloc0, ¬ (ch = '/' ∨ ch = '?' ∨ ch = '#'))
    (hb0 : ∀ ch ∈ netloc0, ¬ (ch = '\t' ∨ ch = '\r' ∨ ch = '\n'))
    (hbr0 : ¬ (('[' ∈ netloc0 ∧ ']' ∉ netloc0) ∨ (']' ∈ netloc0 ∧ '[' ∉ netloc0))) :
    (∀ ch ∈ _normalize_netloc netloc0 scheme, ¬ (ch = '/' ∨ ch = '?' ∨ ch = '#')) ∧
    (∀ ch ∈ _normalize_netloc netloc0 scheme,
      ¬ (ch = '\t' ∨ ch = '\r' ∨ ch = '\n')) ∧
    ¬ (('[' ∈ _normalize_netloc netloc0 scheme ∧
        ']' ∉ _normalize_netloc netloc0 scheme) ∨
       (']' ∈ _normalize_netloc netloc0 scheme ∧
        '[' ∉ _normalize_netloc netloc0 scheme)) := by
  obtain ⟨userinfo, host, portF, hEQ, hfix, hu_sub, hh_sub, hp_sub, hbr_iff⟩ :=
    normalize_netloc_shape netloc0 scheme hs
  have hnotmem : ∀ x : Char, x.toNat < 65 → ¬ x = '@' → ¬ x = ':' →
      x ∉ netloc0 → x ∉ _normalize_netloc netloc0 scheme := by
    intro x hx h1 h2 h0 hmem
    rw [hEQ] at hmem
    rcases (mem_netlocNF userinfo host portF x h1 h2).mp hmem with hm | hm | hm
    · exact h0 (hu_sub x hm)
    · obtain ⟨o, ho, hxo⟩ := hh_sub x hm
      have hox : o = x := (toLower_eq_nonletter o x (Or.inl hx)).mp hxo.symm
      exact h0 (hox ▸ ho)
    · exact h0 (hp_sub x hm)
  refine ⟨?_, ?_, ?_⟩
  · intro ch hch hcon
    rcases hcon with he | he | he
    · rw [he] at hch
      exact hnotmem '/' (by decide) (by decide) (by decide)
        (fun hm => hc0 '/' hm (Or.inl rfl)) hch
    · rw [he] at hch
      exact hnotmem '?' (by decide) (by decide) (by decide)
        (fun hm => hc0 '?' hm (Or.inr (Or.inl rfl))) hch
    · rw [he] at hch
      exact hnotmem '#' (by decide) (by decide) (by decide)
        (fun hm => hc0 '#' hm (Or.inr (Or.inr rfl))) hch
  · intro ch hch hcon
    rcases hcon with he | he | he
    · rw [he] at hch
      exact hnotmem '\t' (by decide) (by decide) (by decide)
        (fun hm => hb0 '\t' hm (Or.inl rfl)) hch
    · rw [he] at hch
      exact hnotmem '\r' (by decide) (by decide) (by decide)
        (fun hm => hb0 '\r' hm (Or.inr (Or.inl rfl))) hch
    · rw [he] at hch
      exact hnotmem '\n' (by decide) (by decide) (by decide)
        (fun hm => hb0 '\n' hm (Or.inr (Or.inr rfl))) hch
  · intro hcon
    apply hbr0
    have hiff1 := hbr_iff '[' (Or.inl rfl)
    have hiff2 := hbr_iff ']' (Or.inr rfl)
    rw [← hEQ] at hiff1 hiff2
    rcases hcon with ⟨ha, hb⟩ | ⟨ha, hb⟩
    · exact Or.inl ⟨hiff1.mp ha, fun hm => hb (hiff2.mpr hm)⟩
    · exact Or.inr ⟨hiff2.mp ha, fun hm => hb (hiff1.mpr hm)⟩

/-- `urlunsplit` when either the netloc is present or the path starts with
two slashes. -/
theorem urlunsplit_form₂ (scheme N P Q : PStr)
    (hcond : N ≠ [] ∨ P.take 2 = ['/', '/']) (hs : scheme ≠ [])
    (hP : P.take 1 = ['/']) :
    urlunsplit ⟨scheme, N, P, Q, []⟩ =
      scheme ++ ':' :: '/' :: '/' :: (N ++ P ++ (if Q ≠ [] then '?' :: Q else [])) := by
  have hPne : ¬ (P ≠ [] ∧ P.take 1 ≠ ['/']) := by
    intro hcon
    exact hcon.2 hP
  simp only [urlunsplit]
  rw [if_pos hcond, if_neg hPne, if_pos hs]
  by_cases hq : Q = []
  · simp [hq]
  · simp [hq]

/-- `urlunsplit` with no netloc and a path not starting with two slashes. -/
theorem urlunsplit_no_netloc (scheme P Q : PStr) (hs : scheme ≠ [])
    (hP2 : ¬ P.take 2 = ['/', '/']) :
    urlunsplit ⟨scheme, [], P, Q, []⟩ =
      scheme ++ ':' :: (P ++ (if Q ≠ [] then '?' :: Q else [])) := by
  have hcond : ¬ (([] : PStr) ≠ [] ∨ P.take 2 = ['/', '/']) := by
    intro hor
    rcases hor with h | h
    · exact h rfl
    · exact hP2 h
  simp only [urlunsplit]
  rw [if_neg hcond, if_pos hs]
  by_cases hq : Q = []
  · simp [hq]
  · simp [hq, List.append_assoc]

/-- The canonical path shape starts with two slashes exactly when it has two
leading slashes. -/
theorem pathNF_take2 (k : Nat) (comps : List PStr) (tr : Bool)
    (hk1 : 1 ≤ k) (hk2 : k ≤ 2) (hcomps : ∀ c ∈ comps, goodComp c)
    (hcem : comps = [] → k = 1 ∧ tr = false) :
    (pathNF k comps tr).take 2 = ['/', '/'] ↔ k = 2 := by
  cases comps with
  | nil =>
    obtain ⟨rfl, rfl⟩ := hcem rfl
    constructor
    · intro h
      exact absurd h (by decide)
    · intro h
      omega
  | cons c1 cs =>
    obtain ⟨ch, c1t, rfl⟩ : ∃ ch c1t, c1 = ch :: c1t := by
      cases c1 with
      | nil => exact absurd rfl (hcomps [] (List.mem_cons_self _ _)).1
      | cons a b => exact ⟨a, b, rfl⟩
    have hch : ch ≠ '/' := by
      intro h
      apply (hcomps (ch :: c1t) (List.mem_cons_self _ _)).2.2.2
      rw [← h]
      exact List.mem_cons_self ch c1t
    obtain ⟨Y, hY⟩ := intercalate_head (ch :: c1t) cs
    obtain ⟨R, hpR⟩ : ∃ R, pathNF k ((ch :: c1t) :: cs) tr =
        List.replicate k '/' ++ ch :: R := by
      refine ⟨c1t ++ (Y ++ (if tr then ['/'] else [])), ?_⟩
      unfold pathNF
      rw [hY]
      simp
    rcases (by omega : k = 1 ∨ k = 2) with rfl | rfl
    · rw [show pathNF 1 ((ch :: c1t) :: cs) tr = '/' :: ch :: R from by rw [hpR]; rfl]
      constructor
      · intro h
        have hce : ch = '/' := by simpa [List.take] using h
        exact absurd hce hch
      · intro h
        omega
    · rw [show pathNF 2 ((ch :: c1t) :: cs) tr = '/' :: '/' :: ch :: R from by
        rw [hpR]; rfl]
      constructor
      · intro _
        rfl
      · intro _
        rfl

set_option maxHeartbeats 1000000 in
/-- C9: canonicalize_url is idempotent on accepted URLs whose canonical form
has no surrounding whitespace and is itself accepted: if
`canonicalize_url u = ok c`, `c` is stripped, and `canonicalize_url c = ok d`,
then `d = c`.  (The counterexample shows the two failure modes the original
claim misses: a canonical form whose normalized host became empty
re-canonicalizes to an error, and a canonical form with trailing whitespace
changes under the second strip.) -/
theorem C9_canonical_idem (u c d : PStr)
    (h1 : canonicalize_url u = .ok c) (h2 : pyStrip c = c)
    (h3 : canonicalize_url c = .ok d) : d = c := by
  obtain ⟨sp, hsp, hs1, hs2, hs3, hc⟩ := canonicalize_ok_inv u c h1
  obtain ⟨hn_clean, hn_nobad, hn_br, hpath_shape, hp_clean, hp_nobad⟩ :=
    urlsplitE_ok_props _ sp hsp
  have hP0 : sp.path = [] ∨ sp.path.take 1 = ['/'] := hpath_shape hs3
  obtain ⟨k, comps, tr, hPeq, hk1, hk2, hcomps, hcem, hPchars⟩ :=
    normalize_path_shape sp.path hP0
  obtain ⟨hN_clean, hN_nobad, hN_br⟩ :=
    normalize_netloc_clean sp.netloc (pyLower sp.scheme) hs2 hn_clean hn_nobad hn_br
  have hS_len : 0 < (pyLower sp.scheme).length := by
    rcases hs2 with h | h <;> rw [h] <;> decide
  have hS_alpha : ((pyLower sp.scheme).headD ' ').isAlpha = true := by
    rcases hs2 with h | h <;> rw [h] <;> decide
  have hS_chars : (pyLower sp.scheme).all isSchemeChar = true := by
    rcases hs2 with h | h <;> rw [h] <;> decide
  have hS_nocolon : ':' ∉ pyLower sp.scheme := by
    rcases hs2 with h | h <;> rw [h] <;> decide
  have hS_lower : pyLower (pyLower sp.scheme) = pyLower sp.scheme := by
    rcases hs2 with h | h <;> rw [h] <;> decide
  have hS_nobad : ∀ ch ∈ pyLower sp.scheme,
      ¬ (ch = '\t' ∨ ch = '\r' ∨ ch = '\n') := by
    rcases hs2 with h | h <;> rw [h] <;> decide
  have hS_ne : pyLower sp.scheme ≠ [] := by
    rcases hs2 with h | h <;> rw [h] <;> decide
  have hP_head : (_normalize_path sp.path).take 1 = ['/'] := by
    rw [hPeq]
    exact pathNF_take1 k comps tr hk1
  have hP_clean : ∀ ch ∈ _normalize_path sp.path, ¬ (ch = '?' ∨ ch = '#') := by
    intro ch hch hcon
    rcases hPchars ch hch with he | hm
    · rw [he] at hcon
      rcases hcon with h | h <;> exact absurd h (by decide)
    · exact hp_clean ch hm hcon
  have hP_nobad : ∀ ch ∈ _normalize_path sp.path,
      ¬ (ch = '\t' ∨ ch = '\r' ∨ ch = '\n') := by
    intro ch hch hcon
    rcases hPchars ch hch with he | hm
    · rw [he] at hcon
      rcases hcon with h | h | h <;> exact absurd h (by decide)
    · exact hp_nobad ch hm hcon
  have hQ_clean : ∀ ch ∈ _normalize_query sp.query, ¬ ch = '#' := by
    intro ch hch he
    rcases normalize_query_chars sp.query ch hch with h | h | h | h | h | h <;>
      rw [he] at h <;> exact absurd h (by decide)
  have hQ_nobad : ∀ ch ∈ _normalize_query sp.query,
      ¬ (ch = '\t' ∨ ch = '\r' ∨ ch = '\n') := by
    intro ch hch hcon
    have hsix := normalize_query_chars sp.query ch hch
    rcases hcon with he | he | he <;> rw [he] at hsix <;>
      rcases hsix with h | h | h | h | h | h <;> exact absurd h (by decide)
  have hPfix : _normalize_path (_normalize_path sp.path) =
      _normalize_path sp.path := by
    rw [hPeq]
    exact normalize_path_fixed k comps tr hk1 hk2 hcomps hcem
  have hQfix : _normalize_query (_normalize_query sp.query) =
      _normalize_query sp.query := normalize_query_idem sp.query
  have hNfix : _normalize_netloc (_normalize_netloc sp.netloc (pyLower sp.scheme))
      (pyLower sp.scheme) = _normalize_netloc sp.netloc (pyLower sp.scheme) := by
    obtain ⟨userinfo, host, portF, hEQ, ⟨ha1, ha2, ha3, ha4, ha5, ha6, ha7⟩,
      _, _, _, _⟩ := normalize_netloc_shape sp.netloc (pyLower sp.scheme) hs2
    rw [hEQ]
    exact normalize_netloc_fixed (pyLower sp.scheme) userinfo host portF hs2
      ha1 ha2 ha3 ha4 ha5 ha6 ha7
  by_cases hNe : _normalize_netloc sp.netloc (pyLower sp.scheme) = []
  · have htake2 := pathNF_take2 k comps tr hk1 hk2 hcomps hcem
    by_cases hk2p : k = 2
    · have hPt2 : (_normalize_path sp.path).take 2 = ['/', '/'] := by
        rw [hPeq]
        exact htake2.mpr hk2p
      have hcform : c = pyLower sp.scheme ++ ':' :: '/' :: '/' ::
          (([] : PStr) ++ _normalize_path sp.path ++
            (if _normalize_query sp.query ≠ [] then
              '?' :: _normalize_query sp.query else [])) := by
        rw [hc, hNe]
        exact urlunsplit_form₂ _ [] _ _ (Or.inr hPt2) hS_ne hP_head
      have hsplit2 := urlsplitE_canonical (pyLower sp.scheme) []
        (_normalize_path sp.path) (_normalize_query sp.query) hS_len hS_alpha
        hS_chars hS_nocolon hS_lower hS_nobad
        (fun ch hch => absurd hch (List.not_mem_nil ch))
        (fun ch hch => absurd hch (List.not_mem_nil ch))
        (by simp)
        hP_head hP_clean hP_nobad hQ_clean hQ_nobad
      have hcne : c ≠ [] := by
        rw [hcform]
        rcases hs2 with h | h <;> rw [h] <;> simp
      simp only [canonicalize_url] at h3
      rw [if_neg hcne, h2, hcform, hsplit2] at h3
      dsimp only at h3
      rw [if_neg hS_ne] at h3
      rw [if_neg (not_not_intro
        (show pyLower (pyLower sp.scheme) = "http".toList ∨
          pyLower (pyLower sp.scheme) = "https".toList from by
            rw [hS_lower]; exact hs2))] at h3
      rw [if_pos (rfl : ([] : PStr) = [])] at h3
      exact absurd h3 (by simp)
    · have hPt2 : ¬ (_normalize_path sp.path).take 2 = ['/', '/'] := by
        rw [hPeq]
        intro hcon
        exact hk2p (htake2.mp hcon)
      have hcform : c = pyLower sp.scheme ++ ':' ::
          (_normalize_path sp.path ++ (if _normalize_query sp.query ≠ [] then
            '?' :: _normalize_query sp.query else [])) := by
        rw [hc, hNe]
        exact urlunsplit_no_netloc _ _ _ hS_ne hPt2
      have hrest2 : ¬ (_normalize_path sp.path ++
          (if _normalize_query sp.query ≠ [] then
            '?' :: _normalize_query sp.query else [])).take 2 = ['/', '/'] := by
        obtain ⟨p1, P2, hPc⟩ : ∃ p1 P2, _normalize_path sp.path = p1 :: P2 := by
          cases hx : _normalize_path sp.path with
          | nil =>
            rw [hx] at hP_head
            simp at hP_head
          | cons a b => exact ⟨a, b, rfl⟩
        have hp1 : p1 = '/' := by
          rw [hPc] at hP_head
          simpa using hP_head
        cases hP2 : P2 with
        | nil =>
          rw [hPc, hP2, hp1]
          by_cases hq : _normalize_query sp.query ≠ []
          · rw [if_pos hq]
            intro hcon
            simp [List.take] at hcon
          · rw [if_neg hq]
            intro hcon
            simp [List.take] at hcon
        | cons p2 P3 =>
          have hp2 : p2 ≠ '/' := by
            intro he
            apply hPt2
            rw [hPc, hP2, hp1, he]
            rfl
          rw [hPc, hP2, hp1]
          intro hcon
          rw [List.cons_append, List.cons_append] at hcon
          have : p2 = '/' := by simpa [List.take] using hcon
          exact hp2 this
      have hrest_nobad : ∀ ch ∈ _normalize_path sp.path ++
          (if _normalize_query sp.query ≠ [] then
            '?' :: _normalize_query sp.query else []),
          ¬ (ch = '\t' ∨ ch = '\r' ∨ ch = '\n') := by
        intro ch hch
        rcases List.mem_append.mp hch with hm | hm
        · exact hP_nobad ch hm
        · by_cases hq : _normalize_query sp.query ≠ []
          · rw [if_pos hq] at hm
            rcases List.mem_cons.mp hm with he | hm2
            · rw [he]
              intro hcon
              rcases hcon with h | h | h <;> exact absurd h (by decide)
            · exact hQ_nobad ch hm2
          · rw [if_neg hq] at hm
            exact absurd hm (List.not_mem_nil ch)
      obtain ⟨r2, hsp2, hr2s, hr2n⟩ := urlsplitE_no_netloc (pyLower sp.scheme) _
        hS_len hS_alpha hS_chars hS_nocolon hS_nobad hrest_nobad hrest2
      have hcne : c ≠ [] := by
        rw [hcform]
        rcases hs2 with h | h <;> rw [h] <;> simp
      simp only [canonicalize_url] at h3
      rw [if_neg hcne, h2, hcform, hsp2] at h3
      dsimp only at h3
      rw [if_neg (show ¬ r2.scheme = [] from by
        rw [hr2s, hS_lower]; exact hS_ne)] at h3
      rw [if_neg (not_not_intro
        (show pyLower r2.scheme = "http".toList ∨
          pyLower r2.scheme = "https".toList from by
            rw [hr2s, hS_lower, hS_lower]; exact hs2))] at h3
      rw [if_pos hr2n] at h3
      exact absurd h3 (by simp)
  · have hcform : c = pyLower sp.scheme ++ ':' :: '/' :: '/' ::
        (_normalize_netloc sp.netloc (pyLower sp.scheme) ++
          _normalize_path sp.path ++
          (if _normalize_query sp.query ≠ [] then
            '?' :: _normalize_query sp.query else [])) := by
      rw [hc]
      exact urlunsplit_form _ _ _ _ hNe hS_ne hP_head
    have hsplit2 := urlsplitE_canonical (pyLower sp.scheme)
      (_normalize_netloc sp.netloc (pyLower sp.scheme)) (_normalize_path sp.path)
      (_normalize_query sp.query) hS_len hS_alpha hS_chars hS_nocolon hS_lower
      hS_nobad hN_clean hN_nobad hN_br hP_head hP_clean hP_nobad hQ_clean hQ_nobad
    have hcne : c ≠ [] := by
      rw [hcform]
      rcases hs2 with h | h <;> rw [h] <;> simp
    simp only [canonicalize_url] at h3
    rw [if_neg hcne, h2, hcform, hsplit2] at h3
    dsimp only at h3
    rw [if_neg hS_ne] at h3
    rw [if_neg (not_not_intro
      (show pyLower (pyLower sp.scheme) = "http".toList ∨
        pyLower (pyLower sp.scheme) = "https".toList from by
          rw [hS_lower]; exact hs2))] at h3
    rw [if_neg hNe] at h3
    have hd := (Except.ok.inj h3).symm
    rw [hd, hc, hS_lower, hNfix, hPfix, hQfix]

set_option maxRecDepth 40000 in
/-- Counterexample to the original claim: `http://..` is accepted, but its
canonical form `http:/` (the host normalized away) is rejected by the second
canonicalization; and the accepted `http://h/a ?` canonicalizes to a form with
a trailing space, which the second canonicalization strips, changing it. -/
theorem C9_counterexample :
    canonicalize_url "http://..".toList = .ok "http:/".toList ∧
    canonicalize_url "http:/".toList =
      .error "URL must include a network location" ∧
    canonicalize_url "http://h/a ?".toList = .ok "http://h/a ".toList ∧
    canonicalize_url "http://h/a ".toList = .ok "http://h/a".toList ∧
    ("http://h/a".toList : PStr) ≠ "http://h/a ".toList := by
  refine ⟨?_, ?_, ?_, ?_, ?_⟩
  · decide
  · decide
  · decide
  · decide
  · decide

set_option maxRecDepth 100000 in
/-- Witness: the amended idempotence theorem applied at a concrete URL. -/
theorem C9_witness :
    canonicalize_url "HTTP://Example.COM:80/a/../b?z=3&y=2".toList =
      .ok "http://example.com/b?y=2&z=3".toList ∧
    pyStrip "http://example.com/b?y=2&z=3".toList =
      "http://example.com/b?y=2&z=3".toList ∧
    canonicalize_url "http://example.com/b?y=2&z=3".toList =
      .ok "http://example.com/b?y=2&z=3".toList ∧
    ("http://example.com/b?y=2&z=3".toList : PStr) =
      "http://example.com/b?y=2&z=3".toList := by
  have ha : canonicalize_url "HTTP://Example.COM:80/a/../b?z=3&y=2".toList =
      .ok "http://example.com/b?y=2&z=3".toList := by decide
  have hb : pyStrip "http://example.com/b?y=2&z=3".toList =
      "http://example.com/b?y=2&z=3".toList := by decide
  have hcq : canonicalize_url "http://example.com/b?y=2&z=3".toList =
      .ok "http://example.com/b?y=2&z=3".toList := by decide
  exact ⟨ha, hb, hcq, C9_canonical_idem _ _ _ hcq hb hcq⟩
